import Mathlib

/-!
# dirdiff: a shallow embedding of `dirdiff.go`

The program walks a source tree, compares every regular file with its
counterpart in a target tree by SHA-256 fingerprint, copies new or changed
files below a staging root (diff directory joined with the base name of the
target directory) and creates missing directories below the target root.

Layout of this development:

* strings and `path/filepath` functions used by the program
  (`strings.Replace`, `Clean`, `Join`, `Base`, `Dir`, `Abs`);
* SHA-256 and its hexadecimal rendering;
* a file system: a finite map from absolute paths (lists of names) to
  entries, with the `os` calls the program makes (`Stat`, `Open`, `Create`,
  `MkdirAll`, directory listing) and `filepath.Walk`;
* the program itself: `FileExists`, `IsDirectory`, `GetSha256`, `basecopy`,
  `filecopy`, `Config.copyFiles`, `Config.ParseCommandLine`, with the flag
  variables of the package as state and `Parse` of the `flag` package;
* theorems about the program.

Scope of the file system: regular files and directories only (no symbolic
links, no special files); a regular file carries one permission bit, whether
the process may open it; directories are always accessible.  Lines printed
in verbose mode are not part of the state.
-/

set_option linter.unusedVariables false

namespace DirDiff

/-- Go strings, as lists of characters. -/
abbrev Str := List Char

/-- File contents, as lists of byte values. -/
abbrev Bytes := List Nat

/-- An absolute path in resolved form: the names from the root downwards. -/
abbrev Path := List Str

/-- The bytes of an ASCII string literal. -/
def ascii (s : String) : Bytes := s.data.map Char.toNat

/-! ## Package `strings` -/

/-- Go `strings.HasPrefix`. -/
def stringsHasPrefix (s pre : Str) : Bool := pre.isPrefixOf s

/-- Go `strings.Index`: the first position at which `sub` occurs in `s`
(`none` stands for Go's `-1`). -/
def stringsIndex : Str → Str → Option Nat
  | [], sub => if sub = [] then some 0 else none
  | c :: t, sub =>
    if sub.isPrefixOf (c :: t) then some 0
    else (stringsIndex t sub).map (· + 1)

/-- Counting loop of `strings.Count` for a non-empty `sub`. -/
def countFrom : Nat → Str → Str → Nat
  | 0, _, _ => 0
  | fuel + 1, s, sub =>
    match stringsIndex s sub with
    | none => 0
    | some i => 1 + countFrom fuel (s.drop (i + sub.length)) sub

/-- Go `strings.Count`: the number of non-overlapping occurrences of `sub`;
for an empty `sub`, one more than the number of characters of `s`. -/
def stringsCount (s sub : Str) : Nat :=
  if sub = [] then s.length + 1 else countFrom (s.length + 1) s sub

/-- The replacement loop of `strings.Replace`: `k` replacements remain,
`first` tells whether this is the first round, `rest` is `s[start:]`. -/
def replaceLoop (old new : Str) : Nat → Bool → Str → Str
  | 0, _, rest => rest
  | k + 1, first, rest =>
    if old = [] then
      if first then new ++ replaceLoop old new k false rest
      else
        match rest with
        | [] => []
        | c :: r => c :: (new ++ replaceLoop old new k false r)
    else
      match stringsIndex rest old with
      | none => rest
      | some j =>
        rest.take j ++ new ++ replaceLoop old new k false (rest.drop (j + old.length))

/-- Go `strings.Replace(s, old, new, n)`: the first `n` non-overlapping
occurrences of `old` replaced by `new` (all of them for a negative `n`). -/
def stringsReplace (s old new : Str) (n : Int) : Str :=
  if old = new ∨ n = 0 then s
  else
    let m := stringsCount s old
    if m = 0 then s
    else
      let k : Nat := if n < 0 ∨ (m : Int) < n then m else n.toNat
      replaceLoop old new k true s

/-! ## Package `path/filepath` (Unix) -/

/-- The pieces of a string between its slashes. -/
def splitSlash : Str → List Str
  | [] => [[]]
  | c :: cs =>
    if c = '/' then [] :: splitSlash cs
    else
      match splitSlash cs with
      | [] => [[c]]
      | w :: ws => (c :: w) :: ws

/-- Names joined by single slashes. -/
def joinSlash : List Str → Str
  | [] => []
  | [a] => a
  | a :: b :: rest => a ++ '/' :: joinSlash (b :: rest)

/-- The absolute path string of a resolved path: `/` followed by the names
joined with slashes. -/
def render (p : Path) : Str := '/' :: joinSlash p

/-- One step of `filepath.Clean` over the pieces of a path: empty pieces and
`.` are dropped, `..` removes the piece before it (at the root it is dropped,
at the start of a relative path it is kept). -/
def cleanStep (rooted : Bool) (out : List Str) (c : Str) : List Str :=
  if c = [] ∨ c = ['.'] then out
  else if c = ['.', '.'] then
    match out.getLast? with
    | some l => if l = ['.', '.'] then out ++ [c] else out.dropLast
    | none => if rooted then out else out ++ [c]
  else out ++ [c]

/-- The pieces that remain of a path after cleaning. -/
def cleanComps (rooted : Bool) (s : Str) : List Str :=
  (splitSlash s).foldl (cleanStep rooted) []

/-- Go `filepath.IsAbs` on Unix. -/
def filepathIsAbs (path : Str) : Bool := stringsHasPrefix path ['/']

/-- Go `filepath.Clean`. -/
def filepathClean (path : Str) : Str :=
  if path = [] then ['.']
  else
    let rooted := filepathIsAbs path
    let body := joinSlash (cleanComps rooted path)
    let r := if rooted then '/' :: body else body
    if r = [] then ['.'] else r

/-- Go `filepath.Join` of two elements. -/
def filepathJoin (a b : Str) : Str :=
  if a ≠ [] then filepathClean (a ++ '/' :: b)
  else if b ≠ [] then filepathClean b
  else []

/-- A string without its trailing slashes. -/
def stripTrailingSlashes (s : Str) : Str :=
  (s.reverse.dropWhile (· = '/')).reverse

/-- The part of a string after its last slash. -/
def afterLastSlash (s : Str) : Str :=
  (s.reverse.takeWhile (· ≠ '/')).reverse

/-- The part of a string up to and including its last slash. -/
def uptoLastSlash (s : Str) : Str :=
  (s.reverse.dropWhile (· ≠ '/')).reverse

/-- Go `filepath.Base`. -/
def filepathBase (path : Str) : Str :=
  if path = [] then ['.']
  else
    let p := afterLastSlash (stripTrailingSlashes path)
    if p = [] then ['/'] else p

/-- Go `filepath.Dir`. -/
def filepathDir (path : Str) : Str := filepathClean (uptoLastSlash path)

/-- The process environment: the working directory, when it can be
determined. -/
structure Env where
  cwd : Option Path

/-- Go `os.Getwd`. -/
def osGetwd (env : Env) : Except Str Str :=
  match env.cwd with
  | some p => .ok (render p)
  | none => .error "getwd: no such file or directory".data

/-- Go `filepath.Abs`. -/
def filepathAbs (env : Env) (path : Str) : Except Str Str :=
  if filepathIsAbs path then .ok (filepathClean path)
  else
    match osGetwd env with
    | .error e => .error e
    | .ok wd => .ok (filepathJoin wd path)

/-- Resolution of an absolute path string by the operating system: its
names from the root downwards. -/
def resolve (path : Str) : Path := cleanComps true path

/-! ## SHA-256 (`crypto/sha256`) and `encoding/hex` -/

namespace Sha256

/-- The round constants: the first 32 bits of the fractional parts of the cube
roots of the first 64 primes, in decimal. -/
def K : List Nat := [
  1116352408, 1899447441, 3049323471, 3921009573, 961987163, 1508970993,
  2453635748, 2870763221, 3624381080, 310598401, 607225278, 1426881987,
  1925078388, 2162078206, 2614888103, 3248222580, 3835390401, 4022224774,
  264347078, 604807628, 770255983, 1249150122, 1555081692, 1996064986,
  2554220882, 2821834349, 2952996808, 3210313671, 3336571891, 3584528711,
  113926993, 338241895, 666307205, 773529912, 1294757372, 1396182291,
  1695183700, 1986661051, 2177026350, 2456956037, 2730485921, 2820302411,
  3259730800, 3345764771, 3516065817, 3600352804, 4094571909, 275423344,
  430227734, 506948616, 659060556, 883997877, 958139571, 1322822218,
  1537002063, 1747873779, 1955562222, 2024104815, 2227730452, 2361852424,
  2428436474, 2756734187, 3204031479, 3329325298]

/-- The initial hash value: the first 32 bits of the fractional parts of the
square roots of the first 8 primes, in decimal. -/
def H0 : List Nat := [
  1779033703, 3144134277, 1013904242, 2773480762,
  1359893119, 2600822924, 528734635, 1541459225]

/-- Reduction to a 32-bit word. -/
def w32 (x : Nat) : Nat := x % 4294967296

/-- Rotation to the right of a 32-bit word. -/
def rotr (x n : Nat) : Nat := w32 ((x >>> n) ||| (x <<< (32 - n)))

def bigSigma0 (x : Nat) : Nat := rotr x 2 ^^^ rotr x 13 ^^^ rotr x 22

def bigSigma1 (x : Nat) : Nat := rotr x 6 ^^^ rotr x 11 ^^^ rotr x 25

def smallSigma0 (x : Nat) : Nat := rotr x 7 ^^^ rotr x 18 ^^^ (x >>> 3)

def smallSigma1 (x : Nat) : Nat := rotr x 17 ^^^ rotr x 19 ^^^ (x >>> 10)

def ch (x y z : Nat) : Nat := (x &&& y) ^^^ ((4294967295 - x) &&& z)

def maj (x y z : Nat) : Nat := (x &&& y) ^^^ (x &&& z) ^^^ (y &&& z)

/-- Padding: the byte 0x80, zero bytes up to 56 modulo 64, then the length
in bits on eight bytes, most significant first. -/
def pad (msg : Bytes) : Bytes :=
  let l := msg.length
  let z := (119 - l % 64) % 64
  let bits := 8 * l
  msg ++ [128] ++ List.replicate z 0 ++
    (List.range 8).map (fun i => (bits >>> (8 * (7 - i))) % 256)

/-- The first `n` big-endian 32-bit words of a block. -/
def words : Nat → Bytes → List Nat
  | 0, _ => []
  | n + 1, a :: b :: c :: d :: rest =>
    (a * 16777216 + b * 65536 + c * 256 + d) :: words n rest
  | _ + 1, _ => []

/-- The message schedule, newest word first: `n` more words. -/
def extend : Nat → List Nat → List Nat
  | 0, ws => ws
  | n + 1, ws =>
    let v := w32 (smallSigma1 (ws.getD 1 0) + ws.getD 6 0 + smallSigma0 (ws.getD 14 0)
      + ws.getD 15 0)
    extend n (v :: ws)

/-- One round of the compression function. -/
def round (s : List Nat) (kw : Nat × Nat) : List Nat :=
  match s with
  | [a, b, c, d, e, f, g, h] =>
    let t1 := h + bigSigma1 e + ch e f g + kw.1 + kw.2
    let t2 := bigSigma0 a + maj a b c
    [w32 (t1 + t2), a, b, c, w32 (d + t1), e, f, g]
  | _ => s

/-- The compression function on one 64-byte block. -/
def compress (h : List Nat) (block : Bytes) : List Nat :=
  let w := (extend 48 (words 16 block).reverse).reverse
  let s := (K.zip w).foldl round h
  List.zipWith (fun x y => w32 (x + y)) h s

/-- The first `n` blocks of 64 bytes. -/
def blocks : Nat → Bytes → List Bytes
  | 0, _ => []
  | n + 1, bs => bs.take 64 :: blocks n (bs.drop 64)

/-- The digest, as eight 32-bit words. -/
def sum (msg : Bytes) : List Nat :=
  let p := pad msg
  (blocks (p.length / 64) p).foldl compress H0

def hexDigit (n : Nat) : Char := "0123456789abcdef".data.getD n '0'

def hexWord (x : Nat) : Str :=
  (List.range 8).map (fun i => hexDigit ((x >>> (4 * (7 - i))) % 16))

/-- The digest in lower-case hexadecimal: `hex.EncodeToString(h.Sum(nil))`. -/
def hex (msg : Bytes) : Str := (sum msg).flatMap hexWord

end Sha256

deriving instance DecidableEq for Except

/-! ## The file system -/

/-- What a path names: a regular file with its bytes and whether the process
may open it, or a directory. -/
inductive Entry
  | file (content : Bytes) (readable : Bool)
  | dir
  deriving DecidableEq, Repr

/-- A file system: bindings of resolved paths, the most recent first.  The
root is always a directory. -/
abbrev FS := List (Path × Entry)

/-- The most recent binding of a path. -/
def findBinding : FS → Path → Option Entry
  | [], _ => none
  | (k, e) :: rest, p => if k = p then some e else findBinding rest p

/-- The entry at a resolved path. -/
def entryAt (fs : FS) (p : Path) : Option Entry :=
  if p = [] then some Entry.dir else findBinding fs p

/-- A name a directory entry can bear. -/
def validName (n : Str) : Bool :=
  !(n = [] ∨ n = ['.'] ∨ n = ['.', '.'] ∨ '/' ∈ n)

/-- Well-formed file systems: every bound path is made of valid names and
lies in a directory. -/
def WF (fs : FS) : Prop :=
  ∀ b ∈ fs, (∀ n ∈ b.1, validName n = true) ∧ entryAt fs b.1.dropLast = some Entry.dir

instance (fs : FS) : Decidable (WF fs) := by
  unfold WF; infer_instance

/-- Whether a path names a regular file. -/
def isFile : Option Entry → Bool
  | some (Entry.file _ _) => true
  | _ => false

/-- Whether a path names a directory: `info.IsDir()`. -/
def isDir : Option Entry → Bool
  | some Entry.dir => true
  | _ => false

/-- The text of the error for a path that does not resolve: `ENOTDIR` when
a regular file stands in the way, `ENOENT` otherwise. -/
def errnoText (fs : FS) (p : Path) : Str :=
  if p.inits.any (fun q => isFile (entryAt fs q)) then "not a directory".data
  else "no such file or directory".data

/-- Go `os.Stat`. -/
def osStat (fs : FS) (path : Str) : Except Str Entry :=
  match entryAt fs (resolve path) with
  | some e => .ok e
  | none => .error ("stat ".data ++ path ++ ": ".data ++ errnoText fs (resolve path))

/-- Go `os.Lstat` (the same as `os.Stat` without symbolic links). -/
def osLstat (fs : FS) (path : Str) : Except Str Entry :=
  match entryAt fs (resolve path) with
  | some e => .ok e
  | none => .error ("lstat ".data ++ path ++ ": ".data ++ errnoText fs (resolve path))

/-- Go `os.Open`: a handle for reading, here the resolved path. -/
def osOpen (fs : FS) (path : Str) : Except Str Path :=
  match entryAt fs (resolve path) with
  | some (Entry.file _ true) => .ok (resolve path)
  | some (Entry.file _ false) => .error ("open ".data ++ path ++ ": permission denied".data)
  | some Entry.dir => .ok (resolve path)
  | none => .error ("open ".data ++ path ++ ": ".data ++ errnoText fs (resolve path))

/-- Reading a handle to its end. -/
def readAll (fs : FS) (handle : Path) : Except Str Bytes :=
  match entryAt fs handle with
  | some (Entry.file c _) => .ok c
  | some Entry.dir => .error ("read ".data ++ render handle ++ ": is a directory".data)
  | none => .error ("read ".data ++ render handle ++ ": file already closed".data)

/-- Go `os.Create`: the file is created empty, or truncated when it exists;
the handle is the resolved path. -/
def osCreate (fs : FS) (path : Str) : Except Str (FS × Path) :=
  let p := resolve path
  match entryAt fs p with
  | some Entry.dir => .error ("open ".data ++ path ++ ": is a directory".data)
  | some (Entry.file _ true) => .ok ((p, Entry.file [] true) :: fs, p)
  | some (Entry.file _ false) => .error ("open ".data ++ path ++ ": permission denied".data)
  | none =>
    match entryAt fs p.dropLast with
    | some Entry.dir => .ok ((p, Entry.file [] true) :: fs, p)
    | _ => .error ("open ".data ++ path ++ ": ".data ++ errnoText fs p)

/-- Go `io.Copy(destination, source)` between two file handles: the bytes
of the source, as they are when the copy runs, become the bytes of the
destination. -/
def ioCopy (fs : FS) (destination source : Path) : FS × Except Str Int :=
  match readAll fs source with
  | .error e => (fs, .error e)
  | .ok c =>
    match entryAt fs destination with
    | some (Entry.file _ r) => ((destination, Entry.file c r) :: fs, .ok (c.length : Int))
    | _ => (fs, .error ("write ".data ++ render destination ++ ": bad file descriptor".data))

/-- Go `os.Mkdir` on a resolved path. -/
def osMkdir (fs : FS) (p : Path) : Except Str FS :=
  match entryAt fs p with
  | some _ => .error ("mkdir ".data ++ render p ++ ": file exists".data)
  | none =>
    match entryAt fs p.dropLast with
    | some Entry.dir => .ok ((p, Entry.dir) :: fs)
    | _ => .error ("mkdir ".data ++ render p ++ ": ".data ++ errnoText fs p)

/-- Go `os.MkdirAll` on a resolved path given leaf first: nothing to do for
a directory, an error for a regular file, otherwise the parent is created
first and then the directory itself. -/
def mkdirAllRev (fs : FS) : List Str → Except Str FS
  | [] => .ok fs
  | n :: parent =>
    match entryAt fs (n :: parent).reverse with
    | some Entry.dir => .ok fs
    | some (Entry.file _ _) =>
      .error ("mkdir ".data ++ render (n :: parent).reverse ++ ": not a directory".data)
    | none =>
      match mkdirAllRev fs parent with
      | .error e => .error e
      | .ok fs1 =>
        match osMkdir fs1 (n :: parent).reverse with
        | .ok fs2 => .ok fs2
        | .error e => if isDir (entryAt fs1 (n :: parent).reverse) then .ok fs1 else .error e

/-- Go `os.MkdirAll`. -/
def osMkdirAll (fs : FS) (path : Str) : Except Str FS :=
  mkdirAllRev fs (resolve path).reverse

/-- Order of names in a directory listing: byte-wise, as Go sorts strings. -/
def nameLe : Str → Str → Bool
  | [], _ => true
  | _ :: _, [] => false
  | a :: as, b :: bs =>
    if a.toNat < b.toNat then true
    else if b.toNat < a.toNat then false
    else nameLe as bs

/-- The names bound directly below a resolved path, one for each binding. -/
def childNames (fs : FS) (p : Path) : List Str :=
  fs.filterMap (fun b => if b.1 ≠ [] ∧ b.1.dropLast = p then b.1.getLast? else none)

/-- The sorted names of a directory, as `filepath.Walk` reads them. -/
def readDirNames (fs : FS) (path : Str) : List Str :=
  ((childNames fs (resolve path)).dedup).insertionSort (fun a b => nameLe a b = true)

/-! ## `filepath.Walk` -/

/-- The result of a step that may change the file system: the file system
afterwards and the error, if any. -/
abbrev Step := FS × Option Str

/-- The loop of `walk` over the names of a directory: each name is joined
to the directory path and examined with `Lstat`; a name that cannot be
examined is reported to the callback, any other is walked by `rec`.  The
first error stops the loop.  `none`: the walk below some name did not
finish. -/
def walkLoop (rec : FS → Str → Bool → Option Step) (walkFn : FS → Str → Option Str → Step)
    (path : Str) : List Str → FS → Option Step
  | [], fs => some (fs, none)
  | name :: rest, fs =>
    let filename := filepathJoin path name
    match osLstat fs filename with
    | .error e =>
      match walkFn fs filename (some e) with
      | (fs1, some e1) => some (fs1, some e1)
      | (fs1, none) => walkLoop rec walkFn path rest fs1
    | .ok fileInfo =>
      match rec fs filename (isDir (some fileInfo)) with
      | none => none
      | some (fs1, some e1) => some (fs1, some e1)
      | some (fs1, none) => walkLoop rec walkFn path rest fs1

/-- Go `filepath.walk(path, info, walkFn)`; `infoIsDir` is `info.IsDir()`.
The callback is called on a file; on a directory the names are read first,
then the callback is called, then the names are walked.  The first argument
bounds the depth of nested directories that is explored (`none` when it is
exceeded).  The callback of this program never returns `SkipDir`. -/
def walk (walkFn : FS → Str → Option Str → Step) : Nat → FS → Str → Bool → Option Step
  | 0, _, _, _ => none
  | depth + 1, fs, path, infoIsDir =>
    if !infoIsDir then some (walkFn fs path none)
    else
      let names := readDirNames fs path
      match walkFn fs path none with
      | (fs1, some e1) => some (fs1, some e1)
      | (fs1, none) => walkLoop (walk walkFn depth) walkFn path names fs1

/-- Go `filepath.Walk(root, walkFn)`. -/
def filepathWalk (depth : Nat) (fs : FS) (root : Str) (walkFn : FS → Str → Option Str → Step) :
    Option Step :=
  match osLstat fs root with
  | .error e => some (walkFn fs root (some e))
  | .ok info => walk walkFn depth fs root (isDir (some info))

/-! ## The program -/

/-- Source `FileExists`: whether `os.Stat` succeeds. -/
def FileExists (fs : FS) (path : Str) : Bool :=
  match osStat fs path with
  | .ok _ => true
  | .error _ => false

/-- Source `IsDirectory`. -/
def IsDirectory (fs : FS) (path : Str) : Except Str Bool :=
  match osStat fs path with
  | .error e => .error e
  | .ok fileInfo => .ok (isDir (some fileInfo))

/-- Source `GetSha256`: the hexadecimal SHA-256 of the bytes of a file, or
the empty string and an error when the file cannot be opened or read. -/
def GetSha256 (fs : FS) (path : Str) : Str × Option Str :=
  match osOpen fs path with
  | .error e => ([], some e)
  | .ok f =>
    match readAll fs f with
    | .error e => ([], some e)
    | .ok bytes => (Sha256.hex bytes, none)

/-- Source `basecopy`: the number of bytes copied, or an error. -/
def basecopy (fs : FS) (src dst : Str) : FS × Except Str Int :=
  match osOpen fs src with
  | .error e => (fs, .error e)
  | .ok source =>
    let dstDir := filepathDir dst
    let made : Except Str FS :=
      if !FileExists fs dstDir then
        match osMkdirAll fs dstDir with
        | .error e =>
          .error ("failed to create directory: '".data ++ dstDir ++ "', error: '".data ++ e
            ++ "'".data)
        | .ok fs1 => .ok fs1
      else .ok fs
    match made with
    | .error e => (fs, .error e)
    | .ok fs1 =>
      match osCreate fs1 dst with
      | .error e => (fs1, .error e)
      | .ok (fs2, destination) => ioCopy fs2 destination source

/-- The local `copypath` of `filecopy`: the destination of the copy. -/
def copypath (path absSrc procTarget : Str) : Str := stringsReplace path absSrc procTarget 1

/-- The local `newpath` of the callback: the counterpart in the target
tree. -/
def newpath (path absSrc absTarget : Str) : Str := stringsReplace path absSrc absTarget 1

/-- The local `procTarget` of `copyFiles`: the staging root. -/
def procTarget (absProc absTarget : Str) : Str := filepathJoin absProc (filepathBase absTarget)

/-- Source `filecopy`. -/
def filecopy (fs : FS) (path absSrc procTarget absProc : Str) (verbose : Bool) : Step :=
  let copypath := copypath path absSrc procTarget
  match basecopy fs path copypath with
  | (fs1, .error _) =>
    (fs1, some ("It was not possible to filecopy file '".data ++ path ++ "'".data))
  | (fs1, .ok _) => (fs1, none)

/-- The function `copyFiles` hands to `filepath.Walk`. -/
def walkFn (absSrc absTarget procTarget absProc : Str) (verbose : Bool)
    (fs : FS) (path : Str) (err : Option Str) : Step :=
  match err with
  | some e => (fs, some e)
  | none =>
    match IsDirectory fs path with
    | .error e => (fs, some e)
    | .ok isdir =>
      let newpath := newpath path absSrc absTarget
      if !isdir then
        if FileExists fs newpath then
          let (hashSrc, errSrc) := GetSha256 fs path
          let (hashTarget, errTarget) := GetSha256 fs newpath
          if errSrc ≠ none ∨ errTarget ≠ none ∨ hashSrc ≠ hashTarget then
            filecopy fs path absSrc procTarget absProc verbose
          else (fs, none)
        else filecopy fs path absSrc procTarget absProc verbose
      else
        if !FileExists fs newpath then
          match osMkdirAll fs newpath with
          | .error e =>
            (fs, some ("failed to create directory: '".data ++ newpath ++ "', error: '".data ++ e
              ++ "'".data))
          | .ok fs1 => (fs1, none)
        else (fs, none)

/-- Source `Config`. -/
structure Config where
  srcdir : Str
  targetdir : Str
  diffdir : Str
  verbose : Bool
  deriving DecidableEq, Repr

/-- Source `Config.copyFiles`, run in environment `env` on file system `fs`,
exploring nested directories up to `depth`: the file system afterwards and
the error returned, if any. -/
def Config.copyFiles (config : Config) (env : Env) (depth : Nat) (fs : FS) : Option Step :=
  match filepathAbs env config.srcdir with
  | .error e => some (fs, some e)
  | .ok absSrc =>
    match filepathAbs env config.targetdir with
    | .error e => some (fs, some e)
    | .ok absTarget =>
      match filepathAbs env config.diffdir with
      | .error e => some (fs, some e)
      | .ok absProc =>
        let procTarget := procTarget absProc absTarget
        filepathWalk depth fs absSrc (walkFn absSrc absTarget procTarget absProc config.verbose)

/-! ## The command line (`flag` package) -/

/-- The values behind the four flags of the flag set `command`:
`*paramSrcDir`, `*paramTargetDir`, `*paramProcDir` and `*paramVerbose`.
They are variables of the package: a call of `Parse` starts from the values
they hold, which at the start of the process are the defaults. -/
structure Flags where
  srcdir : Str
  targetdir : Str
  diffdir : Str
  verbose : Bool
  deriving DecidableEq, Repr

/-- The default values given at the definition of the flags. -/
def flagDefaults : Flags := ⟨[], [], [], false⟩

/-- Go `strconv.ParseBool`. -/
def parseBool (s : Str) : Option Bool :=
  if s ∈ ["1".data, "t".data, "T".data, "TRUE".data, "true".data, "True".data] then some true
  else if s ∈ ["0".data, "f".data, "F".data, "FALSE".data, "false".data, "False".data] then
    some false
  else none

/-- The name and the value of a flag argument without its dashes: the value
follows the first `=` that is not the first character. -/
def splitFlag (name : Str) : Str × Option Str :=
  match name with
  | [] => ([], none)
  | c :: rest =>
    match rest.span (· ≠ '=') with
    | (n, []) => (c :: n, none)
    | (n, _ :: v) => (c :: n, some v)

/-- The outcome of `parseOne`: a flag was seen, or parsing stops without
error, or it stops with an error, which is `ErrHelp` or another one. -/
inductive ParseOne
  | seen (flags : Flags) (args : List Str)
  | stop
  | help
  | fail
  deriving DecidableEq

/-- Go `(*FlagSet).parseOne` for the flag set `command`. -/
def parseOne (flags : Flags) (args : List Str) : ParseOne :=
  match args with
  | [] => ParseOne.stop
  | s :: rest =>
    match s with
    | [] => ParseOne.stop
    | [_] => ParseOne.stop
    | c0 :: c1 :: tail =>
      if c0 ≠ '-' then ParseOne.stop
      else if c1 = '-' ∧ tail = [] then ParseOne.stop
      else
        let name := if c1 = '-' then tail else c1 :: tail
        if name = [] ∨ name.head? = some '-' ∨ name.head? = some '=' then ParseOne.fail
        else
          let (key, value) := splitFlag name
          if key = "v".data then
            match value with
            | some v =>
              match parseBool v with
              | some b => ParseOne.seen { flags with verbose := b } rest
              | none => ParseOne.fail
            | none => ParseOne.seen { flags with verbose := true } rest
          else if key = "srcdir".data ∨ key = "targetdir".data ∨ key = "diffdir".data then
            let given : Option (Str × List Str) :=
              match value with
              | some v => some (v, rest)
              | none =>
                match rest with
                | v :: rest1 => some (v, rest1)
                | [] => none
            match given with
            | none => ParseOne.fail
            | some (v, rest1) =>
              if key = "srcdir".data then ParseOne.seen { flags with srcdir := v } rest1
              else if key = "targetdir".data then
                ParseOne.seen { flags with targetdir := v } rest1
              else ParseOne.seen { flags with diffdir := v } rest1
          else if key = "help".data ∨ key = "h".data then ParseOne.help
          else ParseOne.fail

/-- The loop of `(*FlagSet).Parse` with `flag.ExitOnError`, from the values
the flag variables hold: their values afterwards and the exit status when
the process exits (0 after `-h` or `-help`, 2 after an error).  The first
argument bounds the number of rounds. -/
def parseLoop : Nat → Flags → List Str → Flags × Option Nat
  | 0, flags, _ => (flags, none)
  | n + 1, flags, args =>
    match parseOne flags args with
    | ParseOne.seen flags1 args1 => parseLoop n flags1 args1
    | ParseOne.stop => (flags, none)
    | ParseOne.help => (flags, some 0)
    | ParseOne.fail => (flags, some 2)

/-- `command.Parse(os.Args[1:])` when the flag variables hold `flags`: every
round takes at least one argument, so one round more than there are
arguments is enough. -/
def commandParse (flags : Flags) (args : List Str) : Flags × Option Nat :=
  parseLoop (args.length + 1) flags args

/-- Source `Config.ParseCommandLine` on the arguments `os.Args[1:]` when the
flag variables hold `flags`: the configuration and the flag variables
afterwards, and the exit status when the process exits. -/
def Config.ParseCommandLine (config : Config) (flags : Flags) (args : List Str) :
    Config × Flags × Option Nat :=
  match commandParse flags args with
  | (flags1, some status) => (config, flags1, some status)
  | (flags1, none) =>
    if flags1.srcdir = [] then (config, flags1, some 1)
    else if flags1.targetdir = [] then (config, flags1, some 2)
    else if flags1.diffdir = [] then (config, flags1, some 3)
    else
      ({ srcdir := flags1.srcdir, targetdir := flags1.targetdir, diffdir := flags1.diffdir,
         verbose := flags1.verbose }, flags1, none)

/-- The three flags that take a directory. -/
inductive DirFlag
  | srcdir
  | targetdir
  | diffdir
  deriving DecidableEq, Repr

/-- The name of a directory flag. -/
def DirFlag.name : DirFlag → Str
  | DirFlag.srcdir => "srcdir".data
  | DirFlag.targetdir => "targetdir".data
  | DirFlag.diffdir => "diffdir".data

/-- One flag on a command line, with one dash or two: `-flag=value`,
`-flag value` in two arguments, `-v`, or `-v=text` where `text` is written
for the boolean `b`. -/
inductive FlagArg
  | joined (two : Bool) (f : DirFlag) (value : Str)
  | apart (two : Bool) (f : DirFlag) (value : Str)
  | verbose (two : Bool)
  | verboseAs (two : Bool) (text : Str) (b : Bool)
  deriving DecidableEq, Repr

/-- One dash or two. -/
def dashes (two : Bool) : Str := if two then "--".data else "-".data

/-- The arguments that a flag takes on the command line. -/
def FlagArg.args : FlagArg → List Str
  | FlagArg.joined two f value => [dashes two ++ f.name ++ '=' :: value]
  | FlagArg.apart two f value => [dashes two ++ f.name, value]
  | FlagArg.verbose two => [dashes two ++ "v".data]
  | FlagArg.verboseAs two text _ => [dashes two ++ "v=".data ++ text]

/-- The texts accepted for a boolean value. -/
def boolTexts : List (Str × Bool) :=
  [("1".data, true), ("t".data, true), ("T".data, true), ("TRUE".data, true),
   ("true".data, true), ("True".data, true), ("0".data, false), ("f".data, false),
   ("F".data, false), ("FALSE".data, false), ("false".data, false), ("False".data, false)]

/-- A flag is well formed when its boolean value, if written, is written
with one of the accepted texts. -/
def FlagArg.WellFormed : FlagArg → Prop
  | FlagArg.verboseAs _ text b => (text, b) ∈ boolTexts
  | _ => True

instance (a : FlagArg) : Decidable a.WellFormed := by
  cases a <;> unfold FlagArg.WellFormed <;> infer_instance

/-- The directory that a flag gives for `f`, if it gives one. -/
def FlagArg.value? (f : DirFlag) : FlagArg → Option Str
  | FlagArg.joined _ g value => if g = f then some value else none
  | FlagArg.apart _ g value => if g = f then some value else none
  | _ => none

/-- The verbosity that a flag gives, if it gives one. -/
def FlagArg.verbose? : FlagArg → Option Bool
  | FlagArg.verbose _ => some true
  | FlagArg.verboseAs _ _ b => some b
  | _ => none

/-- The directory given for `f` by a list of flags: the last one given. -/
def givenValue (f : DirFlag) (items : List FlagArg) : Option Str :=
  (items.filterMap (FlagArg.value? f)).getLast?

/-- The verbosity given by a list of flags: the last one given. -/
def givenVerbose (items : List FlagArg) : Option Bool :=
  (items.filterMap FlagArg.verbose?).getLast?

/-- The values of the four flags after a list of flags was given: for each
the value given, else the value it had. -/
def givenFlags (flags : Flags) (items : List FlagArg) : Flags :=
  { srcdir := (givenValue DirFlag.srcdir items).getD flags.srcdir
    targetdir := (givenValue DirFlag.targetdir items).getD flags.targetdir
    diffdir := (givenValue DirFlag.diffdir items).getD flags.diffdir
    verbose := (givenVerbose items).getD flags.verbose }

/-- Arguments at which the flags end: no argument, or a first argument that
is not a flag (shorter than two characters, or without a leading dash) or is
the terminator `--`. -/
def endsFlags : List Str → Bool
  | [] => true
  | s :: _ => decide (s.length < 2) || s.head? != some '-' || s == "--".data

/-- The command line made of the flags `items` followed by `rest`. -/
def commandLine (items : List FlagArg) (rest : List Str) : List Str :=
  items.flatMap FlagArg.args ++ rest

/-! ## Notions used in the statements -/

/-- Paths made of valid names. -/
def ValidPath (p : Path) : Prop := ∀ n ∈ p, validName n = true

instance (p : Path) : Decidable (ValidPath p) := by
  unfold ValidPath; infer_instance

/-- The string that follows the root in the path string of a node: each
name preceded by a slash. -/
def relString (rel : Path) : Str := rel.flatMap (fun n => '/' :: n)

/-- The directory step of `basecopy`: the parent directory of the
destination is created when nothing exists there. -/
def madeDir (fs : FS) (dstDir : Str) : Except Str FS :=
  if !FileExists fs dstDir then
    match osMkdirAll fs dstDir with
    | .error e =>
      .error ("failed to create directory: '".data ++ dstDir ++ "', error: '".data ++ e
        ++ "'".data)
    | .ok fs1 => .ok fs1
  else .ok fs

/-- File systems whose bound paths are made of valid names. -/
def KeysValid (fs : FS) : Prop := ∀ b ∈ fs, ValidPath b.1

/-- The resolved roots of a run: source root, target root and staging
root. -/
structure Roots where
  sc : Path
  tc : Path
  pc : Path

/-- Two trees are disjoint when neither root lies in the other tree. -/
def Apart (p q : Path) : Prop := ¬ p <+: q ∧ ¬ q <+: p

instance (p q : Path) : Decidable (Apart p q) := by
  unfold Apart; infer_instance

/-- Source tree, target tree and staging root pairwise disjoint. -/
def Roots.Disjoint (R : Roots) : Prop :=
  Apart R.sc R.tc ∧ Apart R.sc R.pc ∧ Apart R.tc R.pc

instance (R : Roots) : Decidable R.Disjoint := by
  unfold Roots.Disjoint; infer_instance

/-- Roots made of valid names. -/
def Roots.Valid (R : Roots) : Prop := ValidPath R.sc ∧ ValidPath R.tc ∧ ValidPath R.pc

/-- The source root of a configuration, resolved. -/
def Config.sourceRoot (config : Config) (env : Env) : Option Path :=
  match filepathAbs env config.srcdir with
  | .ok absSrc => some (resolve absSrc)
  | .error _ => none

/-- The target root of a configuration, resolved. -/
def Config.targetRoot (config : Config) (env : Env) : Option Path :=
  match filepathAbs env config.targetdir with
  | .ok absTarget => some (resolve absTarget)
  | .error _ => none

/-- The staging root of a configuration, resolved: the diff directory
joined with the base name of the target directory. -/
def Config.stagingRoot (config : Config) (env : Env) : Option Path :=
  match filepathAbs env config.targetdir, filepathAbs env config.diffdir with
  | .ok absTarget, .ok absProc => some (resolve (procTarget absProc absTarget))
  | _, _ => none

/-- The fingerprint of the file at a resolved path, as `GetSha256` computes
it. -/
def fingerprint (fs : FS) (p : Path) : Str × Option Str :=
  match entryAt fs p with
  | some (Entry.file c true) => (Sha256.hex c, none)
  | some (Entry.file _ false) => ([], some ("open ".data ++ render p ++ ": permission denied".data))
  | some Entry.dir => ([], some ("read ".data ++ render p ++ ": is a directory".data))
  | none => ([], some ("open ".data ++ render p ++ ": ".data ++ errnoText fs p))

/-- The condition under which the callback copies the file at `sp` whose
counterpart is `tp`: no counterpart, a fingerprint that cannot be computed,
or different fingerprints. -/
def Qualifies (fs : FS) (sp tp : Path) : Prop :=
  entryAt fs tp = none ∨ (fingerprint fs sp).2 ≠ none ∨ (fingerprint fs tp).2 ≠ none
    ∨ (fingerprint fs sp).1 ≠ (fingerprint fs tp).1

instance (fs : FS) (sp tp : Path) : Decidable (Qualifies fs sp tp) := by
  unfold Qualifies; infer_instance

/-- A new directory that mirrors a source directory below the target root,
or lies on the way to it. -/
def MirroredDir (R : Roots) (fs0 : FS) (q : Path) : Prop :=
  ∃ rel, entryAt fs0 (R.sc ++ rel) = some Entry.dir ∧ q <+: R.tc ++ rel

/-- The staged copy of a source file that qualifies. -/
def StagedFile (R : Roots) (fs0 : FS) (q : Path) : Prop :=
  ∃ rel c r, entryAt fs0 (R.sc ++ rel) = some (Entry.file c r)
    ∧ Qualifies fs0 (R.sc ++ rel) (R.tc ++ rel) ∧ q = R.pc ++ rel

/-- A directory on the way to the staged copy of a source file that
qualifies. -/
def StagedDir (R : Roots) (fs0 : FS) (q : Path) : Prop :=
  ∃ rel c r, entryAt fs0 (R.sc ++ rel) = some (Entry.file c r)
    ∧ Qualifies fs0 (R.sc ++ rel) (R.tc ++ rel) ∧ q <+: (R.pc ++ rel).dropLast

/-- The states a run started on `fs0` goes through: every path is as it was,
or a new directory (mirrored or on the way to a staged copy), or the staged
copy of a qualifying source file. -/
def Inv (R : Roots) (fs0 st : FS) : Prop :=
  KeysValid st ∧ ∀ q,
    entryAt st q = entryAt fs0 q
    ∨ (entryAt fs0 q = none ∧ entryAt st q = some Entry.dir
        ∧ (MirroredDir R fs0 q ∨ StagedDir R fs0 q))
    ∨ (entryAt fs0 q ≠ some Entry.dir ∧ (∃ c, entryAt st q = some (Entry.file c true))
        ∧ StagedFile R fs0 q)

/-- How one call of the callback on the node `rel` may change the entry at
`q`: not at all; or a new directory on the way to the mirrored directory or
to the parent of the staged copy; or the staged copy itself. -/
def StepChange (R : Roots) (st st1 : FS) (rel q : Path) : Prop :=
  entryAt st1 q = entryAt st q
  ∨ (entryAt st q = none ∧ entryAt st1 q = some Entry.dir
      ∧ ((entryAt st (R.sc ++ rel) = some Entry.dir ∧ q <+: R.tc ++ rel)
        ∨ ((∃ c b, entryAt st (R.sc ++ rel) = some (Entry.file c b))
            ∧ Qualifies st (R.sc ++ rel) (R.tc ++ rel) ∧ q <+: (R.pc ++ rel).dropLast)))
  ∨ (q = R.pc ++ rel ∧ entryAt st q ≠ some Entry.dir
      ∧ (∃ c b c1, entryAt st (R.sc ++ rel) = some (Entry.file c b)
          ∧ entryAt st1 q = some (Entry.file c1 true) ∧ (R.sc ++ rel ≠ R.pc ++ rel → c1 = c))
      ∧ Qualifies st (R.sc ++ rel) (R.tc ++ rel))

/-- The setting of the theorems on disjoint trees: a well-formed initial
file system and valid, pairwise disjoint roots. -/
structure Setting (R : Roots) (fs0 : FS) : Prop where
  wf : WF fs0
  valid : R.Valid
  disjoint : R.Disjoint

/-- Below the target root every path is as before the run or a new
directory. -/
def TargetKept (R : Roots) (fs0 st : FS) : Prop :=
  KeysValid st ∧ ∀ q, R.tc <+: q →
    (entryAt st q = entryAt fs0 q ∨ (entryAt fs0 q = none ∧ entryAt st q = some Entry.dir))

/-- The length of the longest bound path. -/
def maxDepth (fs : FS) : Nat := (fs.map (fun b => b.1.length)).foldr max 0

/-- The path strings `filepath.Walk` reports below the source root. -/
def Reported (R : Roots) (path : Str) : Prop :=
  ∃ rel, ValidPath rel ∧ path = render (R.sc ++ rel)

/-- Two file systems with the same entry at every path. -/
def SameEntries (fs1 fs2 : FS) : Prop := ∀ q, entryAt fs1 q = entryAt fs2 q

/-- What a successful run started on `fs0` has achieved in its final state
`fs1`: the state is a state of the run, every source directory has a
counterpart, and every source file that qualifies has been opened and has
its staged copy in an existing directory. -/
structure Finished (R : Roots) (fs0 fs1 : FS) : Prop where
  inv : Inv R fs0 fs1
  dirs : ∀ rel, entryAt fs0 (R.sc ++ rel) = some Entry.dir → entryAt fs1 (R.tc ++ rel) ≠ none
  files : ∀ rel c b, entryAt fs0 (R.sc ++ rel) = some (Entry.file c b) →
    Qualifies fs0 (R.sc ++ rel) (R.tc ++ rel) →
    b = true ∧ entryAt fs1 (R.pc ++ rel) = some (Entry.file c true)
      ∧ entryAt fs1 (R.pc ++ rel).dropLast ≠ none

/-! ## Concrete file systems and configurations -/

/-- The resolved path of an absolute path string. -/
def path (s : String) : Path := resolve s.data

/-- An environment whose working directory is the root. -/
def envRoot : Env := ⟨some []⟩

/-- Source `/s`, target `/t`, diff directory `/d`: the staging root is
`/d/t`. -/
def cfgPlain : Config := ⟨"/s".data, "/t".data, "/d".data, false⟩

/-- The roots of `cfgPlain`. -/
def rootsPlain : Roots := ⟨path "/s", path "/t", path "/d/t"⟩

/-- A source file `b` without counterpart. -/
def fsNew : FS :=
  [(path "/s", Entry.dir), (path "/t", Entry.dir), (path "/d", Entry.dir),
   (path "/s/b", Entry.file (ascii "new") true)]

/-- The file system `fsNew` after a run of `cfgPlain`. -/
def fsNewAfter : FS :=
  [(path "/d/t/b", Entry.file (ascii "new") true), (path "/d/t/b", Entry.file [] true),
   (path "/d/t", Entry.dir)] ++ fsNew

/-- The scenario of `TestChangedFile`, run from the working directory `/w`:
a file that differs between source and target, and a new empty directory
in the source. -/
def cfgTest : Config := ⟨"src/system-conf".data, "target/system-conf".data, "proc".data, false⟩

def envTest : Env := ⟨some (path "/w")⟩

def rootsTest : Roots :=
  ⟨path "/w/src/system-conf", path "/w/target/system-conf", path "/w/proc/system-conf"⟩

def fsTest : FS :=
  [(path "/w", Entry.dir), (path "/w/src", Entry.dir), (path "/w/target", Entry.dir),
   (path "/w/src/system-conf", Entry.dir), (path "/w/target/system-conf", Entry.dir),
   (path "/w/src/system-conf/cluster", Entry.dir),
   (path "/w/target/system-conf/cluster", Entry.dir),
   (path "/w/src/system-conf/cluster/testdir", Entry.dir),
   (path "/w/src/system-conf/cluster/testfile.properties",
     Entry.file (ascii "hello\ntest1\n") true),
   (path "/w/target/system-conf/cluster/testfile.properties",
     Entry.file (ascii "hello\ntest2\n") true)]

def fsTestAfter : FS :=
  [(path "/w/proc/system-conf/cluster/testfile.properties",
     Entry.file (ascii "hello\ntest1\n") true),
   (path "/w/proc/system-conf/cluster/testfile.properties", Entry.file [] true),
   (path "/w/proc/system-conf/cluster", Entry.dir),
   (path "/w/proc/system-conf", Entry.dir),
   (path "/w/proc", Entry.dir),
   (path "/w/target/system-conf/cluster/testdir", Entry.dir)] ++ fsTest

/-- Diff directory `/t` with target `/t`: the staging root `/t/t` lies in
the target tree. -/
def cfgStageInTarget : Config := ⟨"/s".data, "/t".data, "/t".data, false⟩

/-- Diff directory `/` with target `/t`: the staging root is the target
root. -/
def cfgStageIsTarget : Config := ⟨"/s".data, "/t".data, "/".data, false⟩

def fsStageIsTarget : FS :=
  [(path "/s", Entry.dir), (path "/t", Entry.dir),
   (path "/s/f", Entry.file (ascii "1") true), (path "/t/f", Entry.file (ascii "2") true)]

/-- Diff directory `/s` with source `/s` and target `/t/z`: the staging
root `/s/z` lies in the source tree. -/
def cfgStageInSource : Config := ⟨"/s".data, "/t/z".data, "/s".data, false⟩

def fsStageInSource : FS :=
  [(path "/s", Entry.dir), (path "/t", Entry.dir), (path "/t/z", Entry.dir),
   (path "/s/a", Entry.file (ascii "1") true)]

/-- Source `/a/x`, target `/b/x`, diff directory `/a`: the staging root is
the source root. -/
def cfgStageIsSource : Config := ⟨"/a/x".data, "/b/x".data, "/a".data, false⟩

def fsStageIsSource : FS :=
  [(path "/a", Entry.dir), (path "/b", Entry.dir), (path "/a/x", Entry.dir),
   (path "/b/x", Entry.dir), (path "/a/x/f", Entry.file (ascii "1") true),
   (path "/b/x/f", Entry.file (ascii "2") true)]

/-- A new source file `a` and a new source directory `t/a`, for the
configuration `cfgStageInTarget`. -/
def fsFileOverMirror : FS :=
  [(path "/s", Entry.dir), (path "/t", Entry.dir),
   (path "/s/a", Entry.file (ascii "1") true), (path "/s/t", Entry.dir),
   (path "/s/t/a", Entry.dir)]

/-- The arguments of `TestParseCommand`. -/
def argsTest : List Str :=
  ["--srcdir=/path/to/srcdir".data, "--targetdir=/path/to/targetdir".data,
   "--diffdir=/path/to/diffdir".data]

/-- The diff directory `/d` is a regular file: the parent of a staged copy
cannot be created. -/
def fsDiffIsFile : FS :=
  [(path "/s", Entry.dir), (path "/t", Entry.dir), (path "/d", Entry.file [] true),
   (path "/s/f", Entry.file (ascii "x") true)]

/-- The target root `/t` is a regular file: a mirrored directory cannot be
created. -/
def fsTargetIsFile : FS :=
  [(path "/s", Entry.dir), (path "/t", Entry.file [] true), (path "/s/n", Entry.dir)]


/-! ## Facts about strings and paths -/

theorem stringsIndex_append_left (s rest : Str) : stringsIndex (s ++ rest) s = some 0 := by
  cases h : s ++ rest with
  | nil =>
    have : s = [] := by
      cases s with
      | nil => rfl
      | cons a t => simp at h
    simp [stringsIndex, this]
  | cons c t =>
    have hp : s.isPrefixOf (c :: t) = true := by
      rw [← h]; simp
    simp [stringsIndex, hp]

theorem stringsReplace_append_left (s new rest : Str) :
    stringsReplace (s ++ rest) s new 1 = new ++ rest := by
  unfold stringsReplace
  by_cases h : s = new
  · simp [h]
  · have hc : stringsCount (s ++ rest) s ≠ 0 := by
      unfold stringsCount
      split
      · omega
      · simp [countFrom, stringsIndex_append_left]
    simp only [h, false_or, one_ne_zero, if_false, hc]
    have hk : (if (1:Int) < 0 ∨ (stringsCount (s ++ rest) s : Int) < 1 then stringsCount (s ++ rest) s
        else (1:Int).toNat) = 1 := by
      have : ¬ ((1:Int) < 0 ∨ (stringsCount (s ++ rest) s : Int) < 1) := by omega
      rw [if_neg this]; rfl
    simp only [hk]
    by_cases he : s = []
    · subst he
      simp [replaceLoop]
    · simp [replaceLoop, he, stringsIndex_append_left]

theorem validName_iff (n : Str) :
    validName n = true ↔ n ≠ [] ∧ n ≠ ['.'] ∧ n ≠ ['.', '.'] ∧ '/' ∉ n := by
  simp [validName]

theorem ValidPath.append {p q : Path} (hp : ValidPath p) (hq : ValidPath q) :
    ValidPath (p ++ q) := by
  intro n hn
  rcases List.mem_append.1 hn with h | h
  · exact hp n h
  · exact hq n h

theorem ValidPath.left {p q : Path} (h : ValidPath (p ++ q)) : ValidPath p :=
  fun n hn => h n (List.mem_append.2 (Or.inl hn))

theorem ValidPath.right {p q : Path} (h : ValidPath (p ++ q)) : ValidPath q :=
  fun n hn => h n (List.mem_append.2 (Or.inr hn))

theorem ValidPath.nil : ValidPath [] := fun _ h => by simp at h

theorem ValidPath.single {n : Str} (h : validName n = true) : ValidPath [n] := by
  intro m hm
  simp at hm
  simpa [hm] using h

theorem ValidPath.noSlash {p : Path} (h : ValidPath p) : ∀ n ∈ p, '/' ∉ n :=
  fun n hn => ((validName_iff n).1 (h n hn)).2.2.2

theorem relString_nil : relString [] = [] := rfl

theorem relString_cons (n : Str) (r : Path) : relString (n :: r) = '/' :: n ++ relString r := by
  simp [relString]

theorem relString_append (p q : Path) : relString (p ++ q) = relString p ++ relString q := by
  simp [relString]

theorem joinSlash_cons (a : Str) (rel : Path) : joinSlash (a :: rel) = a ++ relString rel := by
  induction rel generalizing a with
  | nil => simp [joinSlash, relString]
  | cons b r ih => simp [joinSlash, ih, relString_cons]

theorem render_nil : render [] = ['/'] := rfl

theorem render_eq_relString {p : Path} (hp : p ≠ []) : render p = relString p := by
  cases p with
  | nil => exact absurd rfl hp
  | cons a r => simp [render, joinSlash_cons, relString_cons]

theorem render_append {p : Path} (hp : p ≠ []) (rel : Path) :
    render (p ++ rel) = render p ++ relString rel := by
  have h2 : p ++ rel ≠ [] := by simp [hp]
  rw [render_eq_relString h2, render_eq_relString hp, relString_append]

theorem splitSlash_ne_nil (s : Str) : splitSlash s ≠ [] := by
  cases s with
  | nil => simp [splitSlash]
  | cons c cs =>
    simp only [splitSlash]
    split
    · simp
    · split <;> simp

theorem splitSlash_noSlash (s : Str) : ∀ c ∈ splitSlash s, '/' ∉ c := by
  induction s with
  | nil => simp [splitSlash]
  | cons c cs ih =>
    simp only [splitSlash]
    split
    · intro x hx
      rcases List.mem_cons.1 hx with h | h
      · simp [h]
      · exact ih x h
    · rename_i hc
      cases hs : splitSlash cs with
      | nil => exact absurd hs (splitSlash_ne_nil cs)
      | cons w ws =>
        rw [hs] at ih
        intro x hx
        simp only [List.mem_cons] at hx
        rcases hx with h | h
        · subst h
          have := ih w (by simp)
          simp only [List.mem_cons, not_or]
          exact ⟨fun e => hc e.symm, this⟩
        · exact ih x (by simp [h])

theorem splitSlash_of_noSlash {a : Str} (h : '/' ∉ a) : splitSlash a = [a] := by
  induction a with
  | nil => rfl
  | cons c cs ih =>
    simp only [List.mem_cons, not_or] at h
    have hc : ¬ c = '/' := fun e => h.1 e.symm
    simp [splitSlash, hc, ih h.2]

theorem splitSlash_append_slash {a : Str} (h : '/' ∉ a) (b : Str) :
    splitSlash (a ++ '/' :: b) = a :: splitSlash b := by
  induction a with
  | nil => simp [splitSlash]
  | cons c cs ih =>
    simp only [List.mem_cons, not_or] at h
    have hc : ¬ c = '/' := fun e => h.1 e.symm
    simp [splitSlash, hc, ih h.2]

theorem splitSlash_name_rel {n : Str} {r : Path} (hn : '/' ∉ n) (hr : ∀ m ∈ r, '/' ∉ m) :
    splitSlash (n ++ relString r) = n :: r := by
  induction r generalizing n with
  | nil => simpa [relString] using splitSlash_of_noSlash hn
  | cons m r ih =>
    rw [relString_cons]
    have : n ++ ('/' :: m ++ relString r) = n ++ '/' :: (m ++ relString r) := by simp
    rw [this, splitSlash_append_slash hn, ih (hr m (by simp)) (fun x hx => hr x (by simp [hx]))]

theorem splitSlash_name_rel_slash {n : Str} {r : Path} (hn : '/' ∉ n) (hr : ∀ m ∈ r, '/' ∉ m) :
    splitSlash (n ++ relString r ++ ['/']) = n :: r ++ [[]] := by
  induction r generalizing n with
  | nil =>
    have := splitSlash_append_slash hn []
    simpa [relString, splitSlash] using this
  | cons m r ih =>
    rw [relString_cons]
    have : n ++ ('/' :: m ++ relString r) ++ ['/'] = n ++ '/' :: (m ++ relString r ++ ['/']) := by
      simp
    rw [this, splitSlash_append_slash hn, ih (hr m (by simp)) (fun x hx => hr x (by simp [hx]))]
    simp

theorem cleanStep_valid (r : Bool) (acc : List Str) {c : Str} (h : validName c = true) :
    cleanStep r acc c = acc ++ [c] := by
  have := (validName_iff c).1 h
  simp [cleanStep, this.1, this.2.1, this.2.2.1]

theorem cleanStep_nil (r : Bool) (acc : List Str) : cleanStep r acc [] = acc := by
  simp [cleanStep]

theorem foldl_cleanStep_valid (r : Bool) (acc : List Str) {cs : List Str} (h : ValidPath cs) :
    cs.foldl (cleanStep r) acc = acc ++ cs := by
  induction cs generalizing acc with
  | nil => simp
  | cons c cs ih =>
    simp only [List.foldl_cons]
    rw [cleanStep_valid r acc (h c (by simp)), ih _ (fun n hn => h n (by simp [hn]))]
    simp

theorem cleanStep_true_valid {acc : List Str} {c : Str} (hacc : ValidPath acc) (hc : '/' ∉ c) :
    ValidPath (cleanStep true acc c) := by
  unfold cleanStep
  split
  · exact hacc
  · rename_i h1
    split
    · cases hl : acc.getLast? with
      | none => simpa using hacc
      | some l =>
        simp only
        split
        · rename_i h3
          have hmem : l ∈ acc := List.mem_of_getLast?_eq_some hl
          have := (validName_iff l).1 (hacc l hmem)
          exact absurd h3 this.2.2.1
        · intro n hn
          exact hacc n (List.mem_of_mem_dropLast hn)
    · rename_i h2
      apply ValidPath.append hacc
      apply ValidPath.single
      rw [validName_iff]
      simp only [not_or] at h1
      exact ⟨h1.1, h1.2, h2, hc⟩

theorem foldl_cleanStep_true_valid {acc : List Str} {cs : List Str} (hacc : ValidPath acc)
    (hcs : ∀ c ∈ cs, '/' ∉ c) : ValidPath (cs.foldl (cleanStep true) acc) := by
  induction cs generalizing acc with
  | nil => simpa using hacc
  | cons c cs ih =>
    simp only [List.foldl_cons]
    exact ih (cleanStep_true_valid hacc (hcs c (by simp))) (fun x hx => hcs x (by simp [hx]))

theorem resolve_valid (s : Str) : ValidPath (resolve s) :=
  foldl_cleanStep_true_valid ValidPath.nil (splitSlash_noSlash s)

theorem splitSlash_render {p : Path} (hp : ValidPath p) :
    splitSlash (render p) = if p = [] then [[], []] else [] :: p := by
  cases p with
  | nil => simp [render, joinSlash, splitSlash]
  | cons a r =>
    have ha : '/' ∉ a := hp.noSlash a (by simp)
    have hr : ∀ m ∈ r, '/' ∉ m := fun m hm => hp.noSlash m (by simp [hm])
    simp only [render, joinSlash_cons, splitSlash, if_true, splitSlash_name_rel ha hr]
    simp

theorem resolve_render {p : Path} (hp : ValidPath p) : resolve (render p) = p := by
  unfold resolve cleanComps
  rw [splitSlash_render hp]
  split
  · rename_i h; subst h; simp [cleanStep_nil]
  · simp only [List.foldl_cons, cleanStep_nil]
    simpa using foldl_cleanStep_valid true [] hp

theorem filepathIsAbs_cons (s : Str) : filepathIsAbs ('/' :: s) = true := by
  simp [filepathIsAbs, stringsHasPrefix, List.isPrefixOf]

theorem filepathIsAbs_iff (s : Str) : filepathIsAbs s = true ↔ ∃ t, s = '/' :: t := by
  cases s with
  | nil => simp [filepathIsAbs, stringsHasPrefix, List.isPrefixOf]
  | cons c t =>
    simp only [filepathIsAbs, stringsHasPrefix, List.isPrefixOf, List.cons.injEq, exists_eq_right',
      Bool.and_true, beq_iff_eq]
    exact eq_comm

theorem filepathClean_rooted (t : Str) :
    filepathClean ('/' :: t) = render (resolve ('/' :: t)) := by
  simp [filepathClean, filepathIsAbs_cons, render, resolve]

theorem filepathClean_render {p : Path} (hp : ValidPath p) :
    filepathClean (render p) = render p := by
  have : render p = '/' :: joinSlash p := rfl
  rw [this, filepathClean_rooted, ← this, resolve_render hp]

theorem resolve_slash_name {p : Path} (hp : ValidPath p) {n : Str} (hn : validName n = true) :
    resolve (render p ++ '/' :: n) = p ++ [n] := by
  cases p with
  | nil =>
    have h1 : '/' ∉ n := ((validName_iff n).1 hn).2.2.2
    have : splitSlash (render [] ++ '/' :: n) = [[], [], n] := by
      simp [render, joinSlash, splitSlash, splitSlash_of_noSlash h1]
    unfold resolve cleanComps
    rw [this]
    simp [cleanStep_nil, cleanStep_valid true [] hn]
  | cons a r =>
    have hne : (a :: r) ≠ [] := by simp
    have : render (a :: r) ++ '/' :: n = render ((a :: r) ++ [n]) := by
      rw [render_append hne]; simp [relString]
    rw [this]
    exact resolve_render (hp.append (ValidPath.single hn))

theorem filepathJoin_render {p : Path} (hp : ValidPath p) {n : Str} (hn : validName n = true) :
    filepathJoin (render p) n = render (p ++ [n]) := by
  have hne : render p ≠ [] := by simp [render]
  have : render p ++ '/' :: n = '/' :: (joinSlash p ++ '/' :: n) := by simp [render]
  simp only [filepathJoin, hne, ne_eq, not_false_eq_true, if_true]
  rw [this, filepathClean_rooted, ← this, resolve_slash_name hp hn]

theorem uptoLastSlash_append {n : Str} (hn : '/' ∉ n) (a : Str) :
    uptoLastSlash (a ++ '/' :: n) = a ++ ['/'] := by
  unfold uptoLastSlash
  have h1 : (a ++ '/' :: n).reverse = n.reverse ++ '/' :: a.reverse := by simp
  rw [h1]
  have h2 : ∀ (l : Str), (∀ c ∈ l, c ≠ '/') → ∀ t : Str,
      List.dropWhile (fun x => decide (x ≠ '/')) (l ++ '/' :: t) = '/' :: t := by
    intro l
    induction l with
    | nil => intro _ t; simp [List.dropWhile]
    | cons c l ih =>
      intro hl t
      have hc : c ≠ '/' := hl c (by simp)
      have := ih (fun x hx => hl x (by simp [hx])) t
      rw [List.cons_append, List.dropWhile_cons]
      simp only [hc, ne_eq, not_false_eq_true, decide_True, if_true]
      exact this
  rw [h2 n.reverse (by
    intro c hc e
    subst e
    exact hn (List.mem_reverse.1 hc))]
  simp

theorem afterLastSlash_append {n : Str} (hn : '/' ∉ n) (a : Str) :
    afterLastSlash (a ++ '/' :: n) = n := by
  unfold afterLastSlash
  have h1 : (a ++ '/' :: n).reverse = n.reverse ++ '/' :: a.reverse := by simp
  rw [h1]
  have h2 : ∀ (l : Str), (∀ c ∈ l, c ≠ '/') → ∀ t : Str,
      List.takeWhile (fun x => decide (x ≠ '/')) (l ++ '/' :: t) = l := by
    intro l
    induction l with
    | nil => intro _ t; simp [List.takeWhile]
    | cons c l ih =>
      intro hl t
      have hc : c ≠ '/' := hl c (by simp)
      have := ih (fun x hx => hl x (by simp [hx])) t
      rw [List.cons_append, List.takeWhile_cons]
      simp only [hc, ne_eq, not_false_eq_true, decide_True, if_true]
      rw [this]
  rw [h2 n.reverse (by
    intro c hc e
    subst e
    exact hn (List.mem_reverse.1 hc))]
  simp

theorem stripTrailingSlashes_append {n : Str} (hn : '/' ∉ n) (hne : n ≠ []) (a : Str) :
    stripTrailingSlashes (a ++ n) = a ++ n := by
  unfold stripTrailingSlashes
  have h1 : (a ++ n).reverse = n.reverse ++ a.reverse := by simp
  rw [h1]
  cases hr : n.reverse with
  | nil => simp at hr; exact absurd hr hne
  | cons c l =>
    have hc : c ≠ '/' := by
      intro e
      subst e
      have : '/' ∈ n.reverse := by rw [hr]; simp
      exact hn (List.mem_reverse.1 this)
    rw [List.cons_append, List.dropWhile_cons]
    simp only [hc, decide_False]
    have : c :: (l ++ a.reverse) = (c :: l) ++ a.reverse := rfl
    simp only [Bool.false_eq_true, if_false]
    rw [this, ← hr]
    simp

/-- A non-empty valid path ends in a name; its string ends in that name. -/
theorem render_snoc (p : Path) (n : Str) : render (p ++ [n]) =
    (if p = [] then [] else render p) ++ '/' :: n := by
  cases p with
  | nil => simp [render, joinSlash]
  | cons a r =>
    have hne : (a :: r) ≠ [] := by simp
    rw [render_append hne]
    simp [relString]

theorem filepathBase_render (p : Path) {n : Str} (hn : validName n = true) :
    filepathBase (render (p ++ [n])) = n := by
  have hv := (validName_iff n).1 hn
  have hne : render (p ++ [n]) ≠ [] := by simp [render]
  simp only [filepathBase, hne, if_false]
  rw [render_snoc]
  have : (if p = [] then [] else render p) ++ '/' :: n
      = ((if p = [] then [] else render p) ++ ['/']) ++ n := by simp
  rw [this, stripTrailingSlashes_append hv.2.2.2 hv.1, ← this, afterLastSlash_append hv.2.2.2]
  simp [hv.1]

theorem filepathDir_render {p : Path} (hp : ValidPath p) {n : Str} (hn : validName n = true) :
    filepathDir (render (p ++ [n])) = render p := by
  have hv := (validName_iff n).1 hn
  unfold filepathDir
  rw [render_snoc, uptoLastSlash_append hv.2.2.2]
  cases p with
  | nil => simp [filepathClean, filepathIsAbs, stringsHasPrefix, List.isPrefixOf, cleanComps,
      splitSlash, cleanStep, joinSlash, render]
  | cons a r =>
    have ha : '/' ∉ a := hp.noSlash a (by simp)
    have hr : ∀ m ∈ r, '/' ∉ m := fun m hm => hp.noSlash m (by simp [hm])
    have hne : ¬ (a :: r = []) := by simp
    have hre : render (a :: r) = '/' :: (a ++ relString r) := by simp [render, joinSlash_cons]
    simp only [hne, if_false, hre, List.cons_append]
    rw [filepathClean_rooted, ← hre]
    congr 1
    unfold resolve cleanComps
    simp only [splitSlash, if_true, List.foldl_cons, cleanStep_nil]
    rw [splitSlash_name_rel_slash ha hr, List.foldl_append, foldl_cleanStep_valid true [] hp]
    simp [cleanStep_nil]

theorem filepathAbs_ok {env : Env} {path s : Str} (h : filepathAbs env path = .ok s) :
    s = render (resolve s) := by
  unfold filepathAbs at h
  split at h
  · rename_i habs
    obtain ⟨t, rfl⟩ := (filepathIsAbs_iff path).1 habs
    injection h with h
    rw [← h, filepathClean_rooted, resolve_render (resolve_valid _)]
  · unfold osGetwd at h
    cases hc : env.cwd with
    | none => simp [hc] at h
    | some c =>
      simp only [hc] at h
      injection h with h
      have hne : render c ≠ [] := by simp [render]
      have e : render c ++ '/' :: path = '/' :: (joinSlash c ++ '/' :: path) := by simp [render]
      simp only [filepathJoin, hne, ne_eq, not_false_eq_true, if_true] at h
      rw [e, filepathClean_rooted] at h
      rw [← h, resolve_render (resolve_valid _)]


/-! ## Facts about the file system operations -/

theorem entryAt_root (fs : FS) : entryAt fs [] = some Entry.dir := by
  simp [entryAt]

theorem entryAt_cons (k : Path) (e : Entry) (fs : FS) (p : Path) :
    entryAt ((k, e) :: fs) p =
      if p = [] then some Entry.dir else if k = p then some e else entryAt fs p := by
  unfold entryAt
  by_cases hp : p = []
  · simp [hp]
  · simp [hp, findBinding]

theorem entryAt_cons_self {k : Path} (hk : k ≠ []) (e : Entry) (fs : FS) :
    entryAt ((k, e) :: fs) k = some e := by
  simp [entryAt_cons, hk]

theorem entryAt_cons_ne {k p : Path} (h : k ≠ p) (e : Entry) (fs : FS) :
    entryAt ((k, e) :: fs) p = entryAt fs p := by
  rw [entryAt_cons]
  by_cases hp : p = []
  · simp [hp, entryAt_root]
  · simp [hp, h]

theorem findBinding_some {fs : FS} {p : Path} {e : Entry} (h : findBinding fs p = some e) :
    (p, e) ∈ fs := by
  induction fs with
  | nil => simp [findBinding] at h
  | cons b fs ih =>
    obtain ⟨k, e'⟩ := b
    simp only [findBinding] at h
    split at h
    · rename_i hk
      injection h with h
      subst hk; subst h
      simp
    · exact List.mem_cons_of_mem _ (ih h)

theorem findBinding_ne_none {fs : FS} {p : Path} {e : Entry} (h : (p, e) ∈ fs) :
    findBinding fs p ≠ none := by
  induction fs with
  | nil => simp at h
  | cons b fs ih =>
    obtain ⟨k, e'⟩ := b
    simp only [findBinding]
    split
    · simp
    · rename_i hk
      rcases List.mem_cons.1 h with h | h
      · injection h with h1 h2
        exact absurd h1.symm hk
      · exact ih h

theorem KeysValid.cons {k : Path} {fs : FS} (hk : ValidPath k) (h : KeysValid fs) (e : Entry) :
    KeysValid ((k, e) :: fs) := by
  intro b hb
  rcases List.mem_cons.1 hb with h1 | h1
  · subst h1; exact hk
  · exact h b h1

theorem WF.keysValid {fs : FS} (h : WF fs) : KeysValid fs := fun b hb => (h b hb).1

/-- In a well-formed file system every entry lies in a directory. -/
theorem WF.parent_dir {fs : FS} (h : WF fs) {p : Path} {n : Str}
    (he : entryAt fs (p ++ [n]) ≠ none) : entryAt fs p = some Entry.dir := by
  have hne : p ++ [n] ≠ [] := by simp
  simp only [entryAt, hne, if_false] at he
  cases hf : findBinding fs (p ++ [n]) with
  | none => exact absurd hf he
  | some e =>
    have := (h _ (findBinding_some hf)).2
    simpa using this

theorem WF.prefix_dir {fs : FS} (h : WF fs) {p : Path} (r : Path) (hr : r ≠ [])
    (he : entryAt fs (p ++ r) ≠ none) : entryAt fs p = some Entry.dir := by
  induction r using List.reverseRecOn generalizing p with
  | nil => exact absurd rfl hr
  | append_singleton r n ih =>
    have h1 : entryAt fs ((p ++ r) ++ [n]) ≠ none := by simpa using he
    have h2 := h.parent_dir h1
    by_cases hr' : r = []
    · subst hr'; simpa using h2
    · exact ih hr' (by rw [h2]; simp)

theorem WF.valid_of_entry {fs : FS} (h : WF fs) {p : Path} (he : entryAt fs p ≠ none) :
    ValidPath p := by
  by_cases hp : p = []
  · subst hp; exact ValidPath.nil
  · simp only [entryAt, hp, if_false] at he
    cases hf : findBinding fs p with
    | none => exact absurd hf he
    | some e => exact (h _ (findBinding_some hf)).1

theorem KeysValid.valid_of_bound {fs : FS} (h : KeysValid fs) {p : Path}
    (he : entryAt fs p ≠ none) : ValidPath p := by
  by_cases hp : p = []
  · subst hp; exact ValidPath.nil
  · simp only [entryAt, hp, if_false] at he
    cases hf : findBinding fs p with
    | none => exact absurd hf he
    | some e => exact h _ (findBinding_some hf)

theorem FileExists_eq (fs : FS) (path : Str) :
    FileExists fs path = (entryAt fs (resolve path)).isSome := by
  unfold FileExists osStat
  cases entryAt fs (resolve path) <;> simp

theorem FileExists_render (fs : FS) {p : Path} (hp : ValidPath p) :
    FileExists fs (render p) = (entryAt fs p).isSome := by
  rw [FileExists_eq, resolve_render hp]

theorem IsDirectory_eq (fs : FS) (path : Str) {e : Entry}
    (h : entryAt fs (resolve path) = some e) : IsDirectory fs path = .ok (isDir (some e)) := by
  simp [IsDirectory, osStat, h]

theorem IsDirectory_error (fs : FS) (path : Str)
    (h : entryAt fs (resolve path) = none) : ∃ e, IsDirectory fs path = .error e := by
  simp [IsDirectory, osStat, h]

theorem GetSha256_render (fs : FS) {p : Path} (hp : ValidPath p) :
    GetSha256 fs (render p) = fingerprint fs p := by
  unfold GetSha256 fingerprint osOpen readAll
  rw [resolve_render hp]
  cases h : entryAt fs p with
  | none => simp
  | some e =>
    cases e with
    | dir => simp [h]
    | file c r => cases r <;> simp [h]

/-! ### `os.MkdirAll` -/

theorem osMkdir_ok {fs : FS} {p : Path} (h1 : entryAt fs p = none)
    (h2 : entryAt fs p.dropLast = some Entry.dir) : osMkdir fs p = .ok ((p, Entry.dir) :: fs) := by
  simp [osMkdir, h1, h2]

theorem prefix_snoc_of_ne {α : Type} {q p : List α} {n : α} (h : q <+: p ++ [n])
    (hne : q ≠ p ++ [n]) : q <+: p := by
  rcases List.prefix_concat_iff.1 (by simpa using h) with h1 | h1
  · exact absurd (by simpa using h1) hne
  · exact h1

/-- What a successful `MkdirAll` does: the path becomes a directory, paths
on the way that did not exist become directories, nothing else changes. -/
theorem mkdirAllRev_ok {fs fs1 : FS} {r : List Str} (h : mkdirAllRev fs r = .ok fs1) :
    (∀ q, entryAt fs1 q = entryAt fs q
        ∨ (entryAt fs q = none ∧ entryAt fs1 q = some Entry.dir ∧ q <+: r.reverse))
    ∧ entryAt fs1 r.reverse = some Entry.dir
    ∧ (KeysValid fs → ValidPath r → KeysValid fs1) := by
  induction r generalizing fs1 with
  | nil =>
    simp only [mkdirAllRev] at h
    injection h with h
    subst h
    exact ⟨fun q => Or.inl rfl, by simp [entryAt_root], fun hk _ => hk⟩
  | cons n parent ih =>
    simp only [mkdirAllRev] at h
    cases ht : entryAt fs (n :: parent).reverse with
    | some e =>
      cases e with
      | dir =>
        simp only [ht] at h
        injection h with h
        subst h
        exact ⟨fun q => Or.inl rfl, ht, fun hk _ => hk⟩
      | file c r =>
        simp only [ht] at h
        cases h
    | none =>
      simp only [ht] at h
      cases hp : mkdirAllRev fs parent with
      | error e =>
        simp only [hp] at h
        cases h
      | ok fs2 =>
        simp only [hp] at h
        obtain ⟨hfr, hdir, hkv⟩ := ih hp
        have hrev : (n :: parent).reverse = parent.reverse ++ [n] := by simp
        have hnone : entryAt fs2 (n :: parent).reverse = none := by
          rcases hfr (n :: parent).reverse with h1 | ⟨_, _, h3⟩
          · rw [h1, ht]
          · exfalso
            have := h3.length_le
            simp at this
        have hpd : entryAt fs2 ((n :: parent).reverse).dropLast = some Entry.dir := by
          rw [hrev]; simpa using hdir
        rw [osMkdir_ok hnone hpd] at h
        injection h with h
        subst h
        have hne : (n :: parent).reverse ≠ [] := by simp
        refine ⟨?_, entryAt_cons_self hne _ _, ?_⟩
        · intro q
          by_cases hq : (n :: parent).reverse = q
          · subst hq
            exact Or.inr ⟨ht, entryAt_cons_self hne _ _, List.prefix_refl _⟩
          · rw [entryAt_cons_ne hq]
            rcases hfr q with h1 | ⟨h1, h2, h3⟩
            · exact Or.inl h1
            · refine Or.inr ⟨h1, h2, ?_⟩
              rw [hrev]
              exact h3.trans (List.prefix_append _ _)
        · intro hk hv
          apply KeysValid.cons _ (hkv hk (fun x hx => hv x (by simp [hx])))
          intro x hx
          exact hv x (by
            have := List.mem_reverse.1 hx
            exact this)

/-- A `MkdirAll` that fails finds a regular file on the way. -/
theorem mkdirAllRev_error {fs : FS} {r : List Str} {e : Str} (h : mkdirAllRev fs r = .error e) :
    ∃ q c b, q <+: r.reverse ∧ entryAt fs q = some (Entry.file c b)
      ∧ e = "mkdir ".data ++ render q ++ ": not a directory".data := by
  induction r with
  | nil => simp [mkdirAllRev] at h
  | cons n parent ih =>
    simp only [mkdirAllRev] at h
    cases ht : entryAt fs (n :: parent).reverse with
    | some en =>
      cases en with
      | dir =>
        simp only [ht] at h
        cases h
      | file c b =>
        simp only [ht] at h
        injection h with h
        exact ⟨_, c, b, List.prefix_refl _, ht, h.symm⟩
    | none =>
      simp only [ht] at h
      cases hp : mkdirAllRev fs parent with
      | error e1 =>
        simp only [hp] at h
        injection h with h
        subst h
        obtain ⟨q, c, b, h1, h2, h3⟩ := ih hp
        refine ⟨q, c, b, ?_, h2, h3⟩
        have hrev : (n :: parent).reverse = parent.reverse ++ [n] := by simp
        rw [hrev]
        exact h1.trans (List.prefix_append _ _)
      | ok fs2 =>
        exfalso
        simp only [hp] at h
        obtain ⟨hfr, hdir, _⟩ := mkdirAllRev_ok hp
        have hrev : (n :: parent).reverse = parent.reverse ++ [n] := by simp
        have hnone : entryAt fs2 (n :: parent).reverse = none := by
          rcases hfr (n :: parent).reverse with h1 | ⟨_, _, h3⟩
          · rw [h1, ht]
          · exfalso
            have := h3.length_le
            simp at this
        have hpd : entryAt fs2 ((n :: parent).reverse).dropLast = some Entry.dir := by
          rw [hrev]; simpa using hdir
        rw [osMkdir_ok hnone hpd] at h
        cases h

theorem osMkdirAll_ok {fs fs1 : FS} {path : Str} (h : osMkdirAll fs path = .ok fs1) :
    (∀ q, entryAt fs1 q = entryAt fs q
        ∨ (entryAt fs q = none ∧ entryAt fs1 q = some Entry.dir ∧ q <+: resolve path))
    ∧ entryAt fs1 (resolve path) = some Entry.dir
    ∧ (KeysValid fs → KeysValid fs1) := by
  have := mkdirAllRev_ok h
  simp only [List.reverse_reverse] at this
  refine ⟨this.1, this.2.1, fun hk => this.2.2 hk ?_⟩
  intro n hn
  exact resolve_valid path n (List.mem_reverse.1 hn)

/-! ### `basecopy` -/

theorem osCreate_ok {fs fs2 : FS} {path : Str} {d : Path} (h : osCreate fs path = .ok (fs2, d)) :
    d = resolve path ∧ fs2 = (d, Entry.file [] true) :: fs ∧ d ≠ []
      ∧ entryAt fs d ≠ some Entry.dir := by
  simp only [osCreate] at h
  have hroot : resolve path ≠ [] := by
    intro e
    rw [e, entryAt_root] at h
    cases h
  cases he : entryAt fs (resolve path) with
  | some en =>
    cases en with
    | dir =>
      simp only [he] at h
      cases h
    | file c b =>
      cases b with
      | false =>
        simp only [he] at h
        cases h
      | true =>
        simp only [he] at h
        injection h with h
        injection h with h1 h2
        subst h2
        exact ⟨rfl, h1.symm, hroot, by simp [he]⟩
  | none =>
    simp only [he] at h
    split at h
    · injection h with h
      injection h with h1 h2
      subst h2
      exact ⟨rfl, h1.symm, hroot, by simp [he]⟩
    · cases h

theorem osCreate_existing {fs : FS} {path : Str} {c : Bytes}
    (h : entryAt fs (resolve path) = some (Entry.file c true)) :
    osCreate fs path = .ok ((resolve path, Entry.file [] true) :: fs, resolve path) := by
  simp [osCreate, h]

theorem osOpen_ok {fs : FS} {path : Str} {s : Path} (h : osOpen fs path = .ok s) :
    s = resolve path ∧ ((∃ c, entryAt fs s = some (Entry.file c true))
      ∨ entryAt fs s = some Entry.dir) := by
  unfold osOpen at h
  cases he : entryAt fs (resolve path) with
  | none =>
    simp only [he] at h
    cases h
  | some en =>
    cases en with
    | dir =>
      simp only [he] at h
      injection h with h
      subst h
      exact ⟨rfl, Or.inr he⟩
    | file c b =>
      cases b with
      | false =>
        simp only [he] at h
        cases h
      | true =>
        simp only [he] at h
        injection h with h
        subst h
        exact ⟨rfl, Or.inl ⟨c, he⟩⟩

theorem basecopy_unfold (fs : FS) (src dst : Str) :
    basecopy fs src dst =
      match osOpen fs src with
      | .error e => (fs, .error e)
      | .ok source =>
        match madeDir fs (filepathDir dst) with
        | .error e => (fs, .error e)
        | .ok fs1 =>
          match osCreate fs1 dst with
          | .error e => (fs1, .error e)
          | .ok (fs2, destination) => ioCopy fs2 destination source := by
  rfl

theorem madeDir_ok {fs fs1 : FS} {d : Str} (h : madeDir fs d = .ok fs1) :
    (∀ q, entryAt fs1 q = entryAt fs q
        ∨ (entryAt fs q = none ∧ entryAt fs1 q = some Entry.dir ∧ q <+: resolve d))
    ∧ entryAt fs1 (resolve d) ≠ none
    ∧ (KeysValid fs → KeysValid fs1) := by
  unfold madeDir at h
  split at h
  · cases hm : osMkdirAll fs d with
    | error e =>
      simp only [hm] at h
      cases h
    | ok fs2 =>
      simp only [hm] at h
      injection h with h
      subst h
      obtain ⟨h1, h2, h3⟩ := osMkdirAll_ok hm
      exact ⟨h1, by rw [h2]; simp, h3⟩
  · rename_i hex
    injection h with h
    subst h
    refine ⟨fun q => Or.inl rfl, ?_, id⟩
    rw [FileExists_eq] at hex
    intro e
    rw [e] at hex
    simp at hex

theorem madeDir_exists {fs : FS} {d : Str} (h : entryAt fs (resolve d) ≠ none) :
    madeDir fs d = .ok fs := by
  unfold madeDir
  rw [FileExists_eq]
  cases he : entryAt fs (resolve d) with
  | none => exact absurd he h
  | some e => simp

/-- What `basecopy` may change: new directories on the way to the parent of
the destination, and the destination itself, which becomes a file. -/
theorem basecopy_frame {fs fs1 : FS} {src dst : Str} {r : Except Str Int}
    (h : basecopy fs src dst = (fs1, r)) :
    (∀ q, entryAt fs1 q = entryAt fs q
      ∨ (entryAt fs q = none ∧ entryAt fs1 q = some Entry.dir
          ∧ q <+: resolve (filepathDir dst))
      ∨ (q = resolve dst ∧ entryAt fs q ≠ some Entry.dir
          ∧ ∃ c, entryAt fs1 q = some (Entry.file c true)
            ∧ ∀ c0 b, entryAt fs (resolve src) = some (Entry.file c0 b) →
                resolve src ≠ resolve dst → c = c0))
    ∧ (KeysValid fs → KeysValid fs1) := by
  rw [basecopy_unfold] at h
  cases ho : osOpen fs src with
  | error e =>
    simp only [ho] at h
    injection h with h1 h2
    subst h1
    exact ⟨fun q => Or.inl rfl, id⟩
  | ok source =>
    simp only [ho] at h
    obtain ⟨hsource, _⟩ := osOpen_ok ho
    cases hm : madeDir fs (filepathDir dst) with
    | error e =>
      simp only [hm] at h
      injection h with h1 h2
      subst h1
      exact ⟨fun q => Or.inl rfl, id⟩
    | ok fs2 =>
      simp only [hm] at h
      obtain ⟨hfr, _, hkv⟩ := madeDir_ok hm
      have hfr' : ∀ q, entryAt fs2 q = entryAt fs q
          ∨ (entryAt fs q = none ∧ entryAt fs2 q = some Entry.dir
              ∧ q <+: resolve (filepathDir dst))
          ∨ (q = resolve dst ∧ entryAt fs q ≠ some Entry.dir
              ∧ ∃ c, entryAt fs2 q = some (Entry.file c true)
                ∧ ∀ c0 b, entryAt fs (resolve src) = some (Entry.file c0 b) →
                    resolve src ≠ resolve dst → c = c0) := by
        intro q
        rcases hfr q with h1 | h1
        · exact Or.inl h1
        · exact Or.inr (Or.inl h1)
      cases hc : osCreate fs2 dst with
      | error e =>
        simp only [hc] at h
        injection h with h1 h2
        subst h1
        exact ⟨hfr', hkv⟩
      | ok pr =>
        obtain ⟨fs3, d⟩ := pr
        simp only [hc] at h
        obtain ⟨hd, hfs3, hdne, hnd⟩ := osCreate_ok hc
        have hnd0 : entryAt fs d ≠ some Entry.dir := by
          intro e
          rcases hfr d with h1 | ⟨h1, _, _⟩
          · exact hnd (h1.trans e)
          · rw [h1] at e
            cases e
        have hkv3 : KeysValid fs → KeysValid fs3 := by
          intro hk
          rw [hfs3]
          exact KeysValid.cons (by rw [hd]; exact resolve_valid dst) (hkv hk) _
        have hfr3 : ∀ (c : Bytes) (fs4 : FS), (∀ q, q ≠ d → entryAt fs4 q = entryAt fs2 q) →
            entryAt fs4 d = some (Entry.file c true) →
            (∀ c0 b, entryAt fs (resolve src) = some (Entry.file c0 b) →
              resolve src ≠ resolve dst → c = c0) →
            ∀ q, entryAt fs4 q = entryAt fs q
              ∨ (entryAt fs q = none ∧ entryAt fs4 q = some Entry.dir
                  ∧ q <+: resolve (filepathDir dst))
              ∨ (q = resolve dst ∧ entryAt fs q ≠ some Entry.dir
                  ∧ ∃ c, entryAt fs4 q = some (Entry.file c true)
                    ∧ ∀ c0 b, entryAt fs (resolve src) = some (Entry.file c0 b) →
                        resolve src ≠ resolve dst → c = c0) := by
          intro c fs4 hother hself hcont q
          by_cases hq : q = d
          · subst hq
            exact Or.inr (Or.inr ⟨hd, hnd0, c, hself, hcont⟩)
          · rw [hother q hq]
            exact hfr' q
        have h3d : entryAt fs3 d = some (Entry.file [] true) := by
          rw [hfs3]; exact entryAt_cons_self hdne _ _
        have h3o : ∀ q, q ≠ d → entryAt fs3 q = entryAt fs2 q := by
          intro q hq
          rw [hfs3]
          exact entryAt_cons_ne (fun e => hq e.symm) _ _
        -- the source, when it is a file other than the destination, is as it was
        have h3s : ∀ c0 b, entryAt fs (resolve src) = some (Entry.file c0 b) →
            resolve src ≠ resolve dst → entryAt fs3 source = some (Entry.file c0 b) := by
          intro c0 b hs hne
          rw [hsource, h3o _ (by rw [hd]; exact hne)]
          rcases hfr (resolve src) with h1 | ⟨h1, _, _⟩
          · rw [h1]; exact hs
          · rw [hs] at h1; cases h1
        unfold ioCopy at h
        cases hr : readAll fs3 source with
        | error e =>
          simp only [hr] at h
          injection h with h1 h2
          subst h1
          refine ⟨hfr3 [] fs3 h3o h3d ?_, hkv3⟩
          intro c0 b hs hne
          have := h3s c0 b hs hne
          simp [readAll, this] at hr
        | ok c =>
          simp only [hr, h3d] at h
          injection h with h1 h2
          subst h1
          refine ⟨hfr3 c _ ?_ (entryAt_cons_self hdne _ _) ?_, ?_⟩
          · intro q hq
            rw [entryAt_cons_ne (fun e => hq e.symm)]
            exact h3o q hq
          · intro c0 b hs hne
            have := h3s c0 b hs hne
            simp only [readAll, this] at hr
            injection hr with hr
            exact hr.symm
          · intro hk
            exact KeysValid.cons (by rw [hd]; exact resolve_valid dst) (hkv3 hk) _

/-- A successful `basecopy` between two different paths: the source is a
file that can be opened, the destination holds its bytes, and the parent
of the destination exists. -/
theorem basecopy_ok {fs fs1 : FS} {src dst : Str} {n : Int}
    (h : basecopy fs src dst = (fs1, .ok n)) (hne : resolve src ≠ resolve dst) :
    ∃ c, entryAt fs (resolve src) = some (Entry.file c true)
      ∧ entryAt fs1 (resolve dst) = some (Entry.file c true)
      ∧ entryAt fs1 (resolve (filepathDir dst)) ≠ none := by
  rw [basecopy_unfold] at h
  cases ho : osOpen fs src with
  | error e =>
    simp only [ho] at h
    cases h
  | ok source =>
    simp only [ho] at h
    obtain ⟨hs, hsrc⟩ := osOpen_ok ho
    cases hm : madeDir fs (filepathDir dst) with
    | error e =>
      simp only [hm] at h
      cases h
    | ok fs2 =>
      simp only [hm] at h
      obtain ⟨hfr, hdd, _⟩ := madeDir_ok hm
      cases hc : osCreate fs2 dst with
      | error e =>
        simp only [hc] at h
        cases h
      | ok pr =>
        obtain ⟨fs3, d⟩ := pr
        simp only [hc] at h
        obtain ⟨hd, hfs3, hdne, hnd⟩ := osCreate_ok hc
        have hsd : source ≠ d := by rw [hs, hd]; exact hne
        have h3d : entryAt fs3 d = some (Entry.file [] true) := by
          rw [hfs3]; exact entryAt_cons_self hdne _ _
        have h3s : entryAt fs3 source = entryAt fs source := by
          rw [hfs3, entryAt_cons_ne (fun e => hsd e.symm)]
          rcases hfr source with h1 | ⟨h1, _, _⟩
          · exact h1
          · rcases hsrc with ⟨c, hc'⟩ | hc' <;> rw [hc'] at h1 <;> cases h1
        have hdd3 : ∀ fs4 : FS, (∀ q, q ≠ d → entryAt fs4 q = entryAt fs3 q) →
            entryAt fs4 d ≠ none → entryAt fs4 (resolve (filepathDir dst)) ≠ none := by
          intro fs4 hother hself
          by_cases hq : resolve (filepathDir dst) = d
          · rw [hq]; exact hself
          · rw [hother _ hq, hfs3, entryAt_cons_ne (fun e => hq e.symm)]
            exact hdd
        unfold ioCopy at h
        rcases hsrc with ⟨c, hc'⟩ | hc'
        · have hr : readAll fs3 source = .ok c := by
            simp [readAll, h3s, hc']
          simp only [hr, h3d] at h
          injection h with h1 h2
          subst h1
          refine ⟨c, by rw [← hs]; exact hc', ?_, ?_⟩
          · rw [← hd]; exact entryAt_cons_self hdne _ _
          · apply hdd3
            · intro q hq
              exact entryAt_cons_ne (fun e => hq e.symm) _ _
            · rw [entryAt_cons_self hdne]; simp
        · have hr : ∃ e, readAll fs3 source = .error e := by
            simp [readAll, h3s, hc']
          obtain ⟨e, hr⟩ := hr
          simp only [hr] at h
          cases h

/-- Copying again over a copy that is already in place succeeds and leaves
every entry as it is. -/
theorem basecopy_again {fs : FS} {src dst : Str} {c : Bytes}
    (hs : entryAt fs (resolve src) = some (Entry.file c true))
    (hd : entryAt fs (resolve dst) = some (Entry.file c true))
    (hdd : entryAt fs (resolve (filepathDir dst)) ≠ none)
    (hne : resolve src ≠ resolve dst) :
    ∃ fs1 n, basecopy fs src dst = (fs1, .ok n) ∧ SameEntries fs1 fs := by
  have hdne : resolve dst ≠ [] := by
    intro e
    rw [e, entryAt_root] at hd
    cases hd
  have ho : osOpen fs src = .ok (resolve src) := by simp [osOpen, hs]
  have h3s : entryAt ((resolve dst, Entry.file [] true) :: fs) (resolve src)
      = some (Entry.file c true) := by
    rw [entryAt_cons_ne (fun e => hne e.symm)]; exact hs
  have hr : readAll ((resolve dst, Entry.file [] true) :: fs) (resolve src) = .ok c := by
    simp [readAll, h3s]
  refine ⟨(resolve dst, Entry.file c true) :: (resolve dst, Entry.file [] true) :: fs,
    (c.length : Int), ?_, ?_⟩
  · rw [basecopy_unfold, ho]
    simp only [madeDir_exists hdd, osCreate_existing hd]
    simp only [ioCopy, hr, entryAt_cons_self hdne]
  · intro q
    by_cases hq : resolve dst = q
    · subst hq
      rw [entryAt_cons_self hdne, hd]
    · rw [entryAt_cons_ne hq, entryAt_cons_ne hq]


/-! ## The callback on the nodes below the source root -/

theorem Apart.left_ne_nil {p q : Path} (h : Apart p q) : p ≠ [] := by
  intro e
  subst e
  exact h.1 List.nil_prefix

theorem Apart.right_ne_nil {p q : Path} (h : Apart p q) : q ≠ [] := by
  intro e
  subst e
  exact h.2 List.nil_prefix

/-- Two prefixes of one path: one of them is a prefix of the other. -/
theorem Apart.not_both {p q : Path} (h : Apart p q) {x : Path} (h1 : p <+: x) (h2 : q <+: x) :
    False := by
  rcases List.prefix_or_prefix_of_prefix h1 h2 with h3 | h3
  · exact h.1 h3
  · exact h.2 h3

theorem resolve_dir_render {p : Path} (hp : ValidPath p) (hne : p ≠ []) :
    resolve (filepathDir (render p)) = p.dropLast := by
  have h := List.dropLast_append_getLast hne
  have hv : ValidPath (p.dropLast ++ [p.getLast hne]) := by rw [h]; exact hp
  have hn : validName (p.getLast hne) = true := hv.right _ (by simp)
  conv_lhs => rw [← h]
  rw [filepathDir_render hv.left hn, resolve_render hv.left]

theorem newpath_eq {sc tc : Path} (hs : sc ≠ []) (ht : tc ≠ []) (rel : Path) :
    newpath (render (sc ++ rel)) (render sc) (render tc) = render (tc ++ rel) := by
  rw [newpath, render_append hs, stringsReplace_append_left, render_append ht]

theorem copypath_eq {sc pc : Path} (hs : sc ≠ []) (hp : pc ≠ []) (rel : Path) :
    copypath (render (sc ++ rel)) (render sc) (render pc) = render (pc ++ rel) := by
  rw [copypath, render_append hs, stringsReplace_append_left, render_append hp]

theorem walkFn_err (absSrc absTarget procTarget absProc : Str) (verbose : Bool) (st : FS)
    (path e : Str) :
    walkFn absSrc absTarget procTarget absProc verbose st path (some e) = (st, some e) := rfl

theorem walkFn_missing (absSrc absTarget procTarget absProc : Str) (verbose : Bool) (st : FS)
    (path : Str) (h : entryAt st (resolve path) = none) :
    ∃ e, walkFn absSrc absTarget procTarget absProc verbose st path none = (st, some e) := by
  obtain ⟨e, he⟩ := IsDirectory_error st path h
  exact ⟨e, by simp [walkFn, he]⟩

theorem walkFn_dir_eq {R : Roots} (hv : R.Valid) (hs : R.sc ≠ []) (ht : R.tc ≠ [])
    (absProc : Str) (verbose : Bool) {st : FS} {rel : Path} (hrel : ValidPath rel)
    (hd : entryAt st (R.sc ++ rel) = some Entry.dir) :
    walkFn (render R.sc) (render R.tc) (render R.pc) absProc verbose st (render (R.sc ++ rel)) none
      = if (entryAt st (R.tc ++ rel)).isSome then (st, none)
        else
          match mkdirAllRev st (R.tc ++ rel).reverse with
          | .error e =>
            (st, some ("failed to create directory: '".data ++ render (R.tc ++ rel)
              ++ "', error: '".data ++ e ++ "'".data))
          | .ok fs1 => (fs1, none) := by
  have hsv : ValidPath (R.sc ++ rel) := hv.1.append hrel
  have htv : ValidPath (R.tc ++ rel) := hv.2.1.append hrel
  have hres : entryAt st (resolve (render (R.sc ++ rel))) = some Entry.dir := by
    rw [resolve_render hsv]; exact hd
  unfold walkFn
  simp only [IsDirectory_eq st _ hres, isDir, newpath_eq hs ht, FileExists_render st htv,
    osMkdirAll, resolve_render htv]
  cases entryAt st (R.tc ++ rel) with
  | none =>
    simp only [Option.isSome_none, Bool.not_false, Bool.false_eq_true, if_true, if_false]
    all_goals rfl
  | some x => simp

theorem qualifies_iff (st : FS) (sp tp : Path) :
    Qualifies st sp tp ↔
      ((entryAt st tp).isSome = true →
        (fingerprint st sp).2 ≠ none ∨ (fingerprint st tp).2 ≠ none
          ∨ (fingerprint st sp).1 ≠ (fingerprint st tp).1) := by
  unfold Qualifies
  cases entryAt st tp <;> simp

theorem walkFn_file_eq {R : Roots} (hv : R.Valid) (hs : R.sc ≠ []) (ht : R.tc ≠ [])
    (absProc : Str) (verbose : Bool) {st : FS} {rel : Path} (hrel : ValidPath rel)
    {c : Bytes} {b : Bool} (hf : entryAt st (R.sc ++ rel) = some (Entry.file c b)) :
    walkFn (render R.sc) (render R.tc) (render R.pc) absProc verbose st (render (R.sc ++ rel)) none
      = if Qualifies st (R.sc ++ rel) (R.tc ++ rel) then
          filecopy st (render (R.sc ++ rel)) (render R.sc) (render R.pc) absProc verbose
        else (st, none) := by
  have hsv : ValidPath (R.sc ++ rel) := hv.1.append hrel
  have htv : ValidPath (R.tc ++ rel) := hv.2.1.append hrel
  have hres : entryAt st (resolve (render (R.sc ++ rel))) = some (Entry.file c b) := by
    rw [resolve_render hsv]; exact hf
  unfold walkFn
  simp only [IsDirectory_eq st _ hres, isDir, newpath_eq hs ht, FileExists_render st htv,
    GetSha256_render st hsv, GetSha256_render st htv]
  by_cases hq : Qualifies st (R.sc ++ rel) (R.tc ++ rel)
  · rw [if_pos hq]
    rw [qualifies_iff] at hq
    cases hex : (entryAt st (R.tc ++ rel)).isSome with
    | false => simp
    | true =>
      have := hq hex
      simp only [Bool.not_false, if_true]
      rw [if_pos this]
  · rw [if_neg hq]
    rw [qualifies_iff] at hq
    push_neg at hq
    obtain ⟨hex, h1, h2, h3⟩ := hq
    simp only [hex, Bool.not_false, if_true]
    rw [if_neg]
    push_neg
    exact ⟨h1, h2, h3⟩

theorem filecopy_eq {R : Roots} (hs : R.sc ≠ []) (hp : R.pc ≠ [])
    (absProc : Str) (verbose : Bool) (st : FS) (rel : Path) :
    filecopy st (render (R.sc ++ rel)) (render R.sc) (render R.pc) absProc verbose
      = match basecopy st (render (R.sc ++ rel)) (render (R.pc ++ rel)) with
        | (fs1, .error _) =>
          (fs1, some ("It was not possible to filecopy file '".data ++ render (R.sc ++ rel)
            ++ "'".data))
        | (fs1, .ok _) => (fs1, none) := by
  unfold filecopy
  simp only [copypath_eq hs hp]

/-- What one call of the callback may change. -/
theorem walkFn_frame {R : Roots} (hv : R.Valid) (hs : R.sc ≠ []) (ht : R.tc ≠ [])
    (hp : R.pc ≠ []) (absProc : Str) (verbose : Bool) {st st1 : FS} {rel : Path}
    (hrel : ValidPath rel) {e r : Option Str}
    (h : walkFn (render R.sc) (render R.tc) (render R.pc) absProc verbose st
      (render (R.sc ++ rel)) e = (st1, r)) :
    (KeysValid st → KeysValid st1) ∧ ∀ q, StepChange R st st1 rel q := by
  have hsv : ValidPath (R.sc ++ rel) := hv.1.append hrel
  have htv : ValidPath (R.tc ++ rel) := hv.2.1.append hrel
  have hpv : ValidPath (R.pc ++ rel) := hv.2.2.append hrel
  have same : ∀ {x : FS}, x = st1 → x = st →
      (KeysValid st → KeysValid st1) ∧ ∀ q, StepChange R st st1 rel q := by
    intro x h1 h2
    subst h1; subst h2
    exact ⟨id, fun q => Or.inl rfl⟩
  cases e with
  | some e =>
    rw [walkFn_err] at h
    injection h with h1 h2
    exact same h1 rfl
  | none =>
    cases hent : entryAt st (R.sc ++ rel) with
    | none =>
      obtain ⟨e, he⟩ := walkFn_missing (render R.sc) (render R.tc) (render R.pc) absProc verbose st
        (render (R.sc ++ rel)) (by rw [resolve_render hsv]; exact hent)
      rw [he] at h
      injection h with h1 h2
      exact same h1 rfl
    | some en =>
      cases en with
      | dir =>
        rw [walkFn_dir_eq hv hs ht absProc verbose hrel hent] at h
        split at h
        · injection h with h1 h2
          exact same h1 rfl
        · cases hm : mkdirAllRev st (R.tc ++ rel).reverse with
          | error e =>
            simp only [hm] at h
            injection h with h1 h2
            exact same h1 rfl
          | ok fs1 =>
            simp only [hm] at h
            injection h with h1 h2
            subst h1
            obtain ⟨hfr, _, hkv⟩ := mkdirAllRev_ok hm
            refine ⟨fun hk => hkv hk (fun n hn => htv n (List.mem_reverse.1 hn)), ?_⟩
            intro q
            rcases hfr q with h3 | ⟨h3, h4, h5⟩
            · exact Or.inl h3
            · exact Or.inr (Or.inl ⟨h3, h4, Or.inl ⟨hent, by simpa using h5⟩⟩)
      | file c b =>
        rw [walkFn_file_eq hv hs ht absProc verbose hrel hent] at h
        by_cases hq : Qualifies st (R.sc ++ rel) (R.tc ++ rel)
        · rw [if_pos hq, filecopy_eq hs hp] at h
          cases hb : basecopy st (render (R.sc ++ rel)) (render (R.pc ++ rel)) with
          | mk fs1 res =>
            have hst : fs1 = st1 := by
              rw [hb] at h
              cases res <;> · injection h
            subst hst
            obtain ⟨hfr, hkv⟩ := basecopy_frame hb
            refine ⟨hkv, ?_⟩
            intro q
            have hpne : R.pc ++ rel ≠ [] := by simp [hp]
            rw [resolve_dir_render hpv hpne, resolve_render hpv] at hfr
            rw [resolve_render hsv] at hfr
            rcases hfr q with h3 | ⟨h3, h4, h5⟩ | ⟨h3, h4, c1, h5, h6⟩
            · exact Or.inl h3
            · exact Or.inr (Or.inl ⟨h3, h4, Or.inr ⟨⟨c, b, hent⟩, hq, h5⟩⟩)
            · exact Or.inr (Or.inr ⟨h3, h4, ⟨c, b, c1, hent, h5, h6 c b hent⟩, hq⟩)
        · rw [if_neg hq] at h
          injection h with h1 h2
          exact same h1 rfl

/-- A successful call on a file that qualifies stages it. -/
theorem walkFn_staged {R : Roots} (hv : R.Valid) (hs : R.sc ≠ []) (ht : R.tc ≠ [])
    (hp : R.pc ≠ []) (absProc : Str) (verbose : Bool) {st st1 : FS} {rel : Path}
    (hrel : ValidPath rel) {c : Bytes} {b : Bool}
    (hf : entryAt st (R.sc ++ rel) = some (Entry.file c b))
    (hq : Qualifies st (R.sc ++ rel) (R.tc ++ rel))
    (hne : R.sc ++ rel ≠ R.pc ++ rel)
    (h : walkFn (render R.sc) (render R.tc) (render R.pc) absProc verbose st
      (render (R.sc ++ rel)) none = (st1, none)) :
    b = true ∧ entryAt st1 (R.pc ++ rel) = some (Entry.file c true)
      ∧ entryAt st1 (R.pc ++ rel).dropLast ≠ none := by
  have hsv : ValidPath (R.sc ++ rel) := hv.1.append hrel
  have hpv : ValidPath (R.pc ++ rel) := hv.2.2.append hrel
  have hpne : R.pc ++ rel ≠ [] := by simp [hp]
  rw [walkFn_file_eq hv hs ht absProc verbose hrel hf, if_pos hq, filecopy_eq hs hp] at h
  cases hb : basecopy st (render (R.sc ++ rel)) (render (R.pc ++ rel)) with
  | mk fs1 res =>
    rw [hb] at h
    cases res with
    | error e =>
      injection h with h1 h2
      cases h2
    | ok n =>
      injection h with h1 h2
      subst h1
      have := basecopy_ok hb (by rw [resolve_render hsv, resolve_render hpv]; exact hne)
      rw [resolve_render hsv, resolve_render hpv, resolve_dir_render hpv hpne] at this
      obtain ⟨c', h3, h4, h5⟩ := this
      rw [hf] at h3
      injection h3 with h3
      injection h3 with h31 h32
      subst h31
      exact ⟨h32, h4, h5⟩

/-- A successful call on a directory leaves a mirrored entry in the target
tree: the one that was there, or a new directory. -/
theorem walkFn_dir {R : Roots} (hv : R.Valid) (hs : R.sc ≠ []) (ht : R.tc ≠ [])
    (absProc : Str) (verbose : Bool) {st st1 : FS} {rel : Path}
    (hrel : ValidPath rel) (hd : entryAt st (R.sc ++ rel) = some Entry.dir)
    (h : walkFn (render R.sc) (render R.tc) (render R.pc) absProc verbose st
      (render (R.sc ++ rel)) none = (st1, none)) :
    (entryAt st (R.tc ++ rel) ≠ none ∧ st1 = st)
      ∨ (entryAt st (R.tc ++ rel) = none ∧ entryAt st1 (R.tc ++ rel) = some Entry.dir) := by
  rw [walkFn_dir_eq hv hs ht absProc verbose hrel hd] at h
  cases hex : entryAt st (R.tc ++ rel) with
  | some x =>
    simp only [hex, Option.isSome_some, if_true] at h
    injection h with h1 h2
    exact Or.inl ⟨by simp, h1.symm⟩
  | none =>
    simp only [hex, Option.isSome_none, Bool.false_eq_true, if_false] at h
    cases hm : mkdirAllRev st (R.tc ++ rel).reverse with
    | error e =>
      simp only [hm] at h
      injection h with h1 h2
      cases h2
    | ok fs1 =>
      simp only [hm] at h
      injection h with h1 h2
      subst h1
      obtain ⟨_, h3, _⟩ := mkdirAllRev_ok hm
      exact Or.inr ⟨rfl, by simpa using h3⟩

theorem walkFn_dir_exists {R : Roots} (hv : R.Valid) (hs : R.sc ≠ []) (ht : R.tc ≠ [])
    (absProc : Str) (verbose : Bool) {st : FS} {rel : Path}
    (hrel : ValidPath rel) (hd : entryAt st (R.sc ++ rel) = some Entry.dir)
    (hex : entryAt st (R.tc ++ rel) ≠ none) :
    walkFn (render R.sc) (render R.tc) (render R.pc) absProc verbose st
      (render (R.sc ++ rel)) none = (st, none) := by
  rw [walkFn_dir_eq hv hs ht absProc verbose hrel hd]
  cases h : entryAt st (R.tc ++ rel) with
  | none => exact absurd h hex
  | some x => simp

theorem walkFn_file_same {R : Roots} (hv : R.Valid) (hs : R.sc ≠ []) (ht : R.tc ≠ [])
    (absProc : Str) (verbose : Bool) {st : FS} {rel : Path}
    (hrel : ValidPath rel) {c : Bytes} {b : Bool}
    (hf : entryAt st (R.sc ++ rel) = some (Entry.file c b))
    (hq : ¬ Qualifies st (R.sc ++ rel) (R.tc ++ rel)) :
    walkFn (render R.sc) (render R.tc) (render R.pc) absProc verbose st
      (render (R.sc ++ rel)) none = (st, none) := by
  rw [walkFn_file_eq hv hs ht absProc verbose hrel hf, if_neg hq]

/-- The callback on a file whose staged copy is in place: it succeeds and
leaves every entry as it is. -/
theorem walkFn_file_again {R : Roots} (hv : R.Valid) (hs : R.sc ≠ []) (ht : R.tc ≠ [])
    (hp : R.pc ≠ []) (absProc : Str) (verbose : Bool) {st : FS} {rel : Path}
    (hrel : ValidPath rel) {c : Bytes}
    (hf : entryAt st (R.sc ++ rel) = some (Entry.file c true))
    (hq : Qualifies st (R.sc ++ rel) (R.tc ++ rel))
    (hne : R.sc ++ rel ≠ R.pc ++ rel)
    (hst : entryAt st (R.pc ++ rel) = some (Entry.file c true))
    (hdd : entryAt st (R.pc ++ rel).dropLast ≠ none) :
    ∃ st1, walkFn (render R.sc) (render R.tc) (render R.pc) absProc verbose st
      (render (R.sc ++ rel)) none = (st1, none) ∧ SameEntries st1 st := by
  have hsv : ValidPath (R.sc ++ rel) := hv.1.append hrel
  have hpv : ValidPath (R.pc ++ rel) := hv.2.2.append hrel
  have hpne : R.pc ++ rel ≠ [] := by simp [hp]
  obtain ⟨fs1, n, hb, hsame⟩ := @basecopy_again st (render (R.sc ++ rel))
    (render (R.pc ++ rel)) c
    (by rw [resolve_render hsv]; exact hf) (by rw [resolve_render hpv]; exact hst)
    (by rw [resolve_dir_render hpv hpne]; exact hdd)
    (by rw [resolve_render hsv, resolve_render hpv]; exact hne)
  refine ⟨fs1, ?_, hsame⟩
  rw [walkFn_file_eq hv hs ht absProc verbose hrel hf, if_pos hq, filecopy_eq hs hp, hb]


/-! ## The states of a run on disjoint trees -/

theorem Setting.sc_ne {R : Roots} {fs0 : FS} (S : Setting R fs0) : R.sc ≠ [] :=
  S.disjoint.1.left_ne_nil

theorem Setting.tc_ne {R : Roots} {fs0 : FS} (S : Setting R fs0) : R.tc ≠ [] :=
  S.disjoint.1.right_ne_nil

theorem Setting.pc_ne {R : Roots} {fs0 : FS} (S : Setting R fs0) : R.pc ≠ [] :=
  S.disjoint.2.1.right_ne_nil

theorem fingerprint_congr {st fs0 : FS} {p : Path} (h : entryAt st p = entryAt fs0 p) :
    (fingerprint st p).1 = (fingerprint fs0 p).1
      ∧ ((fingerprint st p).2 = none ↔ (fingerprint fs0 p).2 = none) := by
  unfold fingerprint
  rw [h]
  cases entryAt fs0 p with
  | none => simp
  | some e =>
    cases e with
    | dir => simp
    | file c b => cases b <;> simp

theorem qualifies_congr {st fs0 : FS} {sp tp : Path} (hs : entryAt st sp = entryAt fs0 sp)
    (ht : entryAt st tp = entryAt fs0 tp) : Qualifies st sp tp ↔ Qualifies fs0 sp tp := by
  unfold Qualifies
  rw [ht, (fingerprint_congr hs).1, (fingerprint_congr ht).1, ne_eq, ne_eq, ne_eq, ne_eq,
    (fingerprint_congr hs).2, (fingerprint_congr ht).2]

theorem Inv.start {R : Roots} {fs0 : FS} (S : Setting R fs0) : Inv R fs0 fs0 :=
  ⟨S.wf.keysValid, fun _ => Or.inl rfl⟩

theorem dropLast_initial {α : Type} (l : List α) : l.dropLast <+: l := by
  rw [List.dropLast_eq_take]
  exact List.take_prefix _ _

/-- The source tree does not change during a run. -/
theorem Inv.source {R : Roots} {fs0 st : FS} (S : Setting R fs0) (h : Inv R fs0 st)
    {q : Path} (hq : R.sc <+: q) : entryAt st q = entryAt fs0 q := by
  rcases h.2 q with h1 | ⟨_, _, h3⟩ | ⟨_, _, h3⟩
  · exact h1
  · exfalso
    rcases h3 with ⟨rel, _, hpre⟩ | ⟨rel, c, r, _, _, hpre⟩
    · exact S.disjoint.1.not_both (hq.trans hpre) (List.prefix_append _ _)
    · exact S.disjoint.2.1.not_both (hq.trans (hpre.trans (dropLast_initial _)))
        (List.prefix_append _ _)
  · exfalso
    obtain ⟨rel, c, r, _, _, he⟩ := h3
    subst he
    exact S.disjoint.2.1.not_both hq (List.prefix_append _ _)

/-- The counterpart of a source file does not change during a run. -/
theorem Inv.counterpart {R : Roots} {fs0 st : FS} (S : Setting R fs0) (h : Inv R fs0 st)
    {rel : Path} {c : Bytes} {b : Bool} (hf : entryAt fs0 (R.sc ++ rel) = some (Entry.file c b)) :
    entryAt st (R.tc ++ rel) = entryAt fs0 (R.tc ++ rel) := by
  rcases h.2 (R.tc ++ rel) with h1 | ⟨_, _, h3⟩ | ⟨_, _, h3⟩
  · exact h1
  · exfalso
    rcases h3 with ⟨rel', hd, hpre⟩ | ⟨rel', c', r', _, _, hpre⟩
    · have hpre' : rel <+: rel' := by
        rwa [List.prefix_append_right_inj] at hpre
      obtain ⟨x, hx⟩ := hpre'
      subst hx
      by_cases hxe : x = []
      · subst hxe
        rw [List.append_nil] at hd
        rw [hd] at hf
        cases hf
      · have := S.wf.prefix_dir (p := R.sc ++ rel) x hxe (by
          rw [List.append_assoc, hd]; simp)
        rw [this] at hf
        cases hf
    · exact S.disjoint.2.2.not_both ((List.prefix_append _ _).trans
        (hpre.trans (dropLast_initial _))) (List.prefix_append _ _)
  · exfalso
    obtain ⟨rel', c', r', _, _, he⟩ := h3
    exact S.disjoint.2.2.not_both (List.prefix_append R.tc rel) (he ▸ List.prefix_append R.pc rel')

theorem Inv.qualifies {R : Roots} {fs0 st : FS} (S : Setting R fs0) (h : Inv R fs0 st)
    {rel : Path} {c : Bytes} {b : Bool} (hf : entryAt fs0 (R.sc ++ rel) = some (Entry.file c b)) :
    Qualifies st (R.sc ++ rel) (R.tc ++ rel) ↔ Qualifies fs0 (R.sc ++ rel) (R.tc ++ rel) :=
  qualifies_congr (h.source S (List.prefix_append _ _)) (h.counterpart S hf)

/-- One call of the callback keeps the run within its states. -/
theorem Inv.step {R : Roots} {fs0 st st1 : FS} (S : Setting R fs0) (h : Inv R fs0 st)
    (absProc : Str) (verbose : Bool) {rel : Path} (hrel : ValidPath rel) {e r : Option Str}
    (hw : walkFn (render R.sc) (render R.tc) (render R.pc) absProc verbose st
      (render (R.sc ++ rel)) e = (st1, r)) : Inv R fs0 st1 := by
  obtain ⟨hkv, hch⟩ := walkFn_frame S.valid S.sc_ne S.tc_ne S.pc_ne absProc verbose hrel hw
  refine ⟨hkv h.1, ?_⟩
  intro q
  have hsrc := h.source S (q := R.sc ++ rel) (List.prefix_append _ _)
  rcases hch q with h1 | ⟨h1, h2, h3⟩ | ⟨h1, h2, ⟨c, b, c1, h4, h3, _⟩, h5⟩
  · rw [h1]; exact h.2 q
  · have h0 : entryAt fs0 q = none := by
      rcases h.2 q with a | ⟨_, a, _⟩ | ⟨_, ⟨c, a⟩, _⟩
      · rw [← a]; exact h1
      · rw [h1] at a; cases a
      · rw [h1] at a; cases a
    refine Or.inr (Or.inl ⟨h0, h2, ?_⟩)
    rcases h3 with ⟨h4, h5⟩ | ⟨⟨c, b, h4⟩, h5, h6⟩
    · exact Or.inl ⟨rel, by rw [← hsrc]; exact h4, h5⟩
    · rw [hsrc] at h4
      exact Or.inr ⟨rel, c, b, h4, (h.qualifies S h4).1 h5, h6⟩
  · rw [hsrc] at h4
    have h0 : entryAt fs0 q ≠ some Entry.dir := by
      rcases h.2 q with a | ⟨_, a, _⟩ | ⟨a, _, _⟩
      · rw [← a]; exact h2
      · exact absurd a h2
      · exact a
    exact Or.inr (Or.inr ⟨h0, ⟨c1, h3⟩, rel, c, b, h4, (h.qualifies S h4).1 h5, h1⟩)

/-! ## Directory listings -/

theorem mem_childNames {fs : FS} {p : Path} {n : Str} :
    n ∈ childNames fs p ↔ ∃ e, (p ++ [n], e) ∈ fs := by
  unfold childNames
  rw [List.mem_filterMap]
  constructor
  · rintro ⟨⟨k, e⟩, hmem, hk⟩
    simp only at hk
    split at hk
    · rename_i hc
      obtain ⟨hne, hdl⟩ := hc
      have := List.dropLast_append_getLast hne
      rw [List.getLast?_eq_getLast _ hne] at hk
      injection hk with hk
      rw [hdl, hk] at this
      exact ⟨e, this ▸ hmem⟩
    · cases hk
  · rintro ⟨e, hmem⟩
    refine ⟨(p ++ [n], e), hmem, ?_⟩
    simp

theorem mem_readDirNames {fs : FS} {path : Str} {n : Str} :
    n ∈ readDirNames fs path ↔ ∃ e, (resolve path ++ [n], e) ∈ fs := by
  unfold readDirNames
  rw [(List.perm_insertionSort _ _).mem_iff, List.mem_dedup, mem_childNames]

theorem mem_readDirNames_of_entry {fs : FS} {path : Str} {n : Str}
    (h : entryAt fs (resolve path ++ [n]) ≠ none) : n ∈ readDirNames fs path := by
  rw [mem_readDirNames]
  have hne : resolve path ++ [n] ≠ [] := by simp
  simp only [entryAt, hne, if_false] at h
  cases hf : findBinding fs (resolve path ++ [n]) with
  | none => exact absurd hf h
  | some e => exact ⟨e, findBinding_some hf⟩

theorem validName_of_mem_readDirNames {fs : FS} (hk : KeysValid fs) {path : Str} {n : Str}
    (h : n ∈ readDirNames fs path) : validName n = true := by
  obtain ⟨e, he⟩ := mem_readDirNames.1 h
  exact hk _ he n (by simp)

theorem entry_of_mem_readDirNames {fs : FS} {path : Str} {n : Str}
    (h : n ∈ readDirNames fs path) : entryAt fs (resolve path ++ [n]) ≠ none := by
  obtain ⟨e, he⟩ := mem_readDirNames.1 h
  have hne : resolve path ++ [n] ≠ [] := by simp
  simp only [entryAt, hne, if_false]
  exact findBinding_ne_none he

/-! ## Invariants of `filepath.Walk` -/

/-- A property of the state that every call of the callback keeps, on the
paths of a family closed under joining the names of a listing, is kept by
the loop over the names of a directory. -/
theorem walkLoop_keeps {fn : FS → Str → Option Str → Step}
    {rec : FS → Str → Bool → Option Step} (I : FS → Prop) (G : Str → Prop)
    (hfn : ∀ st path e st1 r, I st → G path → fn st path e = (st1, r) → I st1)
    (hrec : ∀ st path b st1 r, I st → G path → rec st path b = some (st1, r) → I st1)
    (path : Str) :
    ∀ (names : List Str) (st st1 : FS) (r : Option Str),
      (∀ n ∈ names, G (filepathJoin path n)) → I st →
      walkLoop rec fn path names st = some (st1, r) → I st1 := by
  intro names
  induction names with
  | nil =>
    intro st st1 r _ hI h
    simp only [walkLoop] at h
    injection h with h
    injection h with h1 h2
    subst h1
    exact hI
  | cons n rest ih =>
    intro st st1 r hG hI h
    have hGn : G (filepathJoin path n) := hG n (by simp)
    have hGr : ∀ m ∈ rest, G (filepathJoin path m) := fun m hm => hG m (by simp [hm])
    simp only [walkLoop] at h
    cases hl : osLstat st (filepathJoin path n) with
    | error e =>
      simp only [hl] at h
      cases hf : fn st (filepathJoin path n) (some e) with
      | mk fs1 e1 =>
        have hI1 := hfn _ _ _ _ _ hI hGn hf
        simp only [hf] at h
        cases e1 with
        | some e1 =>
          simp only at h
          injection h with h
          injection h with h1 h2
          subst h1
          exact hI1
        | none =>
          simp only at h
          exact ih _ _ _ hGr hI1 h
    | ok info =>
      simp only [hl] at h
      cases hr : rec st (filepathJoin path n) (isDir (some info)) with
      | none =>
        simp only [hr] at h
        cases h
      | some res =>
        obtain ⟨fs1, e1⟩ := res
        have hI1 := hrec _ _ _ _ _ hI hGn hr
        simp only [hr] at h
        cases e1 with
        | some e1 =>
          simp only at h
          injection h with h
          injection h with h1 h2
          subst h1
          exact hI1
        | none =>
          simp only at h
          exact ih _ _ _ hGr hI1 h

/-- The same for the whole walk. -/
theorem walk_keeps {fn : FS → Str → Option Str → Step} (I : FS → Prop) (G : Str → Prop)
    (hfn : ∀ st path e st1 r, I st → G path → fn st path e = (st1, r) → I st1)
    (hG : ∀ st path n, I st → G path → n ∈ readDirNames st path → G (filepathJoin path n)) :
    ∀ (depth : Nat) (st : FS) (path : Str) (b : Bool) (st1 : FS) (r : Option Str),
      I st → G path → walk fn depth st path b = some (st1, r) → I st1 := by
  intro depth
  induction depth with
  | zero =>
    intro st path b st1 r _ _ h
    simp [walk] at h
  | succ d ih =>
    intro st path b st1 r hI hGp h
    simp only [walk] at h
    cases b with
    | false =>
      simp only [Bool.not_false, if_true] at h
      injection h with h
      exact hfn _ _ _ _ _ hI hGp h
    | true =>
      simp only [Bool.not_true, Bool.false_eq_true, if_false] at h
      cases hf : fn st path none with
      | mk fs1 e1 =>
        have hI1 := hfn _ _ _ _ _ hI hGp hf
        simp only [hf] at h
        cases e1 with
        | some e1 =>
          simp only at h
          injection h with h
          injection h with h1 h2
          subst h1
          exact hI1
        | none =>
          simp only at h
          exact walkLoop_keeps I G hfn ih path _ _ _ _ (fun n hn => hG st path n hI hGp hn) hI1 h


/-! ## Runs keep the file system well formed -/

theorem WF.cons_dir {fs : FS} (h : WF fs) {p : Path} (hp : ValidPath p)
    (hparent : entryAt fs p.dropLast = some Entry.dir) : WF ((p, Entry.dir) :: fs) := by
  intro b hb
  have key : ∀ q : Path, entryAt fs q = some Entry.dir →
      entryAt ((p, Entry.dir) :: fs) q = some Entry.dir := by
    intro q hq
    rw [entryAt_cons]
    by_cases h1 : q = []
    · simp [h1]
    · by_cases h2 : p = q
      · simp [h1, h2]
      · simp [h1, h2, hq]
  rcases List.mem_cons.1 hb with h1 | h1
  · subst h1
    exact ⟨hp, key _ hparent⟩
  · exact ⟨(h b h1).1, key _ (h b h1).2⟩

theorem WF.cons_file {fs : FS} (h : WF fs) {p : Path} (hp : ValidPath p)
    (hparent : entryAt fs p.dropLast = some Entry.dir)
    (hnotdir : entryAt fs p ≠ some Entry.dir) (c : Bytes) (r : Bool) :
    WF ((p, Entry.file c r) :: fs) := by
  intro b hb
  have key : ∀ q : Path, entryAt fs q = some Entry.dir →
      entryAt ((p, Entry.file c r) :: fs) q = some Entry.dir := by
    intro q hq
    rw [entryAt_cons]
    by_cases h1 : q = []
    · simp [h1]
    · by_cases h2 : p = q
      · subst h2
        exact absurd hq hnotdir
      · simp [h1, h2, hq]
  rcases List.mem_cons.1 hb with h1 | h1
  · subst h1
    exact ⟨hp, key _ hparent⟩
  · exact ⟨(h b h1).1, key _ (h b h1).2⟩

/-- In a well-formed file system a file that exists lies in a directory. -/
theorem WF.parent_of_entry {fs : FS} (h : WF fs) {p : Path} (hne : p ≠ [])
    (he : entryAt fs p ≠ none) : entryAt fs p.dropLast = some Entry.dir := by
  have h1 := List.dropLast_append_getLast hne
  rw [← h1] at he
  exact h.parent_dir he

theorem mkdirAllRev_wf {fs fs1 : FS} {r : List Str} (hwf : WF fs) (hr : ValidPath r)
    (h : mkdirAllRev fs r = .ok fs1) : WF fs1 := by
  induction r generalizing fs1 with
  | nil =>
    simp only [mkdirAllRev] at h
    injection h with h
    subst h
    exact hwf
  | cons n parent ih =>
    simp only [mkdirAllRev] at h
    cases ht : entryAt fs (n :: parent).reverse with
    | some e =>
      cases e with
      | dir =>
        simp only [ht] at h
        injection h with h
        subst h
        exact hwf
      | file c r =>
        simp only [ht] at h
        cases h
    | none =>
      simp only [ht] at h
      cases hp : mkdirAllRev fs parent with
      | error e =>
        simp only [hp] at h
        cases h
      | ok fs2 =>
        simp only [hp] at h
        have hwf2 := ih (fun x hx => hr x (by simp [hx])) hp
        obtain ⟨hfr, hdir, _⟩ := mkdirAllRev_ok hp
        have hrev : (n :: parent).reverse = parent.reverse ++ [n] := by simp
        have hnone : entryAt fs2 (n :: parent).reverse = none := by
          rcases hfr (n :: parent).reverse with h1 | ⟨_, _, h3⟩
          · rw [h1, ht]
          · exfalso
            have := h3.length_le
            simp at this
        have hpd : entryAt fs2 ((n :: parent).reverse).dropLast = some Entry.dir := by
          rw [hrev]; simpa using hdir
        rw [osMkdir_ok hnone hpd] at h
        injection h with h
        subst h
        exact hwf2.cons_dir (fun x hx => hr x (List.mem_reverse.1 hx)) hpd

theorem madeDir_wf {fs fs1 : FS} {d : Str} (hwf : WF fs) (h : madeDir fs d = .ok fs1) :
    WF fs1 := by
  unfold madeDir at h
  split at h
  · cases hm : osMkdirAll fs d with
    | error e =>
      simp only [hm] at h
      cases h
    | ok fs2 =>
      simp only [hm] at h
      injection h with h
      subst h
      exact mkdirAllRev_wf hwf (fun x hx => resolve_valid d x (List.mem_reverse.1 hx)) hm
  · injection h with h
    subst h
    exact hwf

theorem osCreate_wf {fs fs2 : FS} {path : Str} {d : Path} (hwf : WF fs)
    (h : osCreate fs path = .ok (fs2, d)) : WF fs2 := by
  obtain ⟨hd, hfs2, hdne, hnd⟩ := osCreate_ok h
  subst hfs2
  have hparent : entryAt fs d.dropLast = some Entry.dir := by
    by_cases he : entryAt fs d = none
    · simp only [osCreate] at h
      rw [← hd, he] at h
      simp only at h
      split at h
      · rename_i hp
        exact hp
      · cases h
    · exact hwf.parent_of_entry hdne he
  exact hwf.cons_file (hd ▸ resolve_valid path) hparent hnd _ _

theorem basecopy_wf {fs fs1 : FS} {src dst : Str} {r : Except Str Int} (hwf : WF fs)
    (h : basecopy fs src dst = (fs1, r)) : WF fs1 := by
  rw [basecopy_unfold] at h
  cases ho : osOpen fs src with
  | error e =>
    simp only [ho] at h
    injection h with h1 h2
    subst h1
    exact hwf
  | ok source =>
    simp only [ho] at h
    cases hm : madeDir fs (filepathDir dst) with
    | error e =>
      simp only [hm] at h
      injection h with h1 h2
      subst h1
      exact hwf
    | ok fs2 =>
      simp only [hm] at h
      have hwf2 := madeDir_wf hwf hm
      cases hc : osCreate fs2 dst with
      | error e =>
        simp only [hc] at h
        injection h with h1 h2
        subst h1
        exact hwf2
      | ok pr =>
        obtain ⟨fs3, d⟩ := pr
        simp only [hc] at h
        have hwf3 := osCreate_wf hwf2 hc
        obtain ⟨hd, hfs3, hdne, _⟩ := osCreate_ok hc
        have h3d : entryAt fs3 d = some (Entry.file [] true) := by
          rw [hfs3]; exact entryAt_cons_self hdne _ _
        unfold ioCopy at h
        cases hr : readAll fs3 source with
        | error e =>
          simp only [hr] at h
          injection h with h1 h2
          subst h1
          exact hwf3
        | ok c =>
          simp only [hr, h3d] at h
          injection h with h1 h2
          subst h1
          exact hwf3.cons_file (hd ▸ resolve_valid dst)
            (hwf3.parent_of_entry hdne (by rw [h3d]; simp)) (by rw [h3d]; simp) _ _

/-- One call of the callback, on any path, keeps the file system well
formed. -/
theorem walkFn_wf (absSrc absTarget procTarget absProc : Str) (verbose : Bool)
    {st st1 : FS} {path : Str} {e r : Option Str} (hwf : WF st)
    (h : walkFn absSrc absTarget procTarget absProc verbose st path e = (st1, r)) : WF st1 := by
  have same : ∀ {x : FS} {y : Option Str}, (x, y) = (st1, r) → x = st → WF st1 := by
    intro x y h1 h2
    injection h1 with h1 _
    subst h1; subst h2
    exact hwf
  have copy : filecopy st path absSrc procTarget absProc verbose = (st1, r) → WF st1 := by
    intro hc
    unfold filecopy at hc
    cases hb : basecopy st path (copypath path absSrc procTarget) with
    | mk fs1 res =>
      have hst : fs1 = st1 := by
        simp only [hb] at hc
        cases res <;> · injection hc
      subst hst
      exact basecopy_wf hwf hb
  unfold walkFn at h
  cases e with
  | some e => exact same h rfl
  | none =>
    simp only at h
    cases hd : IsDirectory st path with
    | error e =>
      simp only [hd] at h
      exact same h rfl
    | ok isdir =>
      simp only [hd] at h
      cases isdir with
      | false =>
        simp only [Bool.not_false, if_true] at h
        split at h
        · split at h
          · exact copy h
          · exact same h rfl
        · exact copy h
      | true =>
        simp only [Bool.not_true, Bool.false_eq_true, if_false] at h
        split at h
        · cases hm : osMkdirAll st (newpath path absSrc absTarget) with
          | error e =>
            simp only [hm] at h
            exact same h rfl
          | ok fs1 =>
            simp only [hm] at h
            injection h with h1 _
            subst h1
            exact mkdirAllRev_wf hwf
              (fun x hx => resolve_valid _ x (List.mem_reverse.1 hx)) hm
        · exact same h rfl

/-- Every run, whatever the configuration, leaves a well-formed file
system well formed. -/
theorem copyFiles_wf (config : Config) (env : Env) (depth : Nat) {fs fs1 : FS}
    {r : Option Str} (hwf : WF fs) (h : config.copyFiles env depth fs = some (fs1, r)) :
    WF fs1 := by
  unfold Config.copyFiles at h
  have same : ∀ {x : FS} {y : Option Str}, some (x, y) = some (fs1, r) → x = fs → WF fs1 := by
    intro x y h1 h2
    injection h1 with h1
    injection h1 with h1 _
    subst h1; subst h2
    exact hwf
  cases hS : filepathAbs env config.srcdir with
  | error e =>
    simp only [hS] at h
    exact same h rfl
  | ok absSrc =>
    cases hT : filepathAbs env config.targetdir with
    | error e =>
      simp only [hS, hT] at h
      exact same h rfl
    | ok absTarget =>
      cases hD : filepathAbs env config.diffdir with
      | error e =>
        simp only [hS, hT, hD] at h
        exact same h rfl
      | ok absProc =>
        simp only [hS, hT, hD] at h
        unfold filepathWalk at h
        cases hl : osLstat fs absSrc with
        | error e =>
          simp only [hl, walkFn_err] at h
          exact same h rfl
        | ok info =>
          simp only [hl] at h
          exact walk_keeps WF (fun _ => True)
            (fun st path e st1 r hI _ hw => walkFn_wf _ _ _ _ _ hI hw)
            (fun _ _ _ _ _ _ => trivial) depth fs absSrc _ fs1 r hwf trivial h


/-! ## The walk over the source tree -/

theorem Reported.join {R : Roots} {fs0 st : FS} (S : Setting R fs0) (h : Inv R fs0 st)
    {path n : Str} (hp : Reported R path) (hn : n ∈ readDirNames st path) :
    Reported R (filepathJoin path n) := by
  obtain ⟨rel, hrel, rfl⟩ := hp
  have hv := validName_of_mem_readDirNames h.1 hn
  refine ⟨rel ++ [n], hrel.append (ValidPath.single hv), ?_⟩
  rw [filepathJoin_render (S.valid.1.append hrel) hv, List.append_assoc]

/-- Every state of a walk over the source tree is a state of the run. -/
theorem walk_inv {R : Roots} {fs0 : FS} (S : Setting R fs0) (absProc : Str) (verbose : Bool)
    {depth : Nat} {st st1 : FS} {rel : Path} {b : Bool} {r : Option Str}
    (hI : Inv R fs0 st) (hrel : ValidPath rel)
    (h : walk (walkFn (render R.sc) (render R.tc) (render R.pc) absProc verbose) depth st
      (render (R.sc ++ rel)) b = some (st1, r)) : Inv R fs0 st1 := by
  refine walk_keeps (Inv R fs0) (Reported R) ?_ ?_ depth st _ b st1 r hI ⟨rel, hrel, rfl⟩ h
  · rintro st path e st1 r hI ⟨rel, hrel, rfl⟩ hw
    exact hI.step S absProc verbose hrel hw
  · intro st path n hI hp hn
    exact hp.join S hI hn

/-- A property that the callback establishes on a node of the source tree
and that no later call destroys holds after every successful walk that
starts at or above the node. -/
theorem walk_reaches {R : Roots} {fs0 : FS} (S : Setting R fs0) (absProc : Str)
    (verbose : Bool) (Post : FS → Prop) (target : Path)
    (hstab : ∀ st rel e st1 r, Inv R fs0 st → ValidPath rel → Post st →
      walkFn (render R.sc) (render R.tc) (render R.pc) absProc verbose st
        (render (R.sc ++ rel)) e = (st1, r) → Post st1)
    (hest : ∀ st st1, Inv R fs0 st →
      walkFn (render R.sc) (render R.tc) (render R.pc) absProc verbose st
        (render (R.sc ++ target)) none = (st1, none) → Post st1)
    (hex : entryAt fs0 (R.sc ++ target) ≠ none) :
    ∀ (depth : Nat) (st : FS) (p rest : Path) (b : Bool) (st1 : FS),
      target = p ++ rest → Inv R fs0 st → ValidPath p →
      b = isDir (entryAt fs0 (R.sc ++ p)) →
      walk (walkFn (render R.sc) (render R.tc) (render R.pc) absProc verbose) depth st
        (render (R.sc ++ p)) b = some (st1, none) → Post st1 := by
  -- the invariant together with the property
  have hfn2 : ∀ st path e st1 r, (Inv R fs0 st ∧ Post st) → Reported R path →
      walkFn (render R.sc) (render R.tc) (render R.pc) absProc verbose st path e = (st1, r) →
      (Inv R fs0 st1 ∧ Post st1) := by
    rintro st path e st1 r ⟨hI, hP⟩ ⟨rel, hrel, rfl⟩ hw
    exact ⟨hI.step S absProc verbose hrel hw, hstab _ _ _ _ _ hI hrel hP hw⟩
  have hG2 : ∀ st path n, (Inv R fs0 st ∧ Post st) → Reported R path →
      n ∈ readDirNames st path → Reported R (filepathJoin path n) :=
    fun st path n hI hp hn => hp.join S hI.1 hn
  have hfn1 : ∀ st path e st1 r, Inv R fs0 st → Reported R path →
      walkFn (render R.sc) (render R.tc) (render R.pc) absProc verbose st path e = (st1, r) →
      Inv R fs0 st1 := by
    rintro st path e st1 r hI ⟨rel, hrel, rfl⟩ hw
    exact hI.step S absProc verbose hrel hw
  intro depth
  induction depth with
  | zero =>
    intro st p rest b st1 _ _ _ _ h
    simp [walk] at h
  | succ d ih =>
    intro st p rest b st1 htar hI hp hb h
    have hpv : ValidPath (R.sc ++ p) := S.valid.1.append hp
    simp only [walk] at h
    cases rest with
    | nil =>
      rw [List.append_nil] at htar
      subst htar
      cases b with
      | false =>
        simp only [Bool.not_false, if_true] at h
        injection h with h
        exact hest _ _ hI h
      | true =>
        simp only [Bool.not_true, Bool.false_eq_true, if_false] at h
        cases hf : walkFn (render R.sc) (render R.tc) (render R.pc) absProc verbose st
            (render (R.sc ++ target)) none with
        | mk fs1 e1 =>
          simp only [hf] at h
          cases e1 with
          | some e1 =>
            simp only at h
            injection h with h
            injection h with h1 h2
            cases h2
          | none =>
            simp only at h
            have hI1 := hI.step S absProc verbose hp hf
            have hP1 := hest _ _ hI hf
            have := walkLoop_keeps (fun s => Inv R fs0 s ∧ Post s) (Reported R) hfn2
              (walk_keeps (fun s => Inv R fs0 s ∧ Post s) (Reported R) hfn2 hG2 d)
              (render (R.sc ++ target)) _ _ _ _
              (fun n hn => Reported.join S hI ⟨target, hp, rfl⟩ hn) ⟨hI1, hP1⟩ h
            exact this.2
    | cons n rest =>
      subst htar
      have hchild : entryAt fs0 (R.sc ++ p ++ [n]) ≠ none := by
        by_cases hr : rest = []
        · subst hr
          simpa [List.append_assoc] using hex
        · have := S.wf.prefix_dir (p := R.sc ++ p ++ [n]) rest hr (by
            simpa [List.append_assoc] using hex)
          rw [this]; simp
      have hdir : entryAt fs0 (R.sc ++ p) = some Entry.dir := S.wf.parent_dir hchild
      rw [hdir] at hb
      subst hb
      simp only [isDir, Bool.not_true, Bool.false_eq_true, if_false] at h
      have hnmem : n ∈ readDirNames st (render (R.sc ++ p)) := by
        apply mem_readDirNames_of_entry
        rw [resolve_render hpv, hI.source S (by simp [List.append_assoc])]
        exact hchild
      have hvalid : ∀ m ∈ readDirNames st (render (R.sc ++ p)), validName m = true :=
        fun m hm => validName_of_mem_readDirNames hI.1 hm
      cases hf : walkFn (render R.sc) (render R.tc) (render R.pc) absProc verbose st
          (render (R.sc ++ p)) none with
      | mk fs1 e1 =>
        simp only [hf] at h
        cases e1 with
        | some e1 =>
          simp only at h
          injection h with h
          injection h with h1 h2
          cases h2
        | none =>
          simp only at h
          have hI1 := hI.step S absProc verbose hp hf
          -- the loop over the names reaches `n`
          have loop : ∀ (names : List Str) (s : FS), (∀ m ∈ names, validName m = true) →
              n ∈ names → Inv R fs0 s →
              walkLoop (walk (walkFn (render R.sc) (render R.tc) (render R.pc) absProc verbose) d)
                (walkFn (render R.sc) (render R.tc) (render R.pc) absProc verbose)
                (render (R.sc ++ p)) names s = some (st1, none) → Post st1 := by
            intro names
            induction names with
            | nil => intro s _ hn; simp at hn
            | cons m tl ihl =>
              intro s hval hn hIs hl
              have hm : validName m = true := hval m (by simp)
              have hjoin : filepathJoin (render (R.sc ++ p)) m = render (R.sc ++ (p ++ [m])) := by
                rw [filepathJoin_render hpv hm, List.append_assoc]
              have hpm : ValidPath (p ++ [m]) := hp.append (ValidPath.single hm)
              have hGtl : ∀ x ∈ tl, Reported R (filepathJoin (render (R.sc ++ p)) x) := by
                intro x hx
                have hxv := hval x (by simp [hx])
                refine ⟨p ++ [x], hp.append (ValidPath.single hxv), ?_⟩
                rw [filepathJoin_render hpv hxv, List.append_assoc]
              simp only [walkLoop, hjoin] at hl
              cases hls : osLstat s (render (R.sc ++ (p ++ [m]))) with
              | error e =>
                simp only [hls, walkFn_err] at hl
                cases hl
              | ok info =>
                simp only [hls] at hl
                have hinfo : entryAt s (R.sc ++ (p ++ [m])) = some info := by
                  unfold osLstat at hls
                  rw [resolve_render (S.valid.1.append hpm)] at hls
                  cases he : entryAt s (R.sc ++ (p ++ [m])) with
                  | none => simp [he] at hls
                  | some x =>
                    simp only [he] at hls
                    injection hls with hls
                    rw [hls]
                cases hr : walk (walkFn (render R.sc) (render R.tc) (render R.pc) absProc verbose)
                    d s (render (R.sc ++ (p ++ [m]))) (isDir (some info)) with
                | none =>
                  simp only [hr] at hl
                  cases hl
                | some res =>
                  obtain ⟨s1, e1⟩ := res
                  simp only [hr] at hl
                  cases e1 with
                  | some e1 =>
                    simp only at hl
                    cases hl
                  | none =>
                    simp only at hl
                    have hIs1 := walk_inv S absProc verbose hIs hpm hr
                    by_cases hmn : m = n
                    · subst hmn
                      have hP1 : Post s1 := by
                        refine ih s (p ++ [m]) rest _ s1 (by simp) hIs hpm ?_ hr
                        rw [← hinfo, hIs.source S (List.prefix_append _ _)]
                      have := walkLoop_keeps (fun s => Inv R fs0 s ∧ Post s) (Reported R) hfn2
                        (walk_keeps (fun s => Inv R fs0 s ∧ Post s) (Reported R) hfn2 hG2 d)
                        (render (R.sc ++ p)) _ _ _ _ hGtl ⟨hIs1, hP1⟩ hl
                      exact this.2
                    · have hn' : n ∈ tl := by
                        rcases List.mem_cons.1 hn with h1 | h1
                        · exact absurd h1.symm hmn
                        · exact h1
                      exact ihl s1 (fun x hx => hval x (by simp [hx])) hn' hIs1 hl
          exact loop _ fs1 hvalid hnmem hI1 h


/-! ## A whole run -/

theorem filepathJoin_rooted (t x : Str) :
    filepathJoin ('/' :: t) x = render (resolve (filepathJoin ('/' :: t) x)) := by
  have hne : ('/' :: t : Str) ≠ [] := by simp
  have e : ('/' :: t) ++ '/' :: x = '/' :: (t ++ '/' :: x) := by simp
  simp only [filepathJoin, hne, ne_eq, not_false_eq_true, if_true]
  rw [e, filepathClean_rooted, resolve_render (resolve_valid _)]

/-- With the three directories resolved, `copyFiles` is the walk from the
source root with the callback of the three roots. -/
theorem copyFiles_eq_walk {config : Config} {env : Env} {R : Roots}
    (hs : config.sourceRoot env = some R.sc) (ht : config.targetRoot env = some R.tc)
    (hp : config.stagingRoot env = some R.pc) :
    R.Valid ∧ ∃ absProc, ∀ depth fs, config.copyFiles env depth fs
      = filepathWalk depth fs (render R.sc)
          (walkFn (render R.sc) (render R.tc) (render R.pc) absProc config.verbose) := by
  unfold Config.sourceRoot at hs
  unfold Config.targetRoot at ht
  unfold Config.stagingRoot at hp
  cases hS : filepathAbs env config.srcdir with
  | error e => simp [hS] at hs
  | ok absSrc =>
    cases hT : filepathAbs env config.targetdir with
    | error e => simp [hT] at ht
    | ok absTarget =>
      cases hD : filepathAbs env config.diffdir with
      | error e => simp [hT, hD] at hp
      | ok absProc =>
        simp only [hS, Option.some.injEq] at hs
        simp only [hT, Option.some.injEq] at ht
        simp only [hT, hD, Option.some.injEq] at hp
        have e1 := filepathAbs_ok hS
        have e2 := filepathAbs_ok hT
        have e3 := filepathAbs_ok hD
        rw [hs] at e1
        rw [ht] at e2
        have e4 : procTarget absProc absTarget = render R.pc := by
          rw [← hp]
          unfold procTarget
          rw [e3]
          exact filepathJoin_rooted _ _
        refine ⟨⟨hs ▸ resolve_valid _, ht ▸ resolve_valid _, hp ▸ resolve_valid _⟩, absProc, ?_⟩
        intro depth fs
        unfold Config.copyFiles
        simp only [hS, hT, hD, e4]
        rw [← e1, ← e2]

/-- The two ways a run returns: the source root does not exist, or the
walk from the source root returns. -/
theorem filepathWalk_cases {fn : FS → Str → Option Str → Step}
    (hfn : ∀ st path e, fn st path (some e) = (st, some e))
    {depth : Nat} {fs fs1 : FS} {p : Path} (hp : ValidPath p) {r : Option Str}
    (h : filepathWalk depth fs (render p) fn = some (fs1, r)) :
    (entryAt fs p = none ∧ fs1 = fs ∧ r ≠ none)
      ∨ (∃ e, entryAt fs p = some e ∧ walk fn depth fs (render p) (isDir (some e)) = some (fs1, r)) := by
  unfold filepathWalk osLstat at h
  rw [resolve_render hp] at h
  cases he : entryAt fs p with
  | none =>
    simp only [he, hfn] at h
    injection h with h
    injection h with h1 h2
    exact Or.inl ⟨rfl, h1.symm, by rw [← h2]; simp⟩
  | some e =>
    simp only [he] at h
    exact Or.inr ⟨e, rfl, h⟩

/-- Every run on disjoint trees ends in a state of the run. -/
theorem run_inv {config : Config} {env : Env} {R : Roots} {fs0 fs1 : FS} {depth : Nat}
    {r : Option Str}
    (hs : config.sourceRoot env = some R.sc) (ht : config.targetRoot env = some R.tc)
    (hp : config.stagingRoot env = some R.pc) (hwf : WF fs0) (hdis : R.Disjoint)
    (hrun : config.copyFiles env depth fs0 = some (fs1, r)) : Inv R fs0 fs1 := by
  obtain ⟨hv, absProc, heq⟩ := copyFiles_eq_walk hs ht hp
  have S : Setting R fs0 := ⟨hwf, hv, hdis⟩
  rw [heq] at hrun
  rcases filepathWalk_cases (walkFn_err _ _ _ _ _) hv.1 hrun with ⟨_, h2, _⟩ | ⟨e, _, h2⟩
  · subst h2
    exact Inv.start S
  · have h3 : walk (walkFn (render R.sc) (render R.tc) (render R.pc) absProc config.verbose)
        depth fs0 (render (R.sc ++ [])) (isDir (some e)) = some (fs1, r) := by
      rw [List.append_nil]; exact h2
    exact walk_inv S absProc config.verbose (Inv.start S) ValidPath.nil h3

/-- A property that the callback establishes on a node of the source tree
and that no later call destroys holds after every successful run. -/
theorem run_reaches {config : Config} {env : Env} {R : Roots} {fs0 fs1 : FS} {depth : Nat}
    (hs : config.sourceRoot env = some R.sc) (ht : config.targetRoot env = some R.tc)
    (hp : config.stagingRoot env = some R.pc) (hwf : WF fs0) (hdis : R.Disjoint)
    (hrun : config.copyFiles env depth fs0 = some (fs1, none))
    (Post : FS → Prop) (target : Path)
    (hstab : ∀ absProc verbose st rel e st1 r, Inv R fs0 st → ValidPath rel → Post st →
      walkFn (render R.sc) (render R.tc) (render R.pc) absProc verbose st
        (render (R.sc ++ rel)) e = (st1, r) → Post st1)
    (hest : ∀ absProc verbose st st1, Inv R fs0 st →
      walkFn (render R.sc) (render R.tc) (render R.pc) absProc verbose st
        (render (R.sc ++ target)) none = (st1, none) → Post st1)
    (hex : entryAt fs0 (R.sc ++ target) ≠ none) : Post fs1 := by
  obtain ⟨hv, absProc, heq⟩ := copyFiles_eq_walk hs ht hp
  have S : Setting R fs0 := ⟨hwf, hv, hdis⟩
  rw [heq] at hrun
  rcases filepathWalk_cases (walkFn_err _ _ _ _ _) hv.1 hrun with ⟨_, _, h3⟩ | ⟨e, h1, h2⟩
  · exact absurd rfl h3
  · refine walk_reaches S absProc config.verbose Post target (hstab absProc config.verbose)
      (hest absProc config.verbose) hex depth fs0 [] target _ fs1 (by simp) (Inv.start S)
      ValidPath.nil ?_ (by rw [List.append_nil]; exact h2)
    rw [List.append_nil, h1]

theorem Setting.src_ne_staged {R : Roots} {fs0 : FS} (S : Setting R fs0) (rel rel1 : Path) :
    R.sc ++ rel ≠ R.pc ++ rel1 := by
  intro e
  exact S.disjoint.2.1.not_both (List.prefix_append R.sc rel) (e ▸ List.prefix_append R.pc rel1)

/-- An entry that exists keeps existing through a call of the callback. -/
theorem StepChange.exists_mono {R : Roots} {st st1 : FS} {rel q : Path}
    (h : StepChange R st st1 rel q) (hq : entryAt st q ≠ none) : entryAt st1 q ≠ none := by
  rcases h with h1 | ⟨h1, _, _⟩ | ⟨_, _, ⟨c, b, c1, _, h3, _⟩, _⟩
  · rw [h1]; exact hq
  · exact absurd h1 hq
  · rw [h3]; simp

/-- After a successful run on disjoint trees, every source file that
qualifies has a staged copy with its bytes, in an existing directory; and
the file could be opened. -/
theorem staged_of_qualifies {config : Config} {env : Env} {R : Roots} {fs0 fs1 : FS}
    {depth : Nat}
    (hs : config.sourceRoot env = some R.sc) (ht : config.targetRoot env = some R.tc)
    (hp : config.stagingRoot env = some R.pc) (hwf : WF fs0) (hdis : R.Disjoint)
    (hrun : config.copyFiles env depth fs0 = some (fs1, none))
    {rel : Path} {c : Bytes} {b : Bool}
    (hf : entryAt fs0 (R.sc ++ rel) = some (Entry.file c b))
    (hq : Qualifies fs0 (R.sc ++ rel) (R.tc ++ rel)) :
    b = true ∧ entryAt fs1 (R.pc ++ rel) = some (Entry.file c true)
      ∧ entryAt fs1 (R.pc ++ rel).dropLast ≠ none := by
  obtain ⟨hv, _, _⟩ := copyFiles_eq_walk hs ht hp
  have S : Setting R fs0 := ⟨hwf, hv, hdis⟩
  have hrelv : ValidPath rel :=
    (hwf.valid_of_entry (p := R.sc ++ rel) (by rw [hf]; simp)).right
  refine run_reaches hs ht hp hwf hdis hrun
    (fun st => b = true ∧ entryAt st (R.pc ++ rel) = some (Entry.file c true)
      ∧ entryAt st (R.pc ++ rel).dropLast ≠ none) rel ?_ ?_ (by rw [hf]; simp)
  · intro absProc verbose st rel1 e st1 r hI hrel1 hP hw
    obtain ⟨_, hch⟩ := walkFn_frame hv S.sc_ne S.tc_ne S.pc_ne absProc verbose hrel1 hw
    refine ⟨hP.1, ?_, (hch _).exists_mono hP.2.2⟩
    rcases hch (R.pc ++ rel) with h1 | ⟨h1, _, _⟩ | ⟨h1, _, ⟨c0, b0, c1, h3, h4, h5⟩, _⟩
    · rw [h1]; exact hP.2.1
    · rw [hP.2.1] at h1; cases h1
    · have hrr : rel = rel1 := List.append_cancel_left h1
      subst hrr
      rw [hI.source S (List.prefix_append _ _), hf] at h3
      injection h3 with h3
      injection h3 with h31 h32
      rw [h4, h5 (S.src_ne_staged _ _), h31]
  · intro absProc verbose st st1 hI hw
    have hf' : entryAt st (R.sc ++ rel) = some (Entry.file c b) := by
      rw [hI.source S (List.prefix_append _ _)]; exact hf
    exact walkFn_staged hv S.sc_ne S.tc_ne S.pc_ne absProc verbose hrelv hf'
      ((hI.qualifies S hf).2 hq) (S.src_ne_staged _ _) hw

/-- After a successful run on disjoint trees, every source directory has a
counterpart in the target tree; a counterpart that did not exist before is a
directory. -/
theorem mirrored_of_dir {config : Config} {env : Env} {R : Roots} {fs0 fs1 : FS}
    {depth : Nat}
    (hs : config.sourceRoot env = some R.sc) (ht : config.targetRoot env = some R.tc)
    (hp : config.stagingRoot env = some R.pc) (hwf : WF fs0) (hdis : R.Disjoint)
    (hrun : config.copyFiles env depth fs0 = some (fs1, none))
    {rel : Path} (hd : entryAt fs0 (R.sc ++ rel) = some Entry.dir) :
    entryAt fs1 (R.tc ++ rel) ≠ none
      ∧ (entryAt fs0 (R.tc ++ rel) = none → entryAt fs1 (R.tc ++ rel) = some Entry.dir) := by
  obtain ⟨hv, _, _⟩ := copyFiles_eq_walk hs ht hp
  have S : Setting R fs0 := ⟨hwf, hv, hdis⟩
  have hrelv : ValidPath rel :=
    (hwf.valid_of_entry (p := R.sc ++ rel) (by rw [hd]; simp)).right
  have key : entryAt fs1 (R.tc ++ rel) ≠ none := by
    refine run_reaches hs ht hp hwf hdis hrun (fun st => entryAt st (R.tc ++ rel) ≠ none)
      rel ?_ ?_ (by rw [hd]; simp)
    · intro absProc verbose st rel1 e st1 r hI hrel1 hP hw
      obtain ⟨_, hch⟩ := walkFn_frame hv S.sc_ne S.tc_ne S.pc_ne absProc verbose hrel1 hw
      exact (hch _).exists_mono hP
    · intro absProc verbose st st1 hI hw
      have hd' : entryAt st (R.sc ++ rel) = some Entry.dir := by
        rw [hI.source S (List.prefix_append _ _)]; exact hd
      rcases walkFn_dir hv S.sc_ne S.tc_ne absProc verbose hrelv hd' hw with ⟨h1, h2⟩ | ⟨_, h2⟩
      · subst h2; exact h1
      · rw [h2]; simp
  refine ⟨key, ?_⟩
  intro h0
  have hI := run_inv hs ht hp hwf hdis hrun
  rcases hI.2 (R.tc ++ rel) with h1 | ⟨_, h1, _⟩ | ⟨_, _, rel1, _, _, _, _, h1⟩
  · rw [h1] at key; exact absurd h0 key
  · exact h1
  · exfalso
    exact S.disjoint.2.2.not_both (List.prefix_append R.tc rel) (h1 ▸ List.prefix_append R.pc rel1)


/-! ## The depth bound -/

theorem walkLoop_mono {fn : FS → Str → Option Str → Step}
    {rec1 rec2 : FS → Str → Bool → Option Step}
    (h : ∀ st p b r, rec1 st p b = some r → rec2 st p b = some r) (path : Str) :
    ∀ (names : List Str) (st : FS) (r : Step),
      walkLoop rec1 fn path names st = some r → walkLoop rec2 fn path names st = some r := by
  intro names
  induction names with
  | nil =>
    intro st r hl
    simpa [walkLoop] using hl
  | cons n rest ih =>
    intro st r hl
    simp only [walkLoop] at hl ⊢
    cases hls : osLstat st (filepathJoin path n) with
    | error e =>
      simp only [hls] at hl ⊢
      cases hf : fn st (filepathJoin path n) (some e) with
      | mk fs1 e1 =>
        simp only [hf] at hl ⊢
        cases e1 with
        | some e1 => exact hl
        | none => exact ih _ _ hl
    | ok info =>
      simp only [hls] at hl ⊢
      cases hr : rec1 st (filepathJoin path n) (isDir (some info)) with
      | none =>
        simp only [hr] at hl
        cases hl
      | some res =>
        rw [h _ _ _ _ hr]
        simp only [hr] at hl
        obtain ⟨fs1, e1⟩ := res
        cases e1 with
        | some e1 => exact hl
        | none => exact ih _ _ hl

/-- A walk that returns within a depth bound returns the same within every
larger bound. -/
theorem walk_mono (fn : FS → Str → Option Str → Step) :
    ∀ (d d1 : Nat), d ≤ d1 → ∀ (st : FS) (path : Str) (b : Bool) (r : Step),
      walk fn d st path b = some r → walk fn d1 st path b = some r := by
  intro d
  induction d with
  | zero =>
    intro d1 _ st path b r h
    simp [walk] at h
  | succ d ih =>
    intro d1 hle st path b r h
    cases d1 with
    | zero => omega
    | succ d1 =>
      simp only [walk] at h ⊢
      split
      · rename_i hb
        rw [if_pos hb] at h
        exact h
      · rename_i hb
        rw [if_neg hb] at h
        cases hf : fn st path none with
        | mk fs1 e1 =>
          simp only [hf] at h ⊢
          cases e1 with
          | some e1 => exact h
          | none =>
            exact walkLoop_mono (ih d1 (by omega)) path _ _ _ h

theorem copyFiles_mono (config : Config) (env : Env) {d d1 : Nat} (hle : d ≤ d1) (fs : FS)
    (r : Step) (h : config.copyFiles env d fs = some r) :
    config.copyFiles env d1 fs = some r := by
  unfold Config.copyFiles at h ⊢
  cases hS : filepathAbs env config.srcdir with
  | error e =>
    simp only [hS] at h ⊢
    exact h
  | ok absSrc =>
    cases hT : filepathAbs env config.targetdir with
    | error e =>
      simp only [hS, hT] at h ⊢
      exact h
    | ok absTarget =>
      cases hD : filepathAbs env config.diffdir with
      | error e =>
        simp only [hS, hT, hD] at h ⊢
        exact h
      | ok absProc =>
        simp only [hS, hT, hD] at h ⊢
        unfold filepathWalk at h ⊢
        cases hl : osLstat fs absSrc with
        | error e =>
          simp only [hl] at h ⊢
          exact h
        | ok info =>
          simp only [hl] at h ⊢
          exact walk_mono _ d d1 hle _ _ _ _ h

/-! ## A second run -/

theorem finished_of_run {config : Config} {env : Env} {R : Roots} {fs0 fs1 : FS} {depth : Nat}
    (hs : config.sourceRoot env = some R.sc) (ht : config.targetRoot env = some R.tc)
    (hp : config.stagingRoot env = some R.pc) (hwf : WF fs0) (hdis : R.Disjoint)
    (hrun : config.copyFiles env depth fs0 = some (fs1, none)) : Finished R fs0 fs1 :=
  ⟨run_inv hs ht hp hwf hdis hrun,
   fun _ hd => (mirrored_of_dir hs ht hp hwf hdis hrun hd).1,
   fun _ _ _ hf hq => staged_of_qualifies hs ht hp hwf hdis hrun hf hq⟩

/-- On a state with the entries of the final state of a successful run, the
callback succeeds on every node of the source tree and changes no entry. -/
theorem second_step {R : Roots} {fs0 fs1 : FS} (S : Setting R fs0) (F : Finished R fs0 fs1)
    (absProc : Str) (verbose : Bool) {st : FS} {rel : Path}
    (hJ : SameEntries st fs1) (hk : KeysValid st) (hrel : ValidPath rel)
    (hex : entryAt fs0 (R.sc ++ rel) ≠ none) :
    ∃ st1, walkFn (render R.sc) (render R.tc) (render R.pc) absProc verbose st
        (render (R.sc ++ rel)) none = (st1, none)
      ∧ SameEntries st1 fs1 ∧ KeysValid st1 := by
  have hsrc : entryAt st (R.sc ++ rel) = entryAt fs0 (R.sc ++ rel) := by
    rw [hJ, F.inv.source S (List.prefix_append _ _)]
  cases he : entryAt fs0 (R.sc ++ rel) with
  | none => exact absurd he hex
  | some en =>
    rw [he] at hsrc
    cases en with
    | dir =>
      refine ⟨st, ?_, hJ, hk⟩
      apply walkFn_dir_exists S.valid S.sc_ne S.tc_ne absProc verbose hrel hsrc
      rw [hJ]
      exact F.dirs rel he
    | file c b =>
      have hqq : Qualifies st (R.sc ++ rel) (R.tc ++ rel)
          ↔ Qualifies fs0 (R.sc ++ rel) (R.tc ++ rel) :=
        (qualifies_congr (hJ _) (hJ _)).trans (F.inv.qualifies S he)
      by_cases hq : Qualifies fs0 (R.sc ++ rel) (R.tc ++ rel)
      · obtain ⟨hb, h1, h2⟩ := F.files rel c b he hq
        subst hb
        obtain ⟨st1, hw, hsame⟩ := walkFn_file_again S.valid S.sc_ne S.tc_ne S.pc_ne absProc
          verbose hrel hsrc (hqq.2 hq) (S.src_ne_staged _ _) (by rw [hJ]; exact h1)
          (by rw [hJ]; exact h2)
        refine ⟨st1, hw, fun q => (hsame q).trans (hJ q), ?_⟩
        exact (walkFn_frame S.valid S.sc_ne S.tc_ne S.pc_ne absProc verbose hrel hw).1 hk
      · refine ⟨st, ?_, hJ, hk⟩
        exact walkFn_file_same S.valid S.sc_ne S.tc_ne absProc verbose hrel hsrc
          (fun h => hq (hqq.1 h))

/-- In a successful loop over the names of a source directory, the walk
from every name has returned without error. -/
theorem walkLoop_each {R : Roots} {fs0 : FS} (S : Setting R fs0) (absProc : Str)
    (verbose : Bool) (d : Nat) {p : Path} (hp : ValidPath p) {st1 : FS} :
    ∀ (names : List Str) (s : FS), (∀ m ∈ names, validName m = true) → Inv R fs0 s →
      walkLoop (walk (walkFn (render R.sc) (render R.tc) (render R.pc) absProc verbose) d)
        (walkFn (render R.sc) (render R.tc) (render R.pc) absProc verbose)
        (render (R.sc ++ p)) names s = some (st1, none) →
      ∀ m ∈ names, ∃ s0 s1, Inv R fs0 s0
        ∧ walk (walkFn (render R.sc) (render R.tc) (render R.pc) absProc verbose) d s0
            (render (R.sc ++ (p ++ [m]))) (isDir (entryAt fs0 (R.sc ++ (p ++ [m]))))
          = some (s1, none) := by
  have hpv : ValidPath (R.sc ++ p) := S.valid.1.append hp
  intro names
  induction names with
  | nil =>
    intro s _ _ _ m hm
    simp at hm
  | cons n tl ih =>
    intro s hval hIs hl m hm
    have hn : validName n = true := hval n (by simp)
    have hjoin : filepathJoin (render (R.sc ++ p)) n = render (R.sc ++ (p ++ [n])) := by
      rw [filepathJoin_render hpv hn, List.append_assoc]
    have hpn : ValidPath (p ++ [n]) := hp.append (ValidPath.single hn)
    simp only [walkLoop, hjoin] at hl
    cases hls : osLstat s (render (R.sc ++ (p ++ [n]))) with
    | error e =>
      simp only [hls, walkFn_err] at hl
      cases hl
    | ok info =>
      simp only [hls] at hl
      have hinfo : entryAt s (R.sc ++ (p ++ [n])) = some info := by
        unfold osLstat at hls
        rw [resolve_render (S.valid.1.append hpn)] at hls
        cases he : entryAt s (R.sc ++ (p ++ [n])) with
        | none => simp [he] at hls
        | some x =>
          simp only [he] at hls
          injection hls with hls
          rw [hls]
      cases hr : walk (walkFn (render R.sc) (render R.tc) (render R.pc) absProc verbose)
          d s (render (R.sc ++ (p ++ [n]))) (isDir (some info)) with
      | none =>
        simp only [hr] at hl
        cases hl
      | some res =>
        obtain ⟨s1, e1⟩ := res
        simp only [hr] at hl
        cases e1 with
        | some e1 =>
          simp only at hl
          cases hl
        | none =>
          simp only at hl
          have hIs1 := walk_inv S absProc verbose hIs hpn hr
          rcases List.mem_cons.1 hm with h1 | h1
          · subst h1
            refine ⟨s, s1, hIs, ?_⟩
            rw [← hIs.source S (List.prefix_append _ _), hinfo]
            exact hr
          · exact ih s1 (fun x hx => hval x (by simp [hx])) hIs1 hl m h1

/-- The walk of a second run: where the walk of the first run returned
without error, the walk on a state with the entries of the final state of
the first run returns without error and changes no entry. -/
theorem second_walk {R : Roots} {fs0 fs1 : FS} (S : Setting R fs0) (F : Finished R fs0 fs1)
    (absProc : Str) (verbose : Bool) :
    ∀ (d : Nat) (s s1 : FS) (p : Path) (st : FS), Inv R fs0 s → ValidPath p →
      entryAt fs0 (R.sc ++ p) ≠ none →
      walk (walkFn (render R.sc) (render R.tc) (render R.pc) absProc verbose) d s
        (render (R.sc ++ p)) (isDir (entryAt fs0 (R.sc ++ p))) = some (s1, none) →
      SameEntries st fs1 → KeysValid st →
      ∃ st1, walk (walkFn (render R.sc) (render R.tc) (render R.pc) absProc verbose) d st
          (render (R.sc ++ p)) (isDir (entryAt fs0 (R.sc ++ p))) = some (st1, none)
        ∧ SameEntries st1 fs1 ∧ KeysValid st1 := by
  intro d
  induction d with
  | zero =>
    intro s s1 p st _ _ _ h
    simp [walk] at h
  | succ d ih =>
    intro s s1 p st hIs hp hex h hJ hk
    have hpv : ValidPath (R.sc ++ p) := S.valid.1.append hp
    obtain ⟨st0, hw0, hJ0, hk0⟩ := second_step S F absProc verbose hJ hk hp hex
    simp only [walk] at h ⊢
    cases hb : isDir (entryAt fs0 (R.sc ++ p)) with
    | false =>
      simp only [Bool.not_false, if_true]
      exact ⟨st0, by rw [hw0], hJ0, hk0⟩
    | true =>
      simp only [hb, Bool.not_true, Bool.false_eq_true, if_false] at h ⊢
      simp only [hw0]
      cases hf : walkFn (render R.sc) (render R.tc) (render R.pc) absProc verbose s
          (render (R.sc ++ p)) none with
      | mk s0 e0 =>
        simp only [hf] at h
        cases e0 with
        | some e0 =>
          simp only at h
          cases h
        | none =>
          simp only at h
          have hIs0 := hIs.step S absProc verbose hp hf
          have heach := walkLoop_each S absProc verbose d hp _ s0
            (fun m hm => validName_of_mem_readDirNames hIs.1 hm) hIs0 h
          -- the names of the second run are names of the first run
          have hsub : ∀ m ∈ readDirNames st (render (R.sc ++ p)),
              m ∈ readDirNames s (render (R.sc ++ p))
                ∧ entryAt fs0 (R.sc ++ (p ++ [m])) ≠ none := by
            intro m hm
            have h1 := entry_of_mem_readDirNames hm
            rw [resolve_render hpv, hJ, F.inv.source S (by simp [List.append_assoc]),
              List.append_assoc] at h1
            refine ⟨?_, h1⟩
            apply mem_readDirNames_of_entry
            rw [resolve_render hpv, hIs.source S (by simp [List.append_assoc]),
              List.append_assoc]
            exact h1
          have loop : ∀ (names : List Str) (t : FS),
              (∀ m ∈ names, m ∈ readDirNames s (render (R.sc ++ p))
                ∧ entryAt fs0 (R.sc ++ (p ++ [m])) ≠ none) →
              SameEntries t fs1 → KeysValid t →
              ∃ t1, walkLoop
                  (walk (walkFn (render R.sc) (render R.tc) (render R.pc) absProc verbose) d)
                  (walkFn (render R.sc) (render R.tc) (render R.pc) absProc verbose)
                  (render (R.sc ++ p)) names t = some (t1, none)
                ∧ SameEntries t1 fs1 ∧ KeysValid t1 := by
            intro names
            induction names with
            | nil =>
              intro t _ hJt hkt
              exact ⟨t, by simp [walkLoop], hJt, hkt⟩
            | cons m tl ihl =>
              intro t hnames hJt hkt
              obtain ⟨hm1, hm2⟩ := hnames m (by simp)
              have hmv : validName m = true := validName_of_mem_readDirNames hIs.1 hm1
              have hjoin : filepathJoin (render (R.sc ++ p)) m
                  = render (R.sc ++ (p ++ [m])) := by
                rw [filepathJoin_render hpv hmv, List.append_assoc]
              have hpm : ValidPath (p ++ [m]) := hp.append (ValidPath.single hmv)
              have hent : entryAt t (R.sc ++ (p ++ [m])) = entryAt fs0 (R.sc ++ (p ++ [m])) := by
                rw [hJt, F.inv.source S (List.prefix_append _ _)]
              obtain ⟨s2, s3, hIs2, hw2⟩ := heach m hm1
              obtain ⟨t1, hwt, hJt1, hkt1⟩ := ih s2 s3 (p ++ [m]) t hIs2 hpm hm2 hw2 hJt hkt
              obtain ⟨t2, hlt, hJt2, hkt2⟩ := ihl t1
                (fun x hx => hnames x (by simp [hx])) hJt1 hkt1
              refine ⟨t2, ?_, hJt2, hkt2⟩
              simp only [walkLoop, hjoin]
              cases he : entryAt fs0 (R.sc ++ (p ++ [m])) with
              | none => exact absurd he hm2
              | some info =>
                have hls : osLstat t (render (R.sc ++ (p ++ [m]))) = .ok info := by
                  unfold osLstat
                  rw [resolve_render (S.valid.1.append hpm), hent, he]
                rw [he] at hwt
                simp only [hls, hwt]
                exact hlt
          exact loop _ st0 hsub hJ0 hk0


/-! ## Runs on disjoint trees return -/

theorem length_le_maxDepth {fs : FS} {b : Path × Entry} (h : b ∈ fs) :
    b.1.length ≤ maxDepth fs := by
  induction fs with
  | nil => simp at h
  | cons a fs ih =>
    simp only [maxDepth, List.map_cons, List.foldr_cons]
    rcases List.mem_cons.1 h with h1 | h1
    · subst h1
      exact Nat.le_max_left _ _
    · exact (ih h1).trans (Nat.le_max_right _ _)

theorem length_le_of_entry {fs : FS} {q : Path} (h : entryAt fs q ≠ none) :
    q.length ≤ maxDepth fs := by
  by_cases hq : q = []
  · subst hq; simp
  · simp only [entryAt, hq, if_false] at h
    cases hf : findBinding fs q with
    | none => exact absurd hf h
    | some e => exact length_le_maxDepth (findBinding_some hf)

/-- On disjoint trees, a walk from a node of the source tree returns when
the depth bound covers the longest path of the initial file system. -/
theorem walk_returns {R : Roots} {fs0 : FS} (S : Setting R fs0) (absProc : Str)
    (verbose : Bool) :
    ∀ (d : Nat) (st : FS) (p : Path) (b : Bool), Inv R fs0 st → ValidPath p →
      maxDepth fs0 ≤ (R.sc ++ p).length + d →
      walk (walkFn (render R.sc) (render R.tc) (render R.pc) absProc verbose) (d + 1) st
        (render (R.sc ++ p)) b ≠ none := by
  intro d
  induction d with
  | zero =>
    intro st p b hI hp hbound
    have hpv : ValidPath (R.sc ++ p) := S.valid.1.append hp
    simp only [walk]
    split
    · simp
    · have hnames : readDirNames st (render (R.sc ++ p)) = [] := by
        apply List.eq_nil_iff_forall_not_mem.2
        intro m hm
        have h1 := entry_of_mem_readDirNames hm
        rw [resolve_render hpv, hI.source S (by simp [List.append_assoc])] at h1
        have := length_le_of_entry h1
        simp at this hbound
        omega
      rw [hnames]
      cases hf : walkFn (render R.sc) (render R.tc) (render R.pc) absProc verbose st
          (render (R.sc ++ p)) none with
      | mk s1 e1 =>
        cases e1 with
        | some e1 => simp
        | none => simp [walkLoop]
  | succ d ih =>
    intro st p b hI hp hbound
    have hpv : ValidPath (R.sc ++ p) := S.valid.1.append hp
    rw [walk]
    split
    · simp
    · cases hf : walkFn (render R.sc) (render R.tc) (render R.pc) absProc verbose st
          (render (R.sc ++ p)) none with
      | mk s1 e1 =>
        cases e1 with
        | some e1 => simp
        | none =>
          simp only
          have hI1 := hI.step S absProc verbose hp hf
          have loop : ∀ (names : List Str) (s : FS), (∀ m ∈ names, validName m = true) →
              Inv R fs0 s →
              walkLoop
                (walk (walkFn (render R.sc) (render R.tc) (render R.pc) absProc verbose) (d + 1))
                (walkFn (render R.sc) (render R.tc) (render R.pc) absProc verbose)
                (render (R.sc ++ p)) names s ≠ none := by
            intro names
            induction names with
            | nil => intro s _ _; simp [walkLoop]
            | cons m tl ihl =>
              intro s hval hIs
              have hm : validName m = true := hval m (by simp)
              have hjoin : filepathJoin (render (R.sc ++ p)) m
                  = render (R.sc ++ (p ++ [m])) := by
                rw [filepathJoin_render hpv hm, List.append_assoc]
              have hpm : ValidPath (p ++ [m]) := hp.append (ValidPath.single hm)
              simp only [walkLoop, hjoin]
              cases hls : osLstat s (render (R.sc ++ (p ++ [m]))) with
              | error e => simp [walkFn_err]
              | ok info =>
                simp only
                cases hr : walk
                    (walkFn (render R.sc) (render R.tc) (render R.pc) absProc verbose)
                    (d + 1) s (render (R.sc ++ (p ++ [m]))) (isDir (some info)) with
                | none =>
                  exfalso
                  refine ih s (p ++ [m]) _ hIs hpm ?_ hr
                  simp only [List.length_append, List.length_singleton] at hbound ⊢
                  omega
                | some res =>
                  obtain ⟨s2, e2⟩ := res
                  cases e2 with
                  | some e2 => simp
                  | none =>
                    simp only
                    exact ihl s2 (fun x hx => hval x (by simp [hx]))
                      (walk_inv S absProc verbose hIs hpm hr)
          exact loop _ s1 (fun m hm => validName_of_mem_readDirNames hI.1 hm) hI1

/-- On disjoint trees a run returns, with an error or without, when the
depth bound exceeds the length of the longest path of the file system. -/
theorem copyFiles_returns {config : Config} {env : Env} {R : Roots} {fs : FS}
    (hs : config.sourceRoot env = some R.sc) (ht : config.targetRoot env = some R.tc)
    (hp : config.stagingRoot env = some R.pc) (hwf : WF fs) (hdis : R.Disjoint) :
    ∃ fs1 r, config.copyFiles env (maxDepth fs + 1) fs = some (fs1, r) := by
  obtain ⟨hv, absProc, heq⟩ := copyFiles_eq_walk hs ht hp
  have S : Setting R fs := ⟨hwf, hv, hdis⟩
  rw [heq]
  unfold filepathWalk
  cases hl : osLstat fs (render R.sc) with
  | error e => exact ⟨fs, some e, by simp [walkFn_err]⟩
  | ok info =>
    simp only
    have := walk_returns S absProc config.verbose (maxDepth fs) fs [] (isDir (some info))
      (Inv.start S) ValidPath.nil (by omega)
    rw [List.append_nil] at this
    cases hw : walk (walkFn (render R.sc) (render R.tc) (render R.pc) absProc config.verbose)
        (maxDepth fs + 1) fs (render R.sc) (isDir (some info)) with
    | none => exact absurd hw this
    | some res => exact ⟨res.1, res.2, rfl⟩

/-! ## The target tree when only it and the staging root are disjoint -/

theorem TargetKept.callback {R : Roots} {fs0 st st1 : FS} (hv : R.Valid) (hs : R.sc ≠ [])
    (hapart : Apart R.tc R.pc) (h : TargetKept R fs0 st)
    (absProc : Str) (verbose : Bool) {rel : Path} (hrel : ValidPath rel) {e r : Option Str}
    (hw : walkFn (render R.sc) (render R.tc) (render R.pc) absProc verbose st
      (render (R.sc ++ rel)) e = (st1, r)) : TargetKept R fs0 st1 := by
  obtain ⟨hkv, hch⟩ := walkFn_frame hv hs hapart.left_ne_nil hapart.right_ne_nil absProc verbose
    hrel hw
  refine ⟨hkv h.1, ?_⟩
  intro q hq
  rcases hch q with h1 | ⟨h1, h2, _⟩ | ⟨h1, _⟩
  · rw [h1]; exact h.2 q hq
  · right
    refine ⟨?_, h2⟩
    rcases h.2 q hq with a | ⟨_, a⟩
    · rw [← a]; exact h1
    · rw [h1] at a; cases a
  · exfalso
    exact hapart.not_both hq (h1 ▸ List.prefix_append R.pc rel)

theorem run_targetKept {config : Config} {env : Env} {R : Roots} {fs0 fs1 : FS} {depth : Nat}
    {r : Option Str}
    (hs : config.sourceRoot env = some R.sc) (ht : config.targetRoot env = some R.tc)
    (hp : config.stagingRoot env = some R.pc) (hwf : WF fs0) (hsne : R.sc ≠ [])
    (hapart : Apart R.tc R.pc)
    (hrun : config.copyFiles env depth fs0 = some (fs1, r)) : TargetKept R fs0 fs1 := by
  obtain ⟨hv, absProc, heq⟩ := copyFiles_eq_walk hs ht hp
  have h0 : TargetKept R fs0 fs0 := ⟨hwf.keysValid, fun _ _ => Or.inl rfl⟩
  rw [heq] at hrun
  rcases filepathWalk_cases (walkFn_err _ _ _ _ _) hv.1 hrun with ⟨_, h2, _⟩ | ⟨e, _, h2⟩
  · subst h2
    exact h0
  · refine walk_keeps (TargetKept R fs0) (Reported R) ?_ ?_ depth fs0 _ _ fs1 r h0
      ⟨[], ValidPath.nil, by simp⟩ h2
    · rintro st path e st1 r hI ⟨rel, hrel, rfl⟩ hw
      exact hI.callback hv hsne hapart absProc config.verbose hrel hw
    · rintro st path n hI ⟨rel, hrel, rfl⟩ hn
      have hnv := validName_of_mem_readDirNames hI.1 hn
      refine ⟨rel ++ [n], hrel.append (ValidPath.single hnv), ?_⟩
      rw [filepathJoin_render (hv.1.append hrel) hnv, List.append_assoc]

/-! ## Overlapping trees -/

/-- With the staging root equal to the source root, `basecopy` copies a file
onto itself: `os.Create` truncates it before `io.Copy` reads it, and the
file is left empty. -/
theorem staging_on_source_truncates :
    cfgStageIsSource.sourceRoot envRoot = some (path "/a/x")
      ∧ cfgStageIsSource.stagingRoot envRoot = some (path "/a/x")
      ∧ entryAt fsStageIsSource (path "/a/x/f") = some (Entry.file (ascii "1") true)
      ∧ (cfgStageIsSource.copyFiles envRoot 3 fsStageIsSource).map
          (fun r => (r.2, entryAt r.1 (path "/a/x/f")))
          = some (none, some (Entry.file [] true)) := by
  decide

/-- With the staging root `/t/t` in the target tree, the staged copy of the
new file `/s/a` takes the place `/t/t/a` where the new directory `/s/t/a`
would be mirrored: after the run a file, not a directory, is at
`<target root>/t/a`. -/
theorem staging_in_target_blocks_mirror :
    entryAt fsFileOverMirror (path "/s" ++ path "/t/a") = some Entry.dir
      ∧ entryAt fsFileOverMirror (path "/t" ++ path "/t/a") = none
      ∧ (cfgStageInTarget.copyFiles envRoot 4 fsFileOverMirror).map
          (fun r => (r.2, entryAt r.1 (path "/t" ++ path "/t/a")))
          = some (none, some (Entry.file (ascii "1") true)) := by
  decide


/-! ## The claims -/

/-- C1: on pairwise disjoint source tree, target tree and staging root,
a regular file at `<source root>/rel` without entry at `<target root>/rel`
has, after a run that returns no error, a copy at `<staging root>/rel` with
exactly its bytes. -/
theorem C1_new_file_staged (config : Config) (env : Env) (depth : Nat) (fs fs1 : FS)
    (R : Roots) (rel : Path) (c : Bytes) (b : Bool)
    (hwf : WF fs)
    (hsrc : config.sourceRoot env = some R.sc)
    (htgt : config.targetRoot env = some R.tc)
    (hstg : config.stagingRoot env = some R.pc)
    (hdis : R.Disjoint)
    (hfile : entryAt fs (R.sc ++ rel) = some (Entry.file c b))
    (habsent : entryAt fs (R.tc ++ rel) = none)
    (hrun : config.copyFiles env depth fs = some (fs1, none)) :
    entryAt fs1 (R.pc ++ rel) = some (Entry.file c true) :=
  (staged_of_qualifies hsrc htgt hstg hwf hdis hrun hfile (Or.inl habsent)).2.1

theorem C1_new_file_staged_witness :
    WF fsNew ∧ cfgPlain.copyFiles envRoot 3 fsNew = some (fsNewAfter, none)
      ∧ entryAt fsNewAfter (path "/d/t/b") = some (Entry.file (ascii "new") true) :=
  have hwf : WF fsNew := by decide
  have hrun : cfgPlain.copyFiles envRoot 3 fsNew = some (fsNewAfter, none) := by decide
  ⟨hwf, hrun, C1_new_file_staged cfgPlain envRoot 3 fsNew fsNewAfter rootsPlain (path "/b")
    (ascii "new") true hwf (by decide) (by decide) (by decide) (by decide) (by decide)
    (by decide) hrun⟩

/-- On a source file that cannot be opened the callback calls `filecopy`,
which fails at `os.Open`: the callback returns the error of `filecopy` and
changes nothing. -/
theorem walkFn_source_denied {R : Roots} (hv : R.Valid) (hs : R.sc ≠ []) (ht : R.tc ≠ [])
    (hp : R.pc ≠ []) (absProc : Str) (verbose : Bool) {st : FS} {rel : Path}
    (hrel : ValidPath rel) {c : Bytes}
    (hf : entryAt st (R.sc ++ rel) = some (Entry.file c false)) :
    walkFn (render R.sc) (render R.tc) (render R.pc) absProc verbose st
        (render (R.sc ++ rel)) none
      = (st, some ("It was not possible to filecopy file '".data ++ render (R.sc ++ rel)
          ++ "'".data)) := by
  have hsv : ValidPath (R.sc ++ rel) := hv.1.append hrel
  have hq : Qualifies st (R.sc ++ rel) (R.tc ++ rel) := by
    right; left
    simp [fingerprint, hf]
  rw [walkFn_file_eq hv hs ht absProc verbose hrel hf, if_pos hq, filecopy_eq hs hp,
    basecopy_unfold]
  simp [osOpen, resolve_render hsv, hf]

/-- C6, counterexample: with diff directory `/` and target `/t` the staging
root is the target root.  The target file `/t/f` holds the byte `2` before
the run and the byte `1` of the source file after it. -/
theorem C6_counterexample :
    WF fsStageIsTarget
      ∧ cfgStageIsTarget.targetRoot envRoot = some (path "/t")
      ∧ cfgStageIsTarget.stagingRoot envRoot = some (path "/t")
      ∧ entryAt fsStageIsTarget (path "/t/f") = some (Entry.file (ascii "2") true)
      ∧ (cfgStageIsTarget.copyFiles envRoot 3 fsStageIsTarget).map
          (fun r => (r.2, entryAt r.1 (path "/t/f")))
          = some (none, some (Entry.file (ascii "1") true)) := by
  decide

/-- C6, amended: when the source root is not `/` and the staging root and
the target tree are disjoint, however the run ends, every entry that exists
below the target root before the run is the same after it, regular files
with their bytes; a path below the target root without entry before the run
has no entry or a directory after it. -/
theorem C6_target_files_untouched (config : Config) (env : Env) (depth : Nat) (fs fs1 : FS)
    (r : Option Str) (R : Roots) (q : Path)
    (hwf : WF fs)
    (hsrc : config.sourceRoot env = some R.sc)
    (htgt : config.targetRoot env = some R.tc)
    (hstg : config.stagingRoot env = some R.pc)
    (hnotroot : R.sc ≠ [])
    (hapart : Apart R.tc R.pc)
    (hq : R.tc <+: q)
    (hrun : config.copyFiles env depth fs = some (fs1, r)) :
    (∀ e, entryAt fs q = some e → entryAt fs1 q = some e)
      ∧ (entryAt fs q = none → entryAt fs1 q = none ∨ entryAt fs1 q = some Entry.dir) := by
  have hI := run_targetKept hsrc htgt hstg hwf hnotroot hapart hrun
  rcases hI.2 q hq with h1 | ⟨h0, h1⟩
  · rw [h1]
    exact ⟨fun e he => he, fun h => Or.inl h⟩
  · rw [h0, h1]
    exact ⟨fun e he => (nomatch he), fun _ => Or.inr rfl⟩

theorem C6_target_files_untouched_witness :
    WF fsTest ∧ cfgTest.copyFiles envTest 4 fsTest = some (fsTestAfter, none)
      ∧ entryAt fsTestAfter (path "/w/target/system-conf/cluster/testfile.properties")
          = some (Entry.file (ascii "hello\ntest2\n") true) :=
  have hwf : WF fsTest := by decide
  have hrun : cfgTest.copyFiles envTest 4 fsTest = some (fsTestAfter, none) := by decide
  ⟨hwf, hrun, (C6_target_files_untouched cfgTest envTest 4 fsTest fsTestAfter none rootsTest
    (path "/w/target/system-conf/cluster/testfile.properties") hwf (by decide) (by decide)
    (by decide) (by decide) (by decide) (by decide) hrun).1 _ (by decide)⟩


/-- C7, counterexample: with source `/s`, target `/t/z` and diff directory
`/s` the staging root `/s/z` lies in the source tree.  The first run returns
no error and stages `/s/a` at `/s/z/a`; the second run walks the staged
copy, creates the directory `/t/z/z` below the target root and stages
`/s/z/z/a` below the staging root, neither of which existed after the first
run. -/
theorem C7_counterexample :
    WF fsStageInSource
      ∧ cfgStageInSource.targetRoot envRoot = some (path "/t/z")
      ∧ cfgStageInSource.stagingRoot envRoot = some (path "/s/z")
      ∧ (cfgStageInSource.copyFiles envRoot 5 fsStageInSource).map
          (fun r => (r.2, entryAt r.1 (path "/t/z" ++ path "/z"),
            entryAt r.1 (path "/s/z" ++ path "/z/a")))
          = some (none, none, none)
      ∧ ((cfgStageInSource.copyFiles envRoot 5 fsStageInSource).bind
            (fun r => cfgStageInSource.copyFiles envRoot 5 r.1)).map
          (fun r => (r.2, entryAt r.1 (path "/t/z" ++ path "/z"),
            entryAt r.1 (path "/s/z" ++ path "/z/a")))
          = some (none, some Entry.dir, some (Entry.file (ascii "1") true)) := by
  decide

/-- C7, amended: on pairwise disjoint source tree, target tree and staging
root, after a first run that returns no error, a second run with the same
configuration (within the same or a larger depth bound) returns no error
and leaves every path of the file system with the entry it had after the
first run: the same entries below the staging root and below the target
root, and the same bytes in every file. -/
theorem C7_second_run_changes_nothing (config : Config) (env : Env) (depth depth2 : Nat)
    (fs fs1 : FS) (R : Roots)
    (hwf : WF fs)
    (hsrc : config.sourceRoot env = some R.sc)
    (htgt : config.targetRoot env = some R.tc)
    (hstg : config.stagingRoot env = some R.pc)
    (hdis : R.Disjoint)
    (hle : depth ≤ depth2)
    (hrun : config.copyFiles env depth fs = some (fs1, none)) :
    ∃ fs2, config.copyFiles env depth2 fs1 = some (fs2, none) ∧ SameEntries fs2 fs1 := by
  obtain ⟨hv, absProc, heq⟩ := copyFiles_eq_walk hsrc htgt hstg
  have S : Setting R fs := ⟨hwf, hv, hdis⟩
  have F := finished_of_run hsrc htgt hstg hwf hdis hrun
  have hrun1 := hrun
  rw [heq] at hrun1
  rcases filepathWalk_cases (walkFn_err _ _ _ _ _) hv.1 hrun1 with ⟨_, _, h3⟩ | ⟨e, h1, h2⟩
  · exact absurd rfl h3
  · have hroot : entryAt fs (R.sc ++ []) = some e := by rw [List.append_nil]; exact h1
    have hw1 : walk (walkFn (render R.sc) (render R.tc) (render R.pc) absProc config.verbose)
        depth fs (render (R.sc ++ [])) (isDir (entryAt fs (R.sc ++ []))) = some (fs1, none) := by
      rw [hroot, List.append_nil]; exact h2
    obtain ⟨fs2, hw2, hsame, _⟩ := second_walk S F absProc config.verbose depth fs fs1 [] fs1
      (Inv.start S) ValidPath.nil (by rw [hroot]; simp) hw1 (fun _ => rfl) F.inv.1
    refine ⟨fs2, ?_, hsame⟩
    apply copyFiles_mono config env hle
    rw [heq]
    unfold filepathWalk osLstat
    have hroot1 : entryAt fs1 R.sc = some e := by
      rw [F.inv.source S (List.prefix_refl _)]; exact h1
    rw [resolve_render hv.1, hroot1]
    rw [hroot, List.append_nil] at hw2
    exact hw2

theorem C7_second_run_changes_nothing_witness :
    WF fsTest ∧ cfgTest.copyFiles envTest 4 fsTest = some (fsTestAfter, none)
      ∧ ∃ fs2, cfgTest.copyFiles envTest 4 fsTestAfter = some (fs2, none)
          ∧ SameEntries fs2 fsTestAfter :=
  have hwf : WF fsTest := by decide
  have hrun : cfgTest.copyFiles envTest 4 fsTest = some (fsTestAfter, none) := by decide
  ⟨hwf, hrun, C7_second_run_changes_nothing cfgTest envTest 4 4 fsTest fsTestAfter rootsTest
    hwf (by decide) (by decide) (by decide) (by decide) (by decide) hrun⟩

/-- C8, the staging side: the diff directory `/d` is a regular file, so that
the parent `/d/t` of the staged copy of `/s/f` cannot be created.
`basecopy` returns the error that names the directory and the cause;
`filecopy` replaces it, and the run returns an error that names only the
source file: it contains neither the directory `/d/t` nor the cause. -/
theorem C8_staging_directory_error_lost :
    basecopy fsDiffIsFile "/s/f".data "/d/t/f".data
        = (fsDiffIsFile, .error
            "failed to create directory: '/d/t', error: 'mkdir /d: not a directory'".data)
      ∧ cfgPlain.copyFiles envRoot 3 fsDiffIsFile
        = some (fsDiffIsFile, some "It was not possible to filecopy file '/s/f'".data)
      ∧ ¬ ("/d/t".data <:+: "It was not possible to filecopy file '/s/f'".data)
      ∧ ¬ ("mkdir /d: not a directory".data
            <:+: "It was not possible to filecopy file '/s/f'".data) := by
  decide

/-- The target side of a failed directory creation: when the directory that
mirrors a source directory cannot be created, the callback returns an error whose message contains the
path of that directory and the text of the cause. -/
theorem walkFn_mkdir_error (absSrc absTarget procTarget absProc : Str) (verbose : Bool)
    (fs : FS) (path cause : Str)
    (hdir : IsDirectory fs path = .ok true)
    (hnew : FileExists fs (newpath path absSrc absTarget) = false)
    (hfail : osMkdirAll fs (newpath path absSrc absTarget) = .error cause) :
    ∃ msg, walkFn absSrc absTarget procTarget absProc verbose fs path none = (fs, some msg)
      ∧ newpath path absSrc absTarget <:+: msg ∧ cause <:+: msg := by
  refine ⟨"failed to create directory: '".data ++ newpath path absSrc absTarget
    ++ "', error: '".data ++ cause ++ "'".data, ?_, ?_, ?_⟩
  · simp [walkFn, hdir, hnew, hfail]
  · exact ⟨"failed to create directory: '".data, "', error: '".data ++ cause ++ "'".data,
      by simp⟩
  · exact ⟨"failed to create directory: '".data ++ newpath path absSrc absTarget
      ++ "', error: '".data, "'".data, by simp⟩

/-- The texts that `parseBool` reads are the accepted texts, each with its
value. -/
theorem parseBool_iff (text : Str) (b : Bool) :
    parseBool text = some b ↔ (text, b) ∈ boolTexts := by
  unfold parseBool boolTexts
  split_ifs with h1 h2 <;> cases b <;> simp_all
  rcases h1 with rfl | rfl | rfl | rfl | rfl | rfl <;> decide

/-- The values of the flags after one flag was given. -/
theorem givenFlags_cons (flags : Flags) (a : FlagArg) (items : List FlagArg) :
    givenFlags flags (a :: items) = givenFlags (givenFlags flags [a]) items := by
  have key : ∀ {α β : Type} (g : α → Option β) (x : α) (l : List α) (d : β),
      ((x :: l).filterMap g).getLast?.getD d
        = ((l.filterMap g).getLast?).getD ((([x].filterMap g).getLast?).getD d) := by
    intro α β g x l d
    cases hx : g x with
    | none => simp [List.filterMap_cons, hx]
    | some y =>
      simp only [List.filterMap_cons, hx, List.filterMap_nil, List.getLast?_singleton,
        Option.getD_some, List.getLast?_cons]
      cases (List.filterMap g l).getLast? <;> rfl
  simp only [givenFlags, givenValue, givenVerbose, Flags.mk.injEq]
  exact ⟨key _ _ _ _, key _ _ _ _, key _ _ _ _, key _ _ _ _⟩

/-- A well-formed flag at the head of the arguments is seen, and sets its
value. -/
theorem parseOne_flagArg (flags : Flags) (a : FlagArg) (h : a.WellFormed) (rest : List Str) :
    parseOne flags (a.args ++ rest) = ParseOne.seen (givenFlags flags [a]) rest := by
  cases a with
  | joined two f value => cases two <;> cases f <;> rfl
  | apart two f value => cases two <;> cases f <;> rfl
  | verbose two => cases two <;> rfl
  | verboseAs two text b =>
    have hb : parseBool text = some b := (parseBool_iff text b).2 h
    have hsplit : splitFlag ('v' :: '=' :: text) = ("v".data, some text) := rfl
    cases two
    · show parseOne flags (('-' :: 'v' :: '=' :: text) :: rest) = _
      unfold parseOne
      simp [hsplit, hb, givenFlags, givenVerbose, givenValue, FlagArg.verbose?, FlagArg.value?]
    · show parseOne flags (('-' :: '-' :: 'v' :: '=' :: text) :: rest) = _
      unfold parseOne
      simp [hsplit, hb, givenFlags, givenVerbose, givenValue, FlagArg.verbose?, FlagArg.value?]

/-- The argument without its dashes is the name, followed by `=` and the
value when there is one. -/
theorem splitFlag_eq (name key : Str) (value : Option Str)
    (h : splitFlag name = (key, value)) :
    name = key ++ (value.map ('=' :: ·)).getD [] := by
  cases name with
  | nil => simp [splitFlag] at h; obtain ⟨rfl, rfl⟩ := h; rfl
  | cons c rest =>
    have hsplit := List.takeWhile_append_dropWhile (· ≠ '=') rest
    have hhead := List.head?_dropWhile_not (· ≠ '=') rest
    simp only [splitFlag, List.span_eq_take_drop] at h
    split at h
    · rename_i n heq
      simp only [Prod.mk.injEq] at heq h
      obtain ⟨rfl, hd⟩ := heq
      obtain ⟨rfl, rfl⟩ := h
      rw [hd] at hsplit
      simpa using hsplit.symm
    · rename_i n d v heq
      simp only [Prod.mk.injEq] at heq h
      obtain ⟨rfl, hd⟩ := heq
      obtain ⟨rfl, rfl⟩ := h
      rw [hd] at hsplit hhead
      simp at hhead
      subst hhead
      simpa using hsplit.symm

/-- Two dashes before a name are read as one dash. -/
theorem parseOne_two_dashes (flags : Flags) (c : Char) (t : Str) (rest : List Str)
    (hc : c ≠ '-') :
    parseOne flags (('-' :: '-' :: c :: t) :: rest) = parseOne flags (('-' :: c :: t) :: rest) := by
  simp [parseOne, hc]

/-- Whenever a flag is seen after one dash, the arguments taken are a
well-formed flag, with one dash or with two. -/
theorem parseOne_seen_name (flags flags1 : Flags) (c : Char) (t : Str) (rest args1 : List Str)
    (hc : c ≠ '-')
    (h : parseOne flags (('-' :: c :: t) :: rest) = ParseOne.seen flags1 args1) :
    ∃ a : Bool → FlagArg, ∀ two, (a two).WellFormed
      ∧ (dashes two ++ c :: t) :: rest = (a two).args ++ args1
      ∧ flags1 = givenFlags flags [a two] := by
  obtain ⟨key, value, hsf⟩ : ∃ key value, splitFlag (c :: t) = (key, value) := ⟨_, _, rfl⟩
  have hname := splitFlag_eq _ _ _ hsf
  unfold parseOne at h
  simp only [ne_eq, not_true_eq_false, if_false, hc, false_and, if_false, List.head?_cons,
    Option.some.injEq, false_or, reduceCtorEq, hsf] at h
  split_ifs at h with hbad hv hdir hs ht
  · subst hv
    cases value with
    | none =>
      simp only [ParseOne.seen.injEq] at h
      obtain ⟨rfl, rfl⟩ := h
      refine ⟨fun two => FlagArg.verbose two, fun two => ⟨trivial, ?_, ?_⟩⟩
      · simp at hname
        simp [FlagArg.args, hname]
      · rfl
    | some v =>
      simp only at h
      cases hb : parseBool v with
      | none => rw [hb] at h; cases h
      | some b =>
        rw [hb] at h
        simp only [ParseOne.seen.injEq] at h
        obtain ⟨rfl, rfl⟩ := h
        refine ⟨fun two => FlagArg.verboseAs two v b, fun two =>
          ⟨(parseBool_iff v b).1 hb, ?_, ?_⟩⟩
        · simp at hname
          simp [FlagArg.args, hname]
        · rfl
  · subst hs
    cases value with
    | some v =>
      simp only [ParseOne.seen.injEq] at h
      obtain ⟨rfl, rfl⟩ := h
      refine ⟨fun two => FlagArg.joined two DirFlag.srcdir v, fun two => ⟨trivial, ?_, rfl⟩⟩
      simp at hname
      simp [FlagArg.args, DirFlag.name, hname]
    | none =>
      cases rest with
      | nil => cases h
      | cons v rest1 =>
        simp only [ParseOne.seen.injEq] at h
        obtain ⟨rfl, rfl⟩ := h
        refine ⟨fun two => FlagArg.apart two DirFlag.srcdir v, fun two => ⟨trivial, ?_, rfl⟩⟩
        simp at hname
        simp [FlagArg.args, DirFlag.name, hname]
  · subst ht
    cases value with
    | some v =>
      simp only [ParseOne.seen.injEq] at h
      obtain ⟨rfl, rfl⟩ := h
      refine ⟨fun two => FlagArg.joined two DirFlag.targetdir v, fun two => ⟨trivial, ?_, rfl⟩⟩
      simp at hname
      simp [FlagArg.args, DirFlag.name, hname]
    | none =>
      cases rest with
      | nil => cases h
      | cons v rest1 =>
        simp only [ParseOne.seen.injEq] at h
        obtain ⟨rfl, rfl⟩ := h
        refine ⟨fun two => FlagArg.apart two DirFlag.targetdir v, fun two => ⟨trivial, ?_, rfl⟩⟩
        simp at hname
        simp [FlagArg.args, DirFlag.name, hname]
  · have hd : key = "diffdir".data := by
      rcases hdir with h1 | h1 | h1
      · exact absurd h1 hs
      · exact absurd h1 ht
      · exact h1
    subst hd
    cases value with
    | some v =>
      simp only [ParseOne.seen.injEq] at h
      obtain ⟨rfl, rfl⟩ := h
      refine ⟨fun two => FlagArg.joined two DirFlag.diffdir v, fun two => ⟨trivial, ?_, rfl⟩⟩
      simp at hname
      simp [FlagArg.args, DirFlag.name, hname]
    | none =>
      cases rest with
      | nil => cases h
      | cons v rest1 =>
        simp only [ParseOne.seen.injEq] at h
        obtain ⟨rfl, rfl⟩ := h
        refine ⟨fun two => FlagArg.apart two DirFlag.diffdir v, fun two => ⟨trivial, ?_, rfl⟩⟩
        simp at hname
        simp [FlagArg.args, DirFlag.name, hname]

/-- Whenever a flag is seen, the arguments taken are a well-formed flag, and
the values afterwards are those it gives. -/
theorem parseOne_seen (flags flags1 : Flags) (args args1 : List Str)
    (h : parseOne flags args = ParseOne.seen flags1 args1) :
    ∃ a : FlagArg, a.WellFormed ∧ args = a.args ++ args1 ∧ flags1 = givenFlags flags [a] := by
  match args, h with
  | [], h => cases h
  | [] :: rest, h => cases h
  | [_] :: rest, h => cases h
  | (c0 :: c1 :: tail) :: rest, h =>
    by_cases h0 : c0 = '-'
    · subst h0
      by_cases h1 : c1 = '-'
      · subst h1
        match tail, h with
        | [], h => cases h
        | c :: t, h =>
          by_cases hc : c = '-'
          · subst hc
            simp [parseOne] at h
          · rw [parseOne_two_dashes flags c t rest hc] at h
            obtain ⟨a, ha⟩ := parseOne_seen_name flags flags1 c t rest args1 hc h
            exact ⟨a true, ha true⟩
      · obtain ⟨a, ha⟩ := parseOne_seen_name flags flags1 c1 tail rest args1 h1 h
        exact ⟨a false, ha false⟩
    · simp [parseOne, h0] at h

/-- Parsing stops without error exactly at the arguments that end the
flags. -/
theorem parseOne_stop_iff (flags : Flags) (args : List Str) :
    parseOne flags args = ParseOne.stop ↔ endsFlags args = true := by
  match args with
  | [] => simp [parseOne, endsFlags]
  | [] :: rest => simp [parseOne, endsFlags]
  | [_] :: rest => simp [parseOne, endsFlags]
  | (c0 :: c1 :: tail) :: rest =>
    by_cases h0 : c0 = '-'
    · subst h0
      by_cases h1 : c1 = '-' ∧ tail = []
      · obtain ⟨rfl, rfl⟩ := h1
        simp [parseOne, endsFlags]
      · have hends : endsFlags (('-' :: c1 :: tail) :: rest) = false := by
          simp only [endsFlags, List.length_cons, List.head?_cons, bne_self_eq_false,
            Bool.or_false, Bool.false_or, Bool.or_eq_false_iff, decide_eq_false_iff_not,
            beq_eq_false_iff_ne, ne_eq]
          constructor
          · omega
          · intro h
            apply h1
            simp only [List.cons.injEq, true_and] at h
            exact h
        rw [hends]
        simp only [Bool.false_eq_true, iff_false]
        intro h
        obtain ⟨key, value, hsf⟩ :
            ∃ key value, splitFlag (if c1 = '-' then tail else c1 :: tail) = (key, value) :=
          ⟨_, _, rfl⟩
        unfold parseOne at h
        simp only [ne_eq, not_true_eq_false, if_false, h1, hsf] at h
        split_ifs at h
        all_goals repeat (first | cases h | split at h)
    · simp [parseOne, endsFlags, h0]

/-- Every flag takes at least one argument. -/
theorem FlagArg.args_length_pos (a : FlagArg) : 0 < a.args.length := by
  cases a <;> simp [FlagArg.args]

/-- Rounds beyond the number of arguments change nothing. -/
theorem parseLoop_fuel (n m : Nat) (flags : Flags) (args : List Str) (hn : args.length < n)
    (hm : args.length < m) : parseLoop n flags args = parseLoop m flags args := by
  induction n generalizing m flags args with
  | zero => omega
  | succ n ih =>
    obtain ⟨m, rfl⟩ : ∃ k, m = k + 1 := ⟨m - 1, by omega⟩
    simp only [parseLoop]
    cases hp : parseOne flags args with
    | seen flags1 args1 =>
      obtain ⟨a, _, hargs, _⟩ := parseOne_seen flags flags1 args args1 hp
      have hpos := a.args_length_pos
      have hlen : args.length = a.args.length + args1.length := by
        rw [hargs, List.length_append]
      exact ih m flags1 args1 (by omega) (by omega)
    | stop => rfl
    | help => rfl
    | fail => rfl

/-- Parsing a command line of well-formed flags: every flag is seen, in
order, and parsing stops without error where the flags end. -/
theorem parseLoop_commandLine (items : List FlagArg) (rest : List Str) (flags : Flags)
    (n : Nat) (hitems : ∀ a ∈ items, a.WellFormed) (hrest : endsFlags rest = true)
    (hn : items.length < n) :
    parseLoop n flags (commandLine items rest) = (givenFlags flags items, none) := by
  induction items generalizing flags n with
  | nil =>
    obtain ⟨m, rfl⟩ : ∃ m, n = m + 1 := ⟨n - 1, by simp at hn; omega⟩
    have hstop := (parseOne_stop_iff flags rest).2 hrest
    simp only [commandLine, List.flatMap_nil, List.nil_append, parseLoop, hstop]
    cases flags
    rfl
  | cons a items ih =>
    obtain ⟨m, rfl⟩ : ∃ m, n = m + 1 := ⟨n - 1, by simp at hn; omega⟩
    have hseen := parseOne_flagArg flags a (hitems a (List.mem_cons_self _ _))
      (commandLine items rest)
    have hline : commandLine (a :: items) rest = a.args ++ commandLine items rest := by
      simp [commandLine]
    rw [hline]
    simp only [parseLoop, hseen]
    rw [ih (givenFlags flags [a]) m (fun b hb => hitems b (List.mem_cons_of_mem _ hb))
      (by simp at hn; omega), ← givenFlags_cons]

/-- `Parse` on a command line of well-formed flags returns, with the flag
variables holding the values given. -/
theorem commandParse_commandLine (items : List FlagArg) (rest : List Str) (flags : Flags)
    (hitems : ∀ a ∈ items, a.WellFormed) (hrest : endsFlags rest = true) :
    commandParse flags (commandLine items rest) = (givenFlags flags items, none) := by
  unfold commandParse
  apply parseLoop_commandLine items rest flags _ hitems hrest
  have hlen : ∀ l : List FlagArg, l.length ≤ (l.flatMap FlagArg.args).length := by
    intro l
    induction l with
    | nil => simp
    | cons a l ih =>
      have := a.args_length_pos
      simp only [List.flatMap_cons, List.length_append, List.length_cons]
      omega
  have := hlen items
  simp only [commandLine, List.length_append]
  omega

/-- The command lines that `Parse` accepts are exactly those made of
well-formed flags up to where the flags end. -/
theorem parseLoop_accepts (n : Nat) (flags flags1 : Flags) (args : List Str)
    (hn : args.length < n) (h : parseLoop n flags args = (flags1, none)) :
    ∃ items rest, (∀ a ∈ items, a.WellFormed) ∧ endsFlags rest = true
      ∧ args = commandLine items rest ∧ flags1 = givenFlags flags items := by
  induction n generalizing flags args with
  | zero => omega
  | succ n ih =>
    simp only [parseLoop] at h
    cases hp : parseOne flags args with
    | seen flags2 args2 =>
      rw [hp] at h
      obtain ⟨a, hwf, hargs, hflags⟩ := parseOne_seen flags flags2 args args2 hp
      have hpos := a.args_length_pos
      have hlen : args.length = a.args.length + args2.length := by
        rw [hargs, List.length_append]
      obtain ⟨items, rest, hitems, hrest, hline, hgiven⟩ := ih flags2 args2 (by omega) h
      refine ⟨a :: items, rest, ?_, hrest, ?_, ?_⟩
      · intro b hb
        rcases List.mem_cons.1 hb with rfl | hb
        · exact hwf
        · exact hitems b hb
      · rw [hargs, hline]
        simp [commandLine]
      · rw [hgiven, hflags, ← givenFlags_cons]
    | stop =>
      rw [hp] at h
      simp only [Prod.mk.injEq, and_true] at h
      subst h
      refine ⟨[], args, fun a ha => (nomatch ha), (parseOne_stop_iff flags args).1 hp, ?_, ?_⟩
      · simp [commandLine]
      · cases flags
        rfl
    | help => rw [hp] at h; cases h
    | fail => rw [hp] at h; cases h

/-- `Parse` returns exactly on the command lines made of well-formed flags up
to where the flags end; on every other command line the process exits. -/
theorem commandParse_returns_iff (flags : Flags) (args : List Str) :
    (commandParse flags args).2 = none
      ↔ ∃ items rest, (∀ a ∈ items, a.WellFormed) ∧ endsFlags rest = true
          ∧ args = commandLine items rest := by
  constructor
  · intro h
    obtain ⟨items, rest, hitems, hrest, hline, _⟩ :=
      parseLoop_accepts (args.length + 1) flags (commandParse flags args).1 args (by omega)
        (by unfold commandParse at h ⊢; exact Prod.ext rfl h)
    exact ⟨items, rest, hitems, hrest, hline⟩
  · rintro ⟨items, rest, hitems, hrest, rfl⟩
    rw [commandParse_commandLine items rest flags hitems hrest]

/-- When `Parse` does not return, the process exits with status 0 or 2. -/
theorem parseLoop_status (n : Nat) (flags flags1 : Flags) (args : List Str) (status : Nat)
    (h : parseLoop n flags args = (flags1, some status)) : status = 0 ∨ status = 2 := by
  induction n generalizing flags args with
  | zero => cases h
  | succ n ih =>
    simp only [parseLoop] at h
    cases hp : parseOne flags args with
    | seen flags2 args2 => rw [hp] at h; exact ih flags2 args2 h
    | stop => rw [hp] at h; cases h
    | help => rw [hp] at h; cases h; exact Or.inl rfl
    | fail => rw [hp] at h; cases h; exact Or.inr rfl

/-- The flag variables keep their values between calls: after the arguments
of `TestParseCommand`, a call without arguments in the same process fills
the configuration with the same directories. -/
theorem ParseCommandLine_second_call (config : Config) :
    Config.ParseCommandLine config (Config.ParseCommandLine config flagDefaults argsTest).2.1 []
      = (⟨"/path/to/srcdir".data, "/path/to/targetdir".data, "/path/to/diffdir".data, false⟩,
          ⟨"/path/to/srcdir".data, "/path/to/targetdir".data, "/path/to/diffdir".data, false⟩,
          none) := by
  rfl

end DirDiff
